import Mathlib

/-!
# lattice-symmetries: representative cache, enumerator and basis handle

A shallow embedding of `src/cache.cpp` and of the handle operations of
`src/basis.cpp`.  Machine words (`uint64_t`, `unsigned`) are natural numbers
with the wrap-around written out; code that can abort on an assertion or
that loops returns an `Option`, `none` standing for "no value produced".
-/

namespace lattice_symmetries

/-! ## Machine words -/

/-- Number of values of a `uint64_t`. -/
def U64 : Nat := 2 ^ 64

/-- Number of values of an `unsigned`. -/
def U32 : Nat := 2 ^ 32

/-- The enumeration `ls_error_code`: the codes the sources name, and, by its
value, any other code of the enumeration (it is declared in a header that is
not part of the sources). -/
inductive ls_error_code where
  | LS_SUCCESS
  | LS_OUT_OF_MEMORY
  | LS_INVALID_NUMBER_SPINS
  | LS_INVALID_HAMMING_WEIGHT
  | LS_INVALID_SPIN_INVERSION
  | LS_WRONG_BASIS_TYPE
  | LS_CACHE_NOT_BUILT
  | LS_NOT_A_REPRESENTATIVE
  | LS_SYSTEM_ERROR
  | LS_OTHER (value : Nat)
  deriving DecidableEq, Repr

open ls_error_code

/-! ## `generate_ranges` and `basis_cache_t::index` (cache.cpp) -/

/-- The marker `empty = (~uint64_t{0}, 0)` of `generate_ranges`. -/
def empty_range : Nat × Nat := (U64 - 1, 0)

/-- The inner `while (first != last && ((*first) & mask) == i)` loop of
`generate_ranges`: `rest` is the part of the span from `first` on, `count`
is `element.second`.  Returns the advanced `first` and the final count. -/
def generate_ranges_scan (mask i : Nat) : List Nat → Nat → List Nat × Nat
  | [], count => ([], count)
  | x :: rest, count =>
    if x &&& mask = i then generate_ranges_scan mask i rest (count + 1)
    else (x :: rest, count)

/-- The `for (i = 0; i < size; ++i)` loop of `generate_ranges`, with
`todo = size - i` iterations left, `pos = first - begin` and `rest` the part
of the span from `first` on. -/
def generate_ranges_loop (mask : Nat) : Nat → Nat → Nat → List Nat → List (Nat × Nat)
  | 0, _, _, _ => []
  | todo + 1, i, pos, [] => empty_range :: generate_ranges_loop mask todo (i + 1) pos []
  | todo + 1, i, pos, x :: rest =>
    if x &&& mask = i then
      let r := generate_ranges_scan mask i rest 1
      (pos, r.2) :: generate_ranges_loop mask todo (i + 1) (pos + r.2) r.1
    else
      empty_range :: generate_ranges_loop mask todo (i + 1) pos (x :: rest)

/-- The function `generate_ranges(states, bits)`; `none` when the assertion
`0 < bits && bits <= 32` fails. -/
def generate_ranges (states : List Nat) (bits : Nat) : Option (List (Nat × Nat)) :=
  if 0 < bits ∧ bits ≤ 32 then
    let size := 1 <<< bits
    let mask := size - 1
    some (generate_ranges_loop mask size 0 0 states)
  else none

/-- The binary search `std::lower_bound(first, last, x)` over positions of
`states`, as the standard library writes it: `len = last - first` halves
until it is zero.  `fuel` bounds the number of halvings. -/
def lower_bound_loop (states : List Nat) (x : Nat) : Nat → Nat → Nat → Nat
  | 0, first, _ => first
  | fuel + 1, first, len =>
    if len = 0 then first
    else
      let half := len / 2
      let middle := first + half
      if states.getD middle 0 < x then
        lower_bound_loop states x fuel (middle + 1) (len - half - 1)
      else
        lower_bound_loop states x fuel first half

/-- The call `std::lower_bound(first, last, x)` with `last = first + len`. -/
def lower_bound (states : List Nat) (first len x : Nat) : Nat :=
  lower_bound_loop states x len first len

/-- The class `basis_cache_t`: the representative list and the bucket index. -/
structure basis_cache_t where
  _states : List Nat
  _ranges : List (Nat × Nat)
  deriving DecidableEq, Repr

/-- The constant `basis_cache_t::bits` (declared in `cache.hpp`; the bucket
width is 16 bits). -/
def basis_cache_t.bits : Nat := 16

/-- Outcome of `basis_cache_t::index`: a position, an error code, or the
failure of the internal assertion `*i == x`. -/
inductive index_result where
  | value (i : Nat)
  | failure (e : ls_error_code)
  | assertion_failed
  deriving DecidableEq, Repr

/-- The method `basis_cache_t::index(x)`.  Positions are offsets from
`begin(_states)`; the start `2^64 - 1` of an empty bucket is only ever
compared, never dereferenced, since its length is zero. -/
def basis_cache_t.index (c : basis_cache_t) (x : Nat) : index_result :=
  let mask := (1 <<< basis_cache_t.bits) - 1
  let range := c._ranges.getD (x &&& mask) empty_range
  let first := range.1
  let last := first + range.2
  let i := lower_bound c._states first range.2 x
  if i = last then index_result.failure LS_NOT_A_REPRESENTATIVE
  else if c._states.getD i 0 = x then index_result.value i
  else index_result.assertion_failed

/-- The member `states()`. -/
def basis_cache_t.states (c : basis_cache_t) : List Nat := c._states

/-- The member `number_states()`. -/
def basis_cache_t.number_states (c : basis_cache_t) : Nat := c._states.length

/-- The part of the constructor of `basis_cache_t` that follows the choice
of `_states`: `_ranges{generate_ranges(_states, bits)}`. -/
def basis_cache_t.of_states (states : List Nat) : Option basis_cache_t :=
  (generate_ranges states basis_cache_t.bits).map fun r => { _states := states, _ranges := r }

/-! ## Bit helpers used by the enumerator -/

/-- Number of set bits among the lowest `width` bits of `x`. -/
def popcount_bits : Nat → Nat → Nat
  | 0, _ => 0
  | width + 1, x => x % 2 + popcount_bits width (x / 2)

/-- The helper `popcount` on a 64-bit word. -/
def popcount (x : Nat) : Nat := popcount_bits 64 x

/-- Number of trailing zero bits among the lowest `width` bits of `x`
(`width` when they are all zero). -/
def ctz_bits : Nat → Nat → Nat
  | 0, _ => 0
  | width + 1, x => if x % 2 = 1 then 0 else 1 + ctz_bits width (x / 2)

/-- The builtin `__builtin_ctzl` on a 64-bit word.  The builtin is undefined
at zero; the embedding returns 64 there, as the hardware instruction does. -/
def ctz (x : Nat) : Nat := ctz_bits 64 x

/-- The helper `test_bit(x, i)`. -/
def test_bit (x i : Nat) : Bool := (x >>> i) % 2 = 1

/-- The helper `set_bit(x, i)`: `x |= 1 << i`. -/
def set_bit (x i : Nat) : Nat := x ||| (1 <<< i)

/-- The helper `clear_bit(x, i)`: `x &= ~(1 << i)` on a 64-bit word. -/
def clear_bit (x i : Nat) : Nat := x &&& (U64 - 1 - (1 <<< i))

/-! ## The enumerator (cache.cpp) -/

/-- The function `next_state<FixedHammingWeight>(v)` on `uint64_t`. -/
def next_state (fixedHammingWeight : Bool) (v : Nat) : Nat :=
  if fixedHammingWeight then
    let t := v ||| ((v + U64 - 1) % U64)
    let not_t := U64 - 1 - t
    let neg_not_t := (U64 - not_t) % U64
    ((t + 1) % U64) ||| ((((not_t &&& neg_not_t) + U64 - 1) % U64) >>> (ctz v + 1))
  else (v + 1) % U64

/-- First loop of `closest_hamming`: clear the lowest set bits until the
weight is `hamming_weight`.  `todo = 64 - i`; `none` is the failure of the
assertion `i < 64`. -/
def closest_hamming_clear (hamming_weight : Nat) : Nat → Nat → Nat → Nat → Option Nat
  | 0, _, x, weight => if weight > hamming_weight then none else some x
  | todo + 1, i, x, weight =>
    if weight > hamming_weight then
      if test_bit x i then closest_hamming_clear hamming_weight todo (i + 1) (clear_bit x i) (weight - 1)
      else closest_hamming_clear hamming_weight todo (i + 1) x weight
    else some x

/-- Second loop of `closest_hamming`: set the lowest unset bits until the
weight is `hamming_weight`. -/
def closest_hamming_set (hamming_weight : Nat) : Nat → Nat → Nat → Nat → Option Nat
  | 0, _, x, weight => if weight < hamming_weight then none else some x
  | todo + 1, i, x, weight =>
    if weight < hamming_weight then
      if ¬ test_bit x i then closest_hamming_set hamming_weight todo (i + 1) (set_bit x i) (weight + 1)
      else closest_hamming_set hamming_weight todo (i + 1) x weight
    else some x

/-- The function `closest_hamming(x, hamming_weight)`; `none` when one of its
assertions fails. -/
def closest_hamming (x hamming_weight : Nat) : Option Nat :=
  if ¬ hamming_weight ≤ 64 then none
  else
    let weight := popcount x
    if weight > hamming_weight then
      let max_value := if hamming_weight = 0 then 0 else ((U64 - 1) <<< (64 - hamming_weight)) % U64
      (closest_hamming_clear hamming_weight 64 0 x weight).map fun y =>
        if y < max_value then next_state true y else y
    else if weight < hamming_weight then
      closest_hamming_set hamming_weight 64 0 x weight
    else some x

/-- The `for (;;)` loop of `split_into_tasks<FixedHammingWeight>` after
`--chunk_size`.  `none` when an assertion fails or `fuel` iterations did not
reach the `break`. -/
def split_into_tasks_loop (fixedHammingWeight : Bool) (hamming_weight bound chunk_size : Nat) :
    Nat → Nat → Option (List (Nat × Nat))
  | 0, _ => none
  | fuel + 1, current =>
    if (bound + U64 - current) % U64 ≤ chunk_size then some [(current, bound)]
    else
      let target := (current + chunk_size) % U64
      match (if fixedHammingWeight then closest_hamming target hamming_weight else some target) with
      | none => none
      | some next =>
        if ¬ next ≥ current then none
        else if next ≥ bound then some [(current, bound)]
        else
          (split_into_tasks_loop fixedHammingWeight hamming_weight bound chunk_size fuel
            (next_state fixedHammingWeight next)).map fun ranges => (current, next) :: ranges

/-- The template `split_into_tasks<FixedHammingWeight>(current, bound, chunk_size)`
with `chunk_size` an `unsigned`.  Every iteration that does not break moves
`current` up, so the loop is given one iteration per value of the span. -/
def split_into_tasks_fhw (fixedHammingWeight : Bool) (current bound chunk_size : Nat) :
    Option (List (Nat × Nat)) :=
  let chunk_size := (chunk_size + U32 - 1) % U32
  let hamming_weight := popcount current
  split_into_tasks_loop fixedHammingWeight hamming_weight bound chunk_size
    (bound - current + 1) current

/-- The function `get_bounds(number_spins, hamming_weight)`. -/
def get_bounds (number_spins : Nat) (hamming_weight : Option Nat) : Nat × Nat :=
  match hamming_weight with
  | some h =>
    if h = 0 then (0, 0)
    else if h = 64 then (U64 - 1, U64 - 1)
    else
      let current := (U64 - 1) >>> (64 - h)
      let bound := if number_spins > h then (current <<< (number_spins - h)) % U64 else current
      (current, bound)
  | none => (0, (U64 - 1) >>> (64 - number_spins))

/-- The function `split_into_tasks(number_spins, hamming_weight, chunk_size)`;
`none` when an assertion fails. -/
def split_into_tasks (number_spins : Nat) (hamming_weight : Option Nat) (chunk_size : Nat) :
    Option (List (Nat × Nat)) :=
  if ¬ (0 < number_spins ∧ number_spins ≤ 64) then none
  else if ¬ (hamming_weight.all fun h => h ≤ number_spins) then none
  else
    let b := get_bounds number_spins hamming_weight
    split_into_tasks_fhw hamming_weight.isSome b.1 b.2 chunk_size

/-- The lambda `handle` of `generate_states_task`.  The state-info engine is
not part of these sources: `get_state_info x` is the representative it
reports for `x` together with the outcome of the test `norm > 0.0`. -/
def handle (get_state_info : Nat → Nat × Bool) (states : List Nat) (x : Nat) : List Nat :=
  let info := get_state_info x
  if info.1 = x ∧ info.2 = true then states ++ [x] else states

/-- The `for (; current < upper_bound; current = next_state(current))` loop of
`generate_states_task`; returns the final `current` and the states pushed. -/
def generate_states_task_loop (fixedHammingWeight : Bool) (upper_bound : Nat)
    (get_state_info : Nat → Nat × Bool) : Nat → Nat → List Nat → Option (Nat × List Nat)
  | 0, _, _ => none
  | fuel + 1, current, states =>
    if current < upper_bound then
      generate_states_task_loop fixedHammingWeight upper_bound get_state_info fuel
        (next_state fixedHammingWeight current) (handle get_state_info states current)
    else some (current, states)

/-- The function `generate_states_task(fixed_hamming_weight, current,
upper_bound, ..., states)`; `none` when an assertion fails or the loop does
not end. -/
def generate_states_task (fixedHammingWeight : Bool) (current upper_bound : Nat)
    (get_state_info : Nat → Nat × Bool) (states : List Nat) : Option (List Nat) :=
  if fixedHammingWeight = true ∧ popcount current ≠ popcount upper_bound then none
  else
    match generate_states_task_loop fixedHammingWeight upper_bound get_state_info
        (upper_bound - current + 1) current states with
    | none => none
    | some (last, pushed) =>
      if last = upper_bound then some (handle get_state_info pushed last) else none

/-- The task loop of `generate_states`: one chunk per range, in range order
(the list is reversed after the chunks were pushed to the front). -/
def generate_states_chunks (fixedHammingWeight : Bool) (get_state_info : Nat → Nat × Bool) :
    List (Nat × Nat) → Option (List (List Nat))
  | [] => some []
  | (current, bound) :: ranges =>
    match generate_states_task fixedHammingWeight current bound get_state_info [] with
    | none => none
    | some chunk =>
      (generate_states_chunks fixedHammingWeight get_state_info ranges).map fun cs => chunk :: cs

/-- The function `generate_states(batched, other, number_spins, hamming_weight)`
run with `omp_get_max_threads() = max_threads`, the tasks taken in the order
of the ranges.  Should `number_chunks` wrap to zero the division, undefined
in the source, gives chunk size 1 here. -/
def generate_states (get_state_info : Nat → Nat × Bool) (number_spins : Nat)
    (hamming_weight : Option Nat) (max_threads : Nat) : Option (List (List Nat)) :=
  if ¬ (0 < number_spins ∧ number_spins ≤ 64) then none
  else if ¬ (hamming_weight.all fun h => h ≤ number_spins) then none
  else
    let number_chunks := (100 * (max_threads % U32)) % U32
    let b := get_bounds number_spins hamming_weight
    let chunk_size := max ((b.2 - b.1) / number_chunks) 1
    match split_into_tasks number_spins hamming_weight (chunk_size % U32) with
    | none => none
    | some ranges => generate_states_chunks hamming_weight.isSome get_state_info ranges

/-- The helper `concatenate(chunks)`. -/
def concatenate (chunks : List (List Nat)) : List Nat :=
  chunks.foldl (fun r x => r ++ x) []

/-- The constructor `basis_cache_t(batched, other, number_spins,
hamming_weight, _unsafe_states)`. -/
def basis_cache_t.create (get_state_info : Nat → Nat × Bool) (number_spins : Nat)
    (hamming_weight : Option Nat) (max_threads : Nat) (unsafe_states : List Nat) :
    Option basis_cache_t :=
  let states :=
    if unsafe_states.isEmpty then
      (generate_states get_state_info number_spins hamming_weight max_threads).map concatenate
    else some unsafe_states
  states.bind basis_cache_t.of_states

/-! ## The basis handle (basis.cpp) -/

/-- Error of the byte-stream collaborator (`save_states`, `load_states`):
either in the library's own error category, carrying an `ls_error_code`, or
a system error. -/
inductive io_error where
  | library (e : ls_error_code)
  | system (errno : Nat)
  deriving DecidableEq, Repr

/-- A group as the group collaborator hands it over: what
`ls_group_get_number_spins` returns (`-1` when undefined) and the symmetries
(`ls_group_get_symmetries`, `ls_get_group_size`).  `Sym` is the payload of a
symmetry; the payload alternative of every symmetry is the one the basis
extracts. -/
structure ls_group (Sym : Type) where
  number_spins : Int
  symmetries : List Sym

/-- The function `ls_get_group_size`. -/
def ls_get_group_size {Sym : Type} (group : ls_group Sym) : Nat := group.symmetries.length

/-- The struct `basis_base_t`. -/
structure basis_base_t where
  refcount : Nat
  number_spins : Nat
  hamming_weight : Option Nat
  spin_inversion : Int
  has_symmetries : Bool
  deriving DecidableEq, Repr

/-- The struct `small_basis_t`; a `batched_small_symmetry_t` is the list of
its eight lanes. -/
structure small_basis_t (Sym : Type) where
  batched_symmetries : List (List Sym)
  other_symmetries : Option (List Sym)
  number_other_symmetries : Nat
  cache : Option basis_cache_t

/-- The struct `big_basis_t`. -/
structure big_basis_t (Sym : Type) where
  symmetries : List Sym

/-- The member `payload` of `ls_spin_basis`: `std::variant<small_basis_t, big_basis_t>`. -/
inductive basis_payload (Sym : Type) where
  | small (b : small_basis_t Sym)
  | big (b : big_basis_t Sym)

/-- The struct `ls_spin_basis`. -/
structure ls_spin_basis (Sym : Type) where
  header : basis_base_t
  payload : basis_payload Sym

/-- What the code of `basis.cpp` and `cache.cpp` calls and these sources do
not contain: the state-info engine as the enumerator of `cache.cpp` calls it,
`get_state_info(batched_symmetries, symmetries, x, repr, character, norm)`,
with the table and without the header (the representative reported for a
state and the outcome of `norm > 0.0`), the predicate
`is_representative_64(header, payload, x)` of `ls_is_representative`, the
number of OpenMP threads, the byte-stream collaborator and the identity
symmetry on a number of spins. -/
structure collaborators (Sym : Type) where
  get_state_info : List (List Sym) → Option (List Sym) → Nat → Nat → Nat × Bool
  is_representative_64 : basis_base_t → small_basis_t Sym → Nat → Bool
  omp_get_max_threads : Nat
  load_states : String → Except io_error (List Nat)
  save_states : List Nat → String → Except io_error Unit
  identity_symmetry : Nat → Sym

/-- The constant `batched_small_symmetry_t::batch_size`. -/
def batch_size : Nat := 8

/-- The first loop of `split_into_batches`: full batches from `offset` on;
returns the batches and the final `offset`. -/
def split_into_batches_full {Sym : Type} (symmetries : List Sym) :
    Nat → Nat → List (List Sym) → List (List Sym) × Nat
  | 0, offset, batched => (batched, offset)
  | fuel + 1, offset, batched =>
    if offset + batch_size ≤ symmetries.length then
      split_into_batches_full symmetries fuel (offset + batch_size)
        (batched ++ [(symmetries.drop offset).take batch_size])
    else (batched, offset)

/-- The padding loop of `split_into_batches`: push `s` until `other` has
`batch_size` entries. -/
def split_into_batches_pad {Sym : Type} (s : Sym) : Nat → List Sym → List Sym
  | 0, other => other
  | fuel + 1, other =>
    if other.length ≠ batch_size then split_into_batches_pad s fuel (other ++ [s]) else other

/-- The function `split_into_batches(symmetries)`. -/
def split_into_batches {Sym : Type} (symmetries : List Sym) :
    List (List Sym) × Option (List Sym) × Nat :=
  let r := split_into_batches_full symmetries symmetries.length 0 []
  let other := symmetries.drop r.2
  match other.getLast? with
  | none => (r.1, none, 0)
  | some s => (r.1, some (split_into_batches_pad s batch_size other), other.length)

/-- The constructor `small_basis_t(group)`. -/
def small_basis_t.create {Sym : Type} (group : ls_group Sym) : small_basis_t Sym :=
  let r := split_into_batches group.symmetries
  { batched_symmetries := r.1, other_symmetries := r.2.1, number_other_symmetries := r.2.2,
    cache := none }

/-- The constructor `big_basis_t(group)`. -/
def big_basis_t.create {Sym : Type} (group : ls_group Sym) : big_basis_t Sym :=
  { symmetries := group.symmetries }

/-- Modelled from the spec: `ls_create_trivial_group` is not in these sources.
The spec treats group construction as given and calls the group used when
only spin inversion is present the trivial group: the identity alone on
`number_spins` spins; its creation succeeds. -/
def ls_create_trivial_group {Sym : Type} (env : collaborators Sym) (number_spins : Nat) :
    ls_error_code × ls_group Sym :=
  (LS_SUCCESS, { number_spins := number_spins, symmetries := [env.identity_symmetry number_spins] })

/-- The function `ls_create_spin_basis(ptr, group, number_spins,
hamming_weight, spin_inversion)`: the returned code and the basis stored in
`*ptr`.  `none` when the check on the trivial group aborts. -/
def ls_create_spin_basis {Sym : Type} (env : collaborators Sym) (group : ls_group Sym)
    (number_spins : Nat) (hamming_weight spin_inversion : Int) :
    Option (ls_error_code × Option (ls_spin_basis Sym)) :=
  if number_spins = 0 ∨ number_spins > 512 then some (LS_INVALID_NUMBER_SPINS, none)
  else if group.number_spins ≠ -1 ∧ number_spins ≠ (group.number_spins % (U32 : Int)).toNat then
    some (LS_INVALID_NUMBER_SPINS, none)
  else if ¬ (hamming_weight = -1 ∨ (0 ≤ hamming_weight ∧ hamming_weight ≤ (number_spins : Int))) then
    some (LS_INVALID_HAMMING_WEIGHT, none)
  else if spin_inversion ≠ -1 ∧ spin_inversion ≠ 0 ∧ spin_inversion ≠ 1 then
    some (LS_INVALID_SPIN_INVERSION, none)
  else if spin_inversion ≠ 0 ∧ hamming_weight ≠ -1 ∧ 2 * hamming_weight ≠ (number_spins : Int) then
    some (LS_INVALID_SPIN_INVERSION, none)
  else
    let using_trivial_group : Bool := ls_get_group_size group = 0 ∧ spin_inversion ≠ 0
    let trivial := ls_create_trivial_group env number_spins
    if using_trivial_group = true ∧ trivial.1 ≠ LS_SUCCESS then none
    else
      let group_ref := if using_trivial_group then trivial.2 else group
      let need_big : Bool := number_spins > 64
      let _hamming_weight : Option Nat :=
        if hamming_weight = -1 then none else some hamming_weight.toNat
      let header : basis_base_t :=
        { refcount := 1, number_spins := number_spins, hamming_weight := _hamming_weight,
          spin_inversion := spin_inversion,
          has_symmetries := ls_get_group_size group_ref > 1 ∨ spin_inversion ≠ 0 }
      let payload : basis_payload Sym :=
        if need_big then basis_payload.big (big_basis_t.create group_ref)
        else basis_payload.small (small_basis_t.create group_ref)
      some (LS_SUCCESS, some { header := header, payload := payload })

/-- Modelled from the spec: the constructors `basis_cache_t(header, payload)`
and `basis_cache_t(header, payload, states)` are not in these sources.  The
cache is built from the Enumerator's list or from a caller-provided list,
that is, by the five-argument constructor on the basis's symmetry table,
spin count and Hamming weight. -/
def basis_cache_t.of_basis {Sym : Type} (env : collaborators Sym) (header : basis_base_t)
    (payload : small_basis_t Sym) (states : List Nat) : Option basis_cache_t :=
  basis_cache_t.create
    (env.get_state_info payload.batched_symmetries payload.other_symmetries
      payload.number_other_symmetries)
    header.number_spins header.hamming_weight env.omp_get_max_threads states

/-- Modelled from the spec: the two-argument `basis_cache_t::index(bits, out)`
is not in these sources.  It is `index(x)` behind the C error codes: the
position on success, the error code otherwise; `none` is the failed
assertion. -/
def basis_cache_t.index_code (c : basis_cache_t) (x : Nat) : Option (ls_error_code × Option Nat) :=
  match c.index x with
  | index_result.value i => some (LS_SUCCESS, some i)
  | index_result.failure e => some (e, none)
  | index_result.assertion_failed => none

/-- The function `ls_get_number_bits(basis)`. -/
def ls_get_number_bits {Sym : Type} (basis : ls_spin_basis Sym) : Nat :=
  match basis.payload with
  | basis_payload.big _ => 512
  | basis_payload.small _ => 64

/-- The function `ls_has_symmetries(basis)`. -/
def ls_has_symmetries {Sym : Type} (basis : ls_spin_basis Sym) : Bool :=
  basis.header.has_symmetries

/-- The function `ls_get_number_states(basis, out)`. -/
def ls_get_number_states {Sym : Type} (basis : ls_spin_basis Sym) : ls_error_code × Option Nat :=
  match basis.payload with
  | basis_payload.big _ => (LS_WRONG_BASIS_TYPE, none)
  | basis_payload.small p =>
    match p.cache with
    | none => (LS_CACHE_NOT_BUILT, none)
    | some c => (LS_SUCCESS, some c.number_states)

/-- The function `ls_get_index(basis, bits, index)`. -/
def ls_get_index {Sym : Type} (basis : ls_spin_basis Sym) (bits : Nat) :
    Option (ls_error_code × Option Nat) :=
  match basis.payload with
  | basis_payload.big _ => some (LS_WRONG_BASIS_TYPE, none)
  | basis_payload.small p =>
    match p.cache with
    | none => some (LS_CACHE_NOT_BUILT, none)
    | some c => c.index_code bits

/-- The function `ls_build(basis)`: the returned code and the basis after the
call; `none` when building the cache aborts. -/
def ls_build {Sym : Type} (env : collaborators Sym) (basis : ls_spin_basis Sym) :
    Option (ls_error_code × ls_spin_basis Sym) :=
  match basis.payload with
  | basis_payload.big _ => some (LS_WRONG_BASIS_TYPE, basis)
  | basis_payload.small p =>
    match p.cache with
    | none =>
      (basis_cache_t.of_basis env basis.header p []).map fun c =>
        (LS_SUCCESS, { basis with payload := basis_payload.small { p with cache := some c } })
    | some _ => some (LS_SUCCESS, basis)

/-- The function `ls_build_unsafe(basis, size, representatives)`. -/
def ls_build_unsafe {Sym : Type} (env : collaborators Sym) (basis : ls_spin_basis Sym)
    (representatives : List Nat) : Option (ls_error_code × ls_spin_basis Sym) :=
  match basis.payload with
  | basis_payload.big _ => some (LS_WRONG_BASIS_TYPE, basis)
  | basis_payload.small p =>
    match p.cache with
    | none =>
      (basis_cache_t.of_basis env basis.header p representatives).map fun c =>
        (LS_SUCCESS, { basis with payload := basis_payload.small { p with cache := some c } })
    | some _ => some (LS_SUCCESS, basis)

/-- The function `ls_is_representative(basis, count, bits, out)`: the code and
the bytes written to `out`, `out[i] = is_representative_64(basis->header,
*payload, bits[i])` as a byte. -/
def ls_is_representative {Sym : Type} (env : collaborators Sym) (basis : ls_spin_basis Sym)
    (bits : List Nat) : ls_error_code × Option (List Nat) :=
  match basis.payload with
  | basis_payload.big _ => (LS_WRONG_BASIS_TYPE, none)
  | basis_payload.small p =>
    (LS_SUCCESS,
      some (bits.map fun x => if env.is_representative_64 basis.header p x then 1 else 0))

/-- The struct `ls_states`: the borrowed list; its parent is the basis the
call returns. -/
structure ls_states where
  payload : List Nat
  deriving DecidableEq, Repr

/-- The function `ls_copy_spin_basis`. -/
def ls_copy_spin_basis {Sym : Type} (basis : ls_spin_basis Sym) : ls_spin_basis Sym :=
  { basis with header := { basis.header with refcount := basis.header.refcount + 1 } }

/-- The function `ls_get_states(ptr, basis)`: the code, the object stored in
`*ptr` and the basis after the call (a successful call takes a reference). -/
def ls_get_states {Sym : Type} (basis : ls_spin_basis Sym) :
    ls_error_code × Option ls_states × ls_spin_basis Sym :=
  match basis.payload with
  | basis_payload.big _ => (LS_WRONG_BASIS_TYPE, none, basis)
  | basis_payload.small p =>
    match p.cache with
    | none => (LS_CACHE_NOT_BUILT, none, basis)
    | some c => (LS_SUCCESS, some { payload := c.states }, ls_copy_spin_basis basis)

/-- The error code an error of the byte-stream collaborator is turned into. -/
def io_error.code : io_error → ls_error_code
  | io_error.library e => e
  | io_error.system _ => LS_SYSTEM_ERROR

/-- The function `ls_save_cache(basis, filename)`. -/
def ls_save_cache {Sym : Type} (env : collaborators Sym) (basis : ls_spin_basis Sym)
    (filename : String) : ls_error_code :=
  match basis.payload with
  | basis_payload.big _ => LS_WRONG_BASIS_TYPE
  | basis_payload.small p =>
    match p.cache with
    | none => LS_CACHE_NOT_BUILT
    | some c =>
      match env.save_states c.states filename with
      | Except.error e => e.code
      | Except.ok _ => LS_SUCCESS

/-- The function `ls_load_cache(basis, filename)`. -/
def ls_load_cache {Sym : Type} (env : collaborators Sym) (basis : ls_spin_basis Sym)
    (filename : String) : Option (ls_error_code × ls_spin_basis Sym) :=
  match basis.payload with
  | basis_payload.big _ => some (LS_WRONG_BASIS_TYPE, basis)
  | basis_payload.small p =>
    match p.cache with
    | some _ => some (LS_SUCCESS, basis)
    | none =>
      match env.load_states filename with
      | Except.error e => some (e.code, basis)
      | Except.ok states =>
        (basis_cache_t.of_basis env basis.header p states).map fun c =>
          (LS_SUCCESS, { basis with payload := basis_payload.small { p with cache := some c } })

/-- The operations of the handle that the cache state machine is about. -/
inductive basis_op where
  | build
  | build_unsafe (representatives : List Nat)
  | load_cache (filename : String)
  | number_states
  | index (bits : Nat)
  | states
  | is_representative (bits : List Nat)
  | state_info (bits : Nat)
  | save_cache (filename : String)

/-- One operation on a basis: the error code it returns (`none` for the
`void` function `ls_get_state_info`) and the basis afterwards; `none` when
the call aborts. -/
def basis_step {Sym : Type} (env : collaborators Sym) (basis : ls_spin_basis Sym) :
    basis_op → Option (Option ls_error_code × ls_spin_basis Sym)
  | basis_op.build => (ls_build env basis).map fun r => (some r.1, r.2)
  | basis_op.build_unsafe rs => ( ls_build_unsafe env basis rs).map fun r => (some r.1, r.2)
  | basis_op.load_cache f => (ls_load_cache env basis f).map fun r => (some r.1, r.2)
  | basis_op.number_states => some (some (ls_get_number_states basis).1, basis)
  | basis_op.index x => (ls_get_index basis x).map fun r => (some r.1, basis)
  | basis_op.states => some (some (ls_get_states basis).1, (ls_get_states basis).2.2)
  | basis_op.is_representative bits => some (some (ls_is_representative env basis bits).1, basis)
  | basis_op.state_info _ => some (none, basis)
  | basis_op.save_cache f => some (some (ls_save_cache env basis f), basis)

/-- A sequence of operations on a basis: after each completed operation, the
code it returned and the basis it left; the sequence stops at an operation
that aborts. -/
def basis_trace {Sym : Type} (env : collaborators Sym) :
    ls_spin_basis Sym → List basis_op → List (Option ls_error_code × ls_spin_basis Sym)
  | _, [] => []
  | basis, op :: ops =>
    match basis_step env basis op with
    | none => []
    | some r => r :: basis_trace env r.2 ops

/-- The cache of a basis, if it is a small basis with a built cache. -/
def ls_spin_basis.cache {Sym : Type} (basis : ls_spin_basis Sym) : Option basis_cache_t :=
  match basis.payload with
  | basis_payload.small p => p.cache
  | basis_payload.big _ => none

/-! ## Symmetry records and the state-info engine (from the spec) -/

/-- Modelled from the spec: the permutation network of a symmetry is declared
in a header that is not part of the sources.  It has `depth` layers, layer
`d` with a mask (its 64-bit words, lowest first: one word for a small
symmetry, eight for a big one) and a shift. -/
structure network_t where
  depth : Nat
  masks : List (List Nat)
  deltas : List Nat
  deriving DecidableEq, Repr

/-- Modelled from the spec: a symmetry record, declared in a header that is
not part of the sources: its network, the real and imaginary part of its
character, its sector and its periodicity.  `R` stands for `double`. -/
structure symmetry_t (R : Type) where
  network : network_t
  eigenvalue_real : R
  eigenvalue_imag : R
  sector : Nat
  periodicity : Nat
  deriving DecidableEq, Repr

/-- Modelled from the spec: what the state-info engine computes with the
doubles of the characters: sums, negation, the norm obtained from the real
and imaginary part of the accumulated sum and the order of the effective
group (`sqrt(|S|^2 / order)` if `|S| / order >= 10^-8`, else 0), and the test
`> 0.0`. -/
structure real_ops (R : Type) where
  zero : R
  one : R
  add : R → R → R
  neg : R → R
  norm : R → R → Nat → R
  is_positive : R → Bool

/-- Modelled from the spec: one layer of a network on a word of `width` bits,
`x' = ((x >> delta) ^ x) & mask; x ^= x' ^ (x' << delta)`. -/
def apply_layer (width mask delta x : Nat) : Nat :=
  let x1 := ((x >>> delta) ^^^ x) &&& mask
  (x ^^^ (x1 ^^^ (x1 <<< delta))) % 2 ^ width

/-- Modelled from the spec: applying a network is the composition of its
layers in order. -/
def apply_network (width : Nat) : List Nat → List Nat → Nat → Nat
  | mask :: masks, delta :: deltas, x =>
    apply_network width masks deltas (apply_layer width mask delta x)
  | _, _, x => x

/-- The value of a mask given by its 64-bit words, lowest word first. -/
def mask_value : List Nat → Nat
  | [] => 0
  | w :: ws => w + U64 * mask_value ws

/-- Modelled from the spec: `apply(P, x)` for the network of a symmetry. -/
def symmetry_t.apply {R : Type} (width : Nat) (s : symmetry_t R) (x : Nat) : Nat :=
  apply_network width (s.network.masks.map mask_value) s.network.deltas x

/-- Modelled from the spec: the flip mask `F = (N < 64 ? (1 << N) - 1 : all-ones)`. -/
def flip_mask (number_spins : Nat) : Nat :=
  if number_spins < 64 then (1 <<< number_spins) - 1 else U64 - 1

/-- Modelled from the spec: the character `sigma * chi` of the inversion
composed with a permutation of character `chi`. -/
def flipped_character {R : Type} (ops : real_ops R) (sigma : Int) (chi : R × R) : R × R :=
  if sigma = -1 then (ops.neg chi.1, ops.neg chi.2) else chi

/-- Modelled from the spec: the candidates `(z, chi')` of step 3 of the
state-info algorithm, lane after lane: `apply(P, x)` with the character of
the lane and, when `sigma` is not 0, its flip with the character
`sigma * chi`. -/
def state_info_candidates {R : Type} (ops : real_ops R) (width : Nat)
    (lanes : List (symmetry_t R)) (sigma : Int) (flip x : Nat) : List (Nat × (R × R)) :=
  lanes.flatMap fun s =>
    let y := s.apply width x
    let chi := (s.eigenvalue_real, s.eigenvalue_imag)
    if sigma = 0 then [(y, chi)] else [(y, chi), (y ^^^ flip, flipped_character ops sigma chi)]

/-- Modelled from the spec: the running values of the state-info algorithm:
the representative `r`, its character `c`, the sum `S` and the count `C`. -/
structure state_info_acc (R : Type) where
  representative : Nat
  character : R × R
  sum : R × R
  count : Nat

/-- Modelled from the spec: one candidate `(z, chi')` of step 3: if `z = x`
accumulate `chi'` and count; if `z < r` take `z` with the conjugate of `chi'`. -/
def state_info_step {R : Type} (ops : real_ops R) (x : Nat) (acc : state_info_acc R)
    (candidate : Nat × (R × R)) : state_info_acc R :=
  let z := candidate.1
  let chi := candidate.2
  let acc1 : state_info_acc R :=
    if z = x then
      { acc with sum := (ops.add acc.sum.1 chi.1, ops.add acc.sum.2 chi.2), count := acc.count + 1 }
    else acc
  if z < acc1.representative then
    { acc1 with representative := z, character := (chi.1, ops.neg chi.2) }
  else acc1

/-- Modelled from the spec: the order of the effective group, `2 |G|` with
spin inversion and `|G|` without. -/
def effective_order {R : Type} (lanes : List (symmetry_t R)) (sigma : Int) : Nat :=
  if sigma ≠ 0 then 2 * lanes.length else lanes.length

/-- Modelled from the spec: the state-info algorithm (spec, 4.4) on a word of
`width` bits: the representative, the character and the norm of `x`. -/
def state_info {R : Type} (ops : real_ops R) (width : Nat) (lanes : List (symmetry_t R))
    (sigma : Int) (flip x : Nat) : Nat × (R × R) × R :=
  let init : state_info_acc R :=
    { representative := x, character := (ops.one, ops.zero), sum := (ops.zero, ops.zero),
      count := 0 }
  let acc := (state_info_candidates ops width lanes sigma flip x).foldl (state_info_step ops x) init
  (acc.representative, acc.character,
    ops.norm acc.sum.1 acc.sum.2 (effective_order lanes sigma))

/-- Modelled from the spec: the loop of the predicate "is representative?":
the loop of the state-info algorithm cut short, with `none`, as soon as a
candidate `z < x` is found; otherwise the accumulated sum. -/
def is_representative_loop {R : Type} (ops : real_ops R) (x : Nat) :
    List (Nat × (R × R)) → R × R → Option (R × R)
  | [], sum => some sum
  | candidate :: rest, sum =>
    if candidate.1 < x then none
    else if candidate.1 = x then
      is_representative_loop ops x rest
        (ops.add sum.1 candidate.2.1, ops.add sum.2 candidate.2.2)
    else is_representative_loop ops x rest sum

/-- Modelled from the spec: the predicate "is representative?" (spec, 4.4). -/
def is_representative {R : Type} (ops : real_ops R) (width : Nat) (lanes : List (symmetry_t R))
    (sigma : Int) (flip x : Nat) : Bool :=
  match is_representative_loop ops x (state_info_candidates ops width lanes sigma flip x)
      (ops.zero, ops.zero) with
  | none => false
  | some sum => ops.is_positive (ops.norm sum.1 sum.2 (effective_order lanes sigma))

/-- The real lanes of the table of a small basis, in table order: the lanes
of the full batches, then the first `number_other_symmetries` lanes of the
partial batch. -/
def small_basis_t.lanes {Sym : Type} (b : small_basis_t Sym) : List Sym :=
  b.batched_symmetries.flatten ++ (b.other_symmetries.getD []).take b.number_other_symmetries

/-- Modelled from the spec: `get_state_info_64(header, payload, x, ...)` is
not in these sources; it is the state-info algorithm on 64-bit words over
the real lanes of the table. -/
def get_state_info_64 {R : Type} (ops : real_ops R) (header : basis_base_t)
    (payload : small_basis_t (symmetry_t R)) (x : Nat) : Nat × (R × R) × R :=
  state_info ops 64 payload.lanes header.spin_inversion (flip_mask header.number_spins) x

/-- Modelled from the spec: `get_state_info_512(header, payload, x, ...)` is
not in these sources; it is the state-info algorithm on 512-bit words. -/
def get_state_info_512 {R : Type} (ops : real_ops R) (header : basis_base_t)
    (payload : big_basis_t (symmetry_t R)) (flip x : Nat) : Nat × (R × R) × R :=
  state_info ops 512 payload.symmetries header.spin_inversion flip x

/-- Modelled from the spec: `is_representative_64(header, payload, x)` is
not in these sources; it is the predicate "is representative?" of the spec
(4.4), the loop of the state-info algorithm cut short at the first candidate
below `x`, on 64-bit words over the real lanes of the table, with the spin
inversion and the flip mask of the header. -/
def is_representative_64 {R : Type} (ops : real_ops R) (header : basis_base_t)
    (payload : small_basis_t (symmetry_t R)) (x : Nat) : Bool :=
  is_representative ops 64 payload.lanes header.spin_inversion (flip_mask header.number_spins) x

/-- What the enumerator tests of a report of the state-info engine: the
representative and the outcome of `norm > 0.0`. -/
def engine_report {R : Type} (ops : real_ops R) (info : Nat × (R × R) × R) : Nat × Bool :=
  (info.1, ops.is_positive info.2.2)

/-! ## Real characters (basis.cpp) -/

/-- Modelled from the spec: `is_real(s)` of a symmetry is not in these
sources; it is the test `|chi.imag| <= 10^-13` on its character, with
`negligible` that test on a double. -/
def symmetry_t.is_real {R : Type} (negligible : R → Bool) (s : symmetry_t R) : Bool :=
  negligible s.eigenvalue_imag

/-- Modelled from the spec: `is_real(s)` of a batch is not in these sources;
all characters of the batch, those of its eight lanes, pass the test. -/
def batch_is_real {R : Type} (negligible : R → Bool) (s : List (symmetry_t R)) : Bool :=
  s.all (symmetry_t.is_real negligible)

/-- The function `is_real(basis)`. -/
def is_real {R : Type} (negligible : R → Bool) (basis : ls_spin_basis (symmetry_t R)) : Bool :=
  match basis.payload with
  | basis_payload.small x =>
    let batched := x.batched_symmetries.all (batch_is_real negligible)
    let other :=
      match x.other_symmetries with
      | some s => batch_is_real negligible s
      | none => true
    batched && other
  | basis_payload.big x => x.symmetries.all (symmetry_t.is_real negligible)

/-! ## The flat view (basis.cpp, kernels.cpp) -/

/-- Modelled from the spec: `batched_small_symmetry_t` is declared in a header
that is not part of the sources; a batch being the list of its lanes, the
depth of its network is the depth of the networks of its lanes. -/
def batch_depth {R : Type} (s : List (symmetry_t R)) : Nat :=
  match s with
  | [] => 0
  | lane :: _ => lane.network.depth

/-- Modelled from the spec: `s.network.masks[depth][i]` of a batch, the
one-word mask of layer `depth` of lane `i` (the eight masks of a layer are
stored contiguously). -/
def batch_mask {R : Type} (s : List (symmetry_t R)) (depth i : Nat) : Nat :=
  match s.get? i with
  | some lane => (lane.network.masks.getD depth []).getD 0 0
  | none => 0

/-- Modelled from the spec: `s.network.deltas[depth]` of a batch, the shift
of layer `depth` that its lanes share. -/
def batch_delta {R : Type} (s : List (symmetry_t R)) (depth : Nat) : Nat :=
  match s with
  | [] => 0
  | lane :: _ => lane.network.deltas.getD depth 0

/-- Modelled from the spec: lane `i` of a batch, for its lane-major arrays
`eigenvalues_real[i]`, `eigenvalues_imag[i]`, `sectors[i]`, `periodicities[i]`. -/
def batch_lane {R : Type} [Inhabited R] (s : List (symmetry_t R)) (i : Nat) : symmetry_t R :=
  match s.get? i with
  | some lane => lane
  | none =>
    { network := { depth := 0, masks := [], deltas := [] }, eigenvalue_real := default,
      eigenvalue_imag := default, sector := 0, periodicity := 0 }

/-- The function `masks_shape(basis)`: network depth, number of permutations
(cast to `unsigned`) and mask width. -/
def masks_shape {R : Type} (basis : ls_spin_basis (symmetry_t R)) : Nat × Nat × Nat :=
  match basis.payload with
  | basis_payload.small b =>
    let network_depth :=
      match b.batched_symmetries with
      | s :: _ => batch_depth s
      | [] =>
        match b.other_symmetries with
        | some s => batch_depth s
        | none => 0
    let number_permutations :=
      (b.batched_symmetries.length * batch_size + b.number_other_symmetries) % U32
    (network_depth, number_permutations, 1)
  | basis_payload.big b =>
    let network_depth :=
      match b.symmetries with
      | s :: _ => s.network.depth
      | [] => 0
    (network_depth, b.symmetries.length % U32, 8)

/-- A buffer of the flat view: the element count it was allocated with
(`none` for a null pointer) and the values `init_flat_group_contents` stores
in it, at offsets 0, 1, 2, ... in this order; a value at an offset that is
not below the allocated count lies outside the buffer. -/
structure flat_array (α : Type) where
  allocated : Option Nat
  stored : List α

/-- The struct `ls_flat_group`. -/
structure ls_flat_group (R : Type) where
  shape : Nat × Nat × Nat
  masks : flat_array Nat
  shifts : flat_array Nat
  eigenvalues_real : flat_array R
  eigenvalues_imag : flat_array R
  sectors : flat_array Nat
  periodicities : flat_array Nat

/-- The struct `ls_flat_spin_basis`. -/
structure ls_flat_spin_basis (R : Type) where
  refcount : Nat
  number_spins : Nat
  hamming_weight : Int
  spin_inversion : Int
  group : ls_flat_group R

/-- The member `init_flat_group_contents_fn_t::operator()(small_basis_t const&)`:
the group `g` with the values stored by the three parts of the function. -/
def init_flat_group_contents_small {R : Type} [Inhabited R] (g : ls_flat_group R)
    (b : small_basis_t (symmetry_t R)) : ls_flat_group R :=
  let other := b.other_symmetries.getD []
  let masks :=
    (List.range g.shape.1).flatMap fun depth =>
      (b.batched_symmetries.flatMap fun s =>
        (List.range batch_size).map fun i => batch_mask s depth i) ++
      (List.range b.number_other_symmetries).map fun i => batch_mask other depth i
  let shifts :=
    if g.shifts.allocated.isSome then
      let s :=
        match b.batched_symmetries with
        | s :: _ => s
        | [] => other
      (List.range g.shape.1).map fun depth => batch_delta s depth
    else []
  let lanes :=
    (b.batched_symmetries.flatMap fun s => (List.range batch_size).map fun i => batch_lane s i) ++
    (List.range b.number_other_symmetries).map fun i => batch_lane other i
  { g with
    masks := { g.masks with stored := masks },
    shifts := { g.shifts with stored := shifts },
    eigenvalues_real := { g.eigenvalues_real with stored := lanes.map fun l => l.eigenvalue_real },
    eigenvalues_imag := { g.eigenvalues_imag with stored := lanes.map fun l => l.eigenvalue_imag },
    sectors := { g.sectors with stored := lanes.map fun l => l.sector },
    periodicities := { g.periodicities with stored := lanes.map fun l => l.periodicity } }

/-- The member `init_flat_group_contents_fn_t::operator()(big_basis_t const&)`:
the group `g` with the values stored by the three parts of the function. -/
def init_flat_group_contents_big {R : Type} (g : ls_flat_group R)
    (b : big_basis_t (symmetry_t R)) : ls_flat_group R :=
  let masks :=
    (List.range g.shape.1).flatMap fun depth =>
      b.symmetries.flatMap fun s =>
        (List.range 8).map fun i => (s.network.masks.getD depth []).getD i 0
  let shifts :=
    if g.shifts.allocated.isSome then
      match b.symmetries with
      | s :: _ => (List.range g.shape.1).map fun depth => s.network.deltas.getD depth 0
      | [] => []
    else []
  let lanes := b.symmetries.flatMap fun s => (List.range batch_size).map fun _ => s
  { g with
    masks := { g.masks with stored := masks },
    shifts := { g.shifts with stored := shifts },
    eigenvalues_real := { g.eigenvalues_real with stored := lanes.map fun l => l.eigenvalue_real },
    eigenvalues_imag := { g.eigenvalues_imag with stored := lanes.map fun l => l.eigenvalue_imag },
    sectors := { g.sectors with stored := lanes.map fun l => l.sector },
    periodicities := { g.periodicities with stored := lanes.map fun l => l.periodicity } }

/-- The function `init_flat_group_contents(group, basis)`. -/
def init_flat_group_contents {R : Type} [Inhabited R] (g : ls_flat_group R)
    (basis : ls_spin_basis (symmetry_t R)) : ls_flat_group R :=
  match basis.payload with
  | basis_payload.small b => init_flat_group_contents_small g b
  | basis_payload.big b => init_flat_group_contents_big g b

/-- The function `alloc_aligned_unitialized(alignment, count)`: a null pointer
for a count of zero, otherwise what `std::aligned_alloc` returns, which is
null when the allocation fails (`succeeds = false`). -/
def alloc_aligned_unitialized {α : Type} (succeeds : Bool) (count : Nat) : flat_array α :=
  { allocated := if count > 0 ∧ succeeds = true then some count else none, stored := [] }

/-- The function `ls_get_hamming_weight`. -/
def ls_get_hamming_weight {Sym : Type} (basis : ls_spin_basis Sym) : Int :=
  match basis.header.hamming_weight with
  | some m => (m : Int)
  | none => -1

/-- The function `ls_convert_to_flat_spin_basis(ptr, basis)`: the returned
code and the object stored in `*ptr`; `alloc_succeeds k` tells whether the
`k`-th allocation of the call (from 0) succeeds. -/
def ls_convert_to_flat_spin_basis {R : Type} [Inhabited R] (alloc_succeeds : Nat → Bool)
    (basis : ls_spin_basis (symmetry_t R)) : ls_error_code × Option (ls_flat_spin_basis R) :=
  let shape := masks_shape basis
  if alloc_succeeds 0 = false then (LS_OUT_OF_MEMORY, none)
  else
    let masks : flat_array Nat :=
      alloc_aligned_unitialized (alloc_succeeds 1) ((shape.1 * shape.2.1 * shape.2.2) % U32)
    let shifts : flat_array Nat := alloc_aligned_unitialized (alloc_succeeds 2) shape.1
    let eigenvalues_real : flat_array R := alloc_aligned_unitialized (alloc_succeeds 3) shape.2.1
    let eigenvalues_imag : flat_array R := alloc_aligned_unitialized (alloc_succeeds 4) shape.2.1
    let sectors : flat_array Nat := alloc_aligned_unitialized (alloc_succeeds 5) shape.2.1
    let periodicities : flat_array Nat := alloc_aligned_unitialized (alloc_succeeds 6) shape.2.1
    if shape.2.1 ≠ 0 ∧
        (masks.allocated = none ∨ shifts.allocated = none ∨ eigenvalues_real.allocated = none ∨
          eigenvalues_imag.allocated = none ∨ sectors.allocated = none ∨
          periodicities.allocated = none) then
      (LS_OUT_OF_MEMORY, none)
    else
      let group : ls_flat_group R :=
        { shape := shape, masks := masks, shifts := shifts, eigenvalues_real := eigenvalues_real,
          eigenvalues_imag := eigenvalues_imag, sectors := sectors,
          periodicities := periodicities }
      (LS_SUCCESS,
        some { refcount := 0, number_spins := basis.header.number_spins,
               hamming_weight := ls_get_hamming_weight basis,
               spin_inversion := basis.header.spin_inversion,
               group := init_flat_group_contents group basis })

/-- The struct `halide_dimension_t`, with the fields the kernel state sets. -/
structure halide_dimension_t where
  min : Int
  extent : Int
  stride : Int
  deriving DecidableEq, Repr

/-- The conversion `static_cast<int32_t>` of an `unsigned`. -/
def to_int32 (x : Nat) : Int :=
  if x % U32 < 2 ^ 31 then ((x % U32 : Nat) : Int) else ((x % U32 : Nat) : Int) - 2 ^ 32

/-- The member `_masks_dims` as the constructor of `halide_kernel_state` sets
it from the shape of the flat group. -/
def halide_masks_dims (shape : Nat × Nat × Nat) : List halide_dimension_t :=
  [{ min := 0, extent := to_int32 shape.1, stride := to_int32 shape.2.1 },
   { min := 0, extent := to_int32 shape.2.1, stride := 1 }]

/-- The member `_shifts_dim` as the constructor of `halide_kernel_state` sets it. -/
def halide_shifts_dim (shape : Nat × Nat × Nat) : halide_dimension_t :=
  { min := 0, extent := to_int32 shape.1, stride := 1 }

/-- The function `halide_kernel_state::get_flip_mask_64(n)` on an `unsigned`:
`n == 0 ? 0 : ~0 >> (64 - n)`.  The subtraction is modulo 2^32 and a shift of
a 64-bit word by 64 or more is undefined: `none`. -/
def get_flip_mask_64 (n : Nat) : Option Nat :=
  if n % U32 = 0 then some 0
  else
    let shift := (64 + U32 - n % U32) % U32
    if shift < 64 then some ((U64 - 1) >>> shift) else none

/-- The member `_flip_mask` as the constructor of `halide_kernel_state` sets
it from the flat basis. -/
def halide_flip_mask {R : Type} (basis : ls_flat_spin_basis R) : Option Nat :=
  get_flip_mask_64 basis.number_spins

/-- The element a buffer descriptor addresses with the given indices: the sum
of `(index - min) * stride` over its dimensions. -/
def halide_offset : List halide_dimension_t → List Int → Int
  | dim :: dims, i :: idx => (i - dim.min) * dim.stride + halide_offset dims idx
  | _, _ => 0

/-! ## Notions used to state the properties -/

/-- What `ls_create_spin_basis` guarantees of a basis: between 1 and 512
spins, a Hamming weight of at most that many, and the small variant exactly
when the spins fit in 64 bits. -/
def ls_spin_basis.well_formed {Sym : Type} (basis : ls_spin_basis Sym) : Prop :=
  0 < basis.header.number_spins ∧ basis.header.number_spins ≤ 512 ∧
    (∀ h, basis.header.hamming_weight = some h → h ≤ basis.header.number_spins) ∧
    match basis.payload with
    | basis_payload.small _ => basis.header.number_spins ≤ 64
    | basis_payload.big _ => 64 < basis.header.number_spins

/-- The shape `split_into_batches` gives the table of a small basis: every
full batch has `batch_size` lanes and the recorded number of real lanes of
the partial batch is at most the number of lanes it has. -/
def small_basis_t.batches_well_formed {Sym : Type} (b : small_basis_t Sym) : Prop :=
  (∀ s ∈ b.batched_symmetries, s.length = batch_size) ∧
    b.number_other_symmetries ≤ (b.other_symmetries.getD []).length

/-- The symmetries of the table of a basis, in table order. -/
def table_lanes {Sym : Type} (basis : ls_spin_basis Sym) : List Sym :=
  match basis.payload with
  | basis_payload.small b => b.lanes
  | basis_payload.big b => b.symmetries

/-- The table of a basis has the shape its constructor gives it. -/
def table_well_formed {Sym : Type} (basis : ls_spin_basis Sym) : Prop :=
  match basis.payload with
  | basis_payload.small b => b.batches_well_formed
  | basis_payload.big _ => True

/-- One run of the enumeration with a given chunk size: the task list, the
chunk of every task, the concatenation. -/
def enumerate (get_state_info : Nat → Nat × Bool) (number_spins : Nat)
    (hamming_weight : Option Nat) (chunk_size : Nat) : Option (List Nat) :=
  ((split_into_tasks number_spins hamming_weight chunk_size).bind
    (generate_states_chunks hamming_weight.isSome get_state_info)).map concatenate

/-- Number of set bits of a natural number of any size. -/
def pc (x : Nat) : Nat := popcount_bits x x

/-- Whether `x` belongs to the enumeration sequence: every word does when
the Hamming weight is free, the words of popcount `hamming_weight` when it is
fixed. -/
def in_sequence (fixedHammingWeight : Bool) (hamming_weight x : Nat) : Bool :=
  !fixedHammingWeight || decide (popcount x = hamming_weight)

/-- The states of the enumeration sequence from `a` up to, not including,
`b`, in increasing order. -/
def states_between (fixedHammingWeight : Bool) (hamming_weight a b : Nat) : List Nat :=
  (List.range' a (b - a)).filter (in_sequence fixedHammingWeight hamming_weight)

/-- The test of `handle`: the engine reports `x` as its own representative,
with positive norm. -/
def is_pushed (get_state_info : Nat → Nat × Bool) (x : Nat) : Bool :=
  decide ((get_state_info x).1 = x ∧ (get_state_info x).2 = true)

/-- The ranges tile the sequence from `current` to `bound`: the first range
starts at `current`, every range ends on a state of the sequence at or after
its start, the next range starts at the successor of that end, and the last
range ends at `bound`. -/
def tasks_tile (fixedHammingWeight : Bool) (hamming_weight bound : Nat) :
    Nat → List (Nat × Nat) → Prop
  | _, [] => False
  | current, (a, b) :: rest =>
    a = current ∧ a ≤ b ∧ in_sequence fixedHammingWeight hamming_weight b = true ∧
      ((rest = [] ∧ b = bound) ∨
        (b < bound ∧ tasks_tile fixedHammingWeight hamming_weight bound
          (next_state fixedHammingWeight b) rest))

/-- The words of `number_spins` bits, of popcount `h` when the Hamming weight
is `some h`, in increasing order. -/
def sector_states (number_spins : Nat) (hamming_weight : Option Nat) : List Nat :=
  (List.range (2 ^ number_spins)).filter fun x =>
    match hamming_weight with
    | none => true
    | some h => decide (popcount x = h)

/-- The list the enumeration is to produce: the states of the sector that
pass the test of `handle`, in increasing order. -/
def representatives (get_state_info : Nat → Nat × Bool) (number_spins : Nat)
    (hamming_weight : Option Nat) : List Nat :=
  (sector_states number_spins hamming_weight).filter (is_pushed get_state_info)

/-! ## Concrete inputs -/

/-- A collaborator record for concrete runs: symmetries carry no data, the
engine reports every state as its own representative with positive norm, the
predicate holds of every state, one thread, and a byte stream that fails to
load with a system error. -/
def sample_env : collaborators Unit where
  get_state_info := fun _ _ _ x => (x, true)
  is_representative_64 := fun _ _ _ => true
  omp_get_max_threads := 1
  load_states := fun _ => Except.error (io_error.system 2)
  save_states := fun _ _ => Except.ok ()
  identity_symmetry := fun _ => ()

/-- A small basis on two spins without symmetries and without a cache. -/
def sample_basis : ls_spin_basis Unit where
  header := { refcount := 1, number_spins := 2, hamming_weight := none, spin_inversion := 0,
              has_symmetries := false }
  payload := basis_payload.small
    { batched_symmetries := [], other_symmetries := none, number_other_symmetries := 0,
      cache := none }

/-- A small basis on 17 spins without symmetries and without a cache. -/
def sample_basis17 : ls_spin_basis Unit where
  header := { refcount := 1, number_spins := 17, hamming_weight := none, spin_inversion := 0,
              has_symmetries := false }
  payload := basis_payload.small
    { batched_symmetries := [], other_symmetries := none, number_other_symmetries := 0,
      cache := none }

/-- The cache built from the list `[0, 3]`. -/
def sample_cache : basis_cache_t :=
  { _states := [0, 3], _ranges := generate_ranges_loop (2 ^ 16 - 1) (2 ^ 16) 0 0 [0, 3] }

/-- The basis `sample_basis` with the cache `sample_cache` built. -/
def sample_built_basis : ls_spin_basis Unit where
  header := sample_basis.header
  payload := basis_payload.small
    { batched_symmetries := [], other_symmetries := none, number_other_symmetries := 0,
      cache := some sample_cache }

/-- Exact arithmetic on integers in place of the doubles of the characters;
the norm is given by the squared modulus of the sum. -/
def sample_ops : real_ops Int where
  zero := 0
  one := 1
  add := fun a b => a + b
  neg := fun a => -a
  norm := fun re im _ => re * re + im * im
  is_positive := fun a => decide (0 < a)

/-- The identity on two spins as a network of one layer with an empty mask,
with character 1. -/
def sample_identity : symmetry_t Int where
  network := { depth := 1, masks := [[0]], deltas := [1] }
  eigenvalue_real := 1
  eigenvalue_imag := 0
  sector := 0
  periodicity := 1

/-- The exchange of the two spins as a network of one layer (mask 1, shift
1), with character -1. -/
def sample_swap : symmetry_t Int where
  network := { depth := 1, masks := [[1]], deltas := [1] }
  eigenvalue_real := -1
  eigenvalue_imag := 0
  sector := 1
  periodicity := 2

/-- The small basis on two spins made from the group of the identity and the
exchange. -/
def sample_small_basis : ls_spin_basis (symmetry_t Int) where
  header := { refcount := 1, number_spins := 2, hamming_weight := none, spin_inversion := 0,
              has_symmetries := true }
  payload := basis_payload.small
    (small_basis_t.create { number_spins := 2, symmetries := [sample_identity, sample_swap] })

/-- A big symmetry on 65 spins: one layer, with an eight-word mask, the given
words, and the given character and sector. -/
def sample_big_symmetry (word0 word1 : Nat) (re : Int) (sector : Nat) : symmetry_t Int where
  network := { depth := 1, masks := [[word0, word1, 0, 0, 0, 0, 0, 0]], deltas := [1] }
  eigenvalue_real := re
  eigenvalue_imag := 0
  sector := sector
  periodicity := 2

/-- The big basis on 65 spins with two symmetries, of sectors 0 and 1. -/
def sample_big_basis : ls_spin_basis (symmetry_t Int) where
  header := { refcount := 1, number_spins := 65, hamming_weight := none, spin_inversion := 0,
              has_symmetries := true }
  payload := basis_payload.big
    { symmetries := [sample_big_symmetry 0 0 1 0, sample_big_symmetry 1 2 (-1) 1] }

/-- Modelled from the spec: a collaborator record whose engine is the
state-info algorithm of the spec, without spin inversion, on the real lanes
of the table it is given, and whose predicate is the predicate "is
representative?" of the spec with the header it is given, both with the
exact arithmetic of `sample_ops`; one thread, and a byte stream that fails to
load with a system error. -/
def sample_engine_env : collaborators (symmetry_t Int) where
  get_state_info := fun batched other number_other x =>
    engine_report sample_ops
      (state_info sample_ops 64
        (small_basis_t.lanes
          { batched_symmetries := batched, other_symmetries := other,
            number_other_symmetries := number_other, cache := none })
        0 0 x)
  is_representative_64 := fun header payload x => is_representative_64 sample_ops header payload x
  omp_get_max_threads := 1
  load_states := fun _ => Except.error (io_error.system 2)
  save_states := fun _ _ => Except.ok ()
  identity_symmetry := fun _ => sample_identity

/-- The identity as a network without layers, with character 1. -/
def sample_identity0 : symmetry_t Int where
  network := { depth := 0, masks := [], deltas := [] }
  eigenvalue_real := 1
  eigenvalue_imag := 0
  sector := 0
  periodicity := 1

/-- The small basis on two spins made from the group of the identity alone,
its network without layers. -/
def sample_depth0_basis : ls_spin_basis (symmetry_t Int) where
  header := { refcount := 1, number_spins := 2, hamming_weight := none, spin_inversion := 0,
              has_symmetries := false }
  payload := basis_payload.small
    (small_basis_t.create { number_spins := 2, symmetries := [sample_identity0] })

/-! ## Popcount -/

theorem popcount_bits_zero (w : Nat) : popcount_bits w 0 = 0 := by
  induction w with
  | zero => rfl
  | succ w ih => simp [popcount_bits, ih]

theorem popcount_bits_mono_width (w : Nat) : ∀ (k x : Nat), x < 2 ^ w →
    popcount_bits (w + k) x = popcount_bits w x := by
  induction w with
  | zero =>
    intro k x hx
    have : x = 0 := by simpa using hx
    subst this
    simp [popcount_bits_zero]
  | succ w ih =>
    intro k x hx
    have h1 : w + 1 + k = (w + k) + 1 := by omega
    rw [h1, popcount_bits, popcount_bits, ih]
    rw [pow_succ] at hx
    omega

theorem popcount_bits_eq_pc {w x : Nat} (hx : x < 2 ^ w) : popcount_bits w x = pc x := by
  unfold pc
  rcases Nat.le_total w x with h | h
  · have h1 := popcount_bits_mono_width w (x - w) x hx
    rw [Nat.add_sub_cancel' h] at h1
    exact h1.symm
  · have h1 := popcount_bits_mono_width x (w - x) x (Nat.lt_two_pow x)
    rw [Nat.add_sub_cancel' h] at h1
    exact h1

theorem popcount_eq_pc {x : Nat} (hx : x < U64) : popcount x = pc x :=
  popcount_bits_eq_pc hx

theorem pc_zero : pc 0 = 0 := rfl

theorem pc_step (x : Nat) : pc x = x % 2 + pc (x / 2) := by
  have h : x < 2 ^ (x + 1) := Nat.lt_of_lt_of_le (Nat.lt_two_pow x) (Nat.pow_le_pow_right (by decide) (by omega))
  rw [← popcount_bits_eq_pc h, popcount_bits]
  congr 1
  apply popcount_bits_eq_pc
  rw [pow_succ] at h
  omega

theorem pc_double (x : Nat) : pc (2 * x) = pc x := by
  rw [pc_step (2 * x)]; simp

theorem pc_double_add_one (x : Nat) : pc (2 * x + 1) = pc x + 1 := by
  rw [pc_step (2 * x + 1)]
  have h1 : (2 * x + 1) % 2 = 1 := by omega
  have h2 : (2 * x + 1) / 2 = x := by omega
  rw [h1, h2]; omega

/-- Splitting a word into its low `k` bits and the rest. -/
theorem pc_split (k : Nat) : ∀ (a b : Nat), b < 2 ^ k → pc (2 ^ k * a + b) = pc a + pc b := by
  induction k with
  | zero =>
    intro a b hb
    have : b = 0 := by simpa using hb
    subst this; simp [pc_zero]
  | succ k ih =>
    intro a b hb
    rw [pc_step (2 ^ (k + 1) * a + b), pc_step b]
    have hb2 : b / 2 < 2 ^ k := by rw [pow_succ] at hb; omega
    have h0 : 2 ^ (k + 1) * a = 2 * (2 ^ k * a) := by ring
    have h1 : (2 ^ (k + 1) * a + b) % 2 = b % 2 := by
      rw [h0]; omega
    have h2 : (2 ^ (k + 1) * a + b) / 2 = 2 ^ k * a + b / 2 := by
      rw [h0]; omega
    rw [h1, h2, ih a (b / 2) hb2]; omega

theorem pc_pow_mul (k a : Nat) : pc (2 ^ k * a) = pc a := by
  have := pc_split k a 0 (Nat.two_pow_pos _)
  simpa [pc_zero] using this

theorem pc_le_of_lt (k : Nat) : ∀ l, l < 2 ^ k → pc l ≤ k := by
  induction k with
  | zero => intro l hl; have : l = 0 := by simpa using hl
            subst this; simp [pc_zero]
  | succ k ih =>
    intro l hl
    rw [pc_step l]
    have : l / 2 < 2 ^ k := by rw [pow_succ] at hl; omega
    have := ih _ this
    omega

theorem pc_eq_width (k : Nat) : ∀ l, l < 2 ^ k → pc l = k → l = 2 ^ k - 1 := by
  induction k with
  | zero => intro l hl _; simpa using hl
  | succ k ih =>
    intro l hl h
    rw [pc_step l] at h
    have h2 : l / 2 < 2 ^ k := by rw [pow_succ] at hl; omega
    have h3 := pc_le_of_lt k _ h2
    have h4 : pc (l / 2) = k := by omega
    have h5 := ih _ h2 h4
    have h6 : l % 2 = 1 := by omega
    have h7 : 0 < 2 ^ k := Nat.two_pow_pos _
    rw [pow_succ]; omega

theorem pc_pow_sub_one (k : Nat) : pc (2 ^ k - 1) = k := by
  induction k with
  | zero => rfl
  | succ k ih =>
    have h7 : 0 < 2 ^ k := Nat.two_pow_pos _
    have : 2 ^ (k + 1) - 1 = 2 * (2 ^ k - 1) + 1 := by rw [pow_succ]; omega
    rw [this, pc_double_add_one, ih]

theorem pc_pos {l : Nat} (h : 0 < l) : 0 < pc l := by
  induction l using Nat.strong_induction_on with
  | _ l ih =>
    rw [pc_step l]
    by_cases h1 : l % 2 = 1
    · omega
    · have h2 : 0 < l / 2 := by omega
      have := ih (l / 2) (by omega) h2
      omega

theorem pc_lt_of_lt_pred {k l : Nat} (h : l < 2 ^ k - 1) : pc l < k := by
  have h1 : l < 2 ^ k := by omega
  have h2 := pc_le_of_lt k l h1
  rcases Nat.lt_or_eq_of_le h2 with h3 | h3
  · exact h3
  · have := pc_eq_width k l h1 h3
    omega

/-- Complement within `n` bits. -/
theorem pc_compl (n : Nat) : ∀ x, x < 2 ^ n → pc (2 ^ n - 1 - x) + pc x = n := by
  induction n with
  | zero => intro x hx; have : x = 0 := by simpa using hx
            subst this; simp [pc_zero]
  | succ n ih =>
    intro x hx
    have h2 : x / 2 < 2 ^ n := by rw [pow_succ] at hx; omega
    have := ih _ h2
    rw [pc_step x, pc_step (2 ^ (n + 1) - 1 - x)]
    have h3 : (2 ^ (n + 1) - 1 - x) / 2 = 2 ^ n - 1 - x / 2 := by rw [pow_succ]; omega
    have h4 : (2 ^ (n + 1) - 1 - x) % 2 + x % 2 = 1 := by rw [pow_succ] at hx ⊢; omega
    rw [h3]; omega

/-- The least word of popcount `h` is `2^h - 1`. -/
theorem pc_lower_bound : ∀ (h x : Nat), pc x = h → 2 ^ h - 1 ≤ x := by
  intro h
  induction h with
  | zero => intro x _; simp
  | succ h ih =>
    intro x hx
    induction x using Nat.strong_induction_on with
    | _ x ihx =>
      rw [pc_step x] at hx
      by_cases h1 : x % 2 = 1
      · have := ih (x / 2) (by omega)
        rw [pow_succ]; omega
      · have hx0 : 0 < x := by
          rcases Nat.eq_zero_or_pos x with h0 | h0
          · subst h0; simp [pc_zero] at hx
          · exact h0
        have := ihx (x / 2) (by omega) (by omega)
        omega

/-- The greatest `n`-bit word of popcount `h` is `2^n - 2^(n-h)`. -/
theorem pc_upper_bound {n h x : Nat} (hx : x < 2 ^ n) (hp : pc x = h) :
    x ≤ 2 ^ n - 2 ^ (n - h) := by
  have h1 := pc_compl n x hx
  have h2 := pc_lower_bound (n - h) (2 ^ n - 1 - x) (by omega)
  have h3 : 0 < 2 ^ (n - h) := Nat.two_pow_pos _
  omega

/-! ## Bitwise operations on split words -/

theorem lor_split {k a a' b b' : Nat} (hb : b < 2 ^ k) (hb' : b' < 2 ^ k) :
    (2 ^ k * a + b) ||| (2 ^ k * a' + b') = 2 ^ k * (a ||| a') + (b ||| b') := by
  apply Nat.eq_of_testBit_eq
  intro i
  rw [Nat.testBit_or, Nat.testBit_mul_pow_two_add _ hb, Nat.testBit_mul_pow_two_add _ hb',
    Nat.testBit_mul_pow_two_add _ (Nat.or_lt_two_pow hb hb')]
  by_cases h : i < k <;> simp [h]

theorem land_split {k a a' b b' : Nat} (hb : b < 2 ^ k) (hb' : b' < 2 ^ k) :
    (2 ^ k * a + b) &&& (2 ^ k * a' + b') = 2 ^ k * (a &&& a') + (b &&& b') := by
  apply Nat.eq_of_testBit_eq
  intro i
  have hlt : b &&& b' < 2 ^ k := Nat.lt_of_le_of_lt Nat.and_le_left hb
  rw [Nat.testBit_and, Nat.testBit_mul_pow_two_add _ hb, Nat.testBit_mul_pow_two_add _ hb',
    Nat.testBit_mul_pow_two_add _ hlt]
  by_cases h : i < k <;> simp [h]

theorem compl_land {n p : Nat} (hp : p < 2 ^ n) : (2 ^ n - 1 - p) &&& p = 0 := by
  apply Nat.eq_of_testBit_eq
  intro i
  have h1 : 2 ^ n - 1 - p = 2 ^ n - (p + 1) := by omega
  rw [h1, Nat.testBit_and, Nat.testBit_two_pow_sub_succ hp]
  simp

theorem ctz_bits_pow_mul_odd (c : Nat) : ∀ (w o : Nat), c < w → o % 2 = 1 →
    ctz_bits w (2 ^ c * o) = c := by
  induction c with
  | zero =>
    intro w o hw ho
    obtain ⟨w, rfl⟩ : ∃ w', w = w' + 1 := ⟨w - 1, by omega⟩
    simp [ctz_bits, ho]
  | succ c ih =>
    intro w o hw ho
    obtain ⟨w, rfl⟩ : ∃ w', w = w' + 1 := ⟨w - 1, by omega⟩
    have h0 : 2 ^ (c + 1) * o = 2 * (2 ^ c * o) := by ring
    have h1 : (2 ^ (c + 1) * o) % 2 = 0 := by rw [h0]; omega
    have h2 : (2 ^ (c + 1) * o) / 2 = 2 ^ c * o := by rw [h0]; omega
    rw [ctz_bits, h1, h2, ih w o (by omega) ho]
    simp; omega

/-- Every positive word reads `p 0 1^(j+1) 0^c` in binary. -/
theorem exists_run_form {v : Nat} (hv : 0 < v) :
    ∃ c j p, v = 2 ^ (c + j + 2) * p + 2 ^ c * (2 ^ (j + 1) - 1) := by
  obtain ⟨c, w, hw, rfl⟩ := Nat.exists_eq_two_pow_mul_odd (Nat.pos_iff_ne_zero.mp hv)
  obtain ⟨m, o, ho, hwo⟩ := Nat.exists_eq_two_pow_mul_odd (Nat.succ_ne_zero w)
  have hw2 : w % 2 = 1 := Nat.odd_iff.mp hw
  have ho2 : o % 2 = 1 := Nat.odd_iff.mp ho
  have hm : m ≠ 0 := by
    rintro rfl
    simp at hwo
    omega
  obtain ⟨j, rfl⟩ : ∃ j, m = j + 1 := ⟨m - 1, by omega⟩
  refine ⟨c, j, o / 2, ?_⟩
  have ho3 : o = 2 * (o / 2) + 1 := by omega
  have h1 : 2 ^ (j + 1) * o = 2 ^ (j + 2) * (o / 2) + 2 ^ (j + 1) := by
    conv_lhs => rw [ho3]
    ring
  have h2 : w = 2 ^ (j + 2) * (o / 2) + (2 ^ (j + 1) - 1) := by
    have : 0 < 2 ^ (j + 1) := Nat.two_pow_pos _
    omega
  conv_lhs => rw [h2]
  ring

/-! ## The successor in a Hamming sector: the formula -/

theorem U64_eq : U64 = 2 ^ 64 := rfl

/-- `v | (v - 1)` fills the trailing zeros of `v`. -/
theorem lor_pred (c A : Nat) :
    (2 ^ (c + 1) * A + 2 ^ c) ||| (2 ^ (c + 1) * A + (2 ^ c - 1)) = 2 ^ (c + 1) * A + (2 ^ (c + 1) - 1) := by
  have hc : 0 < 2 ^ c := Nat.two_pow_pos _
  have hc1 : 2 ^ (c + 1) = 2 ^ c * 2 := by ring
  have hlt1 : 2 ^ c < 2 ^ (c + 1) := by omega
  have hlt2 : 2 ^ c - 1 < 2 ^ (c + 1) := by omega
  have hor1 : 2 ^ c ||| (2 ^ c - 1) = 2 ^ (c + 1) - 1 := by
    have h1 := Nat.mul_add_lt_is_or (show 2 ^ c - 1 < 2 ^ c by omega) 1
    rw [Nat.mul_one] at h1
    rw [← h1, hc1]; omega
  rw [lor_split hlt1 hlt2, Nat.or_self, hor1]

/-- `~t & -~t` for `t + 1 = y`: the lowest set bit of `y`. -/
theorem land_neg (e p : Nat) (h : 2 ^ (e + 1) * p + 2 ^ e < U64) :
    (U64 - (2 ^ (e + 1) * p + 2 ^ e)) &&& (2 ^ (e + 1) * p + 2 ^ e) = 2 ^ e := by
  have hpos : 0 < 2 ^ e := Nat.two_pow_pos _
  have he1 : 2 ^ (e + 1) = 2 ^ e * 2 := by ring
  have he : e < 64 := by
    by_contra hcon
    have h1 : 2 ^ 64 ≤ 2 ^ e := Nat.pow_le_pow_right (by decide) (by omega)
    rw [U64_eq] at h
    omega
  have hU : U64 = 2 ^ (e + 1) * 2 ^ (63 - e) := by
    rw [← pow_add, U64_eq]
    congr 1; omega
  have hp : p < 2 ^ (63 - e) := by
    by_contra hcon
    have h1 : 2 ^ (e + 1) * 2 ^ (63 - e) ≤ 2 ^ (e + 1) * p :=
      Nat.mul_le_mul_left _ (by omega)
    rw [← hU] at h1
    omega
  have e1 : U64 - (2 ^ (e + 1) * p + 2 ^ e) = 2 ^ (e + 1) * (2 ^ (63 - e) - 1 - p) + 2 ^ e := by
    have h1 : 2 ^ (e + 1) * (p + 1) ≤ 2 ^ (e + 1) * 2 ^ (63 - e) :=
      Nat.mul_le_mul_left _ (by omega)
    rw [Nat.mul_add, Nat.mul_one, ← hU] at h1
    rw [Nat.mul_sub, Nat.mul_sub, Nat.mul_one, ← hU]
    generalize 2 ^ (e + 1) * p = Y at *
    omega
  have hlt : 2 ^ e < 2 ^ (e + 1) := by omega
  rw [e1, land_split hlt hlt, compl_land hp, Nat.and_self]
  simp

theorem shift_pred (c j : Nat) : (2 ^ (c + 1 + j) - 1) >>> (c + 1) = 2 ^ j - 1 := by
  rw [Nat.shiftRight_eq_div_pow]
  have e : 2 ^ (c + 1 + j) = 2 ^ (c + 1) * 2 ^ j := by ring
  have hpos : 0 < 2 ^ (c + 1) := Nat.two_pow_pos _
  have hj : 0 < 2 ^ j := Nat.two_pow_pos _
  have e2 : 2 ^ (c + 1) * 2 ^ j - 1 = 2 ^ (c + 1) * (2 ^ j - 1) + (2 ^ (c + 1) - 1) := by
    rw [Nat.mul_sub, Nat.mul_one]
    have : 2 ^ (c + 1) * 1 ≤ 2 ^ (c + 1) * 2 ^ j := Nat.mul_le_mul_left _ hj
    generalize 2 ^ (c + 1) * 2 ^ j = X at *
    omega
  rw [e, e2, Nat.mul_add_div hpos, Nat.div_eq_of_lt (by omega)]
  rfl

/-- Gosper's step on a word of the form `p 0 1^(j+1) 0^c`, when the result
fits in 64 bits. -/
theorem next_state_run_form {c j p : Nat} (h : 2 ^ (c + j + 2) * p + 2 ^ (c + j + 1) < U64) :
    next_state true (2 ^ (c + j + 2) * p + 2 ^ c * (2 ^ (j + 1) - 1))
      = 2 ^ (c + j + 2) * p + 2 ^ (c + j + 1) + (2 ^ j - 1) := by
  have hc : 0 < 2 ^ c := Nat.two_pow_pos _
  have hj : 0 < 2 ^ j := Nat.two_pow_pos _
  obtain ⟨A, hA⟩ : ∃ A, A = 2 ^ (j + 1) * p + (2 ^ j - 1) := ⟨_, rfl⟩
  obtain ⟨y, hy⟩ : ∃ y, y = 2 ^ (c + j + 2) * p + 2 ^ (c + j + 1) := ⟨_, rfl⟩
  have hvA : 2 ^ (c + j + 2) * p + 2 ^ c * (2 ^ (j + 1) - 1) = 2 ^ (c + 1) * A + 2 ^ c := by
    have e1 : 2 ^ c * (2 ^ (j + 1) - 1) + 2 ^ c = 2 ^ (c + j + 1) := by
      rw [Nat.mul_sub, Nat.mul_one, Nat.sub_add_cancel (by
        calc 2 ^ c = 2 ^ c * 1 := by ring
          _ ≤ 2 ^ c * 2 ^ (j + 1) := Nat.mul_le_mul_left _ (Nat.two_pow_pos _))]
      ring
    have e2 : 2 ^ (c + 1) * A + 2 ^ (c + 1) = y := by
      rw [hA, hy, Nat.mul_add, Nat.mul_sub, Nat.mul_one, Nat.add_assoc, Nat.sub_add_cancel (by
        calc 2 ^ (c + 1) = 2 ^ (c + 1) * 1 := by ring
          _ ≤ 2 ^ (c + 1) * 2 ^ j := Nat.mul_le_mul_left _ hj)]
      ring
    have e3 : 2 ^ (c + j + 2) * p + 2 ^ (c + j + 1) = y := hy.symm
    have e4 : 2 ^ (c + 1) = 2 ^ c + 2 ^ c := by ring
    generalize 2 ^ c * (2 ^ (j + 1) - 1) = X at *
    generalize 2 ^ (c + 1) * A = Z at *
    generalize 2 ^ (c + j + 2) * p = W at *
    generalize 2 ^ (c + j + 1) = V at *
    generalize 2 ^ (c + 1) = V2 at *
    omega
  have hty : 2 ^ (c + 1) * A + (2 ^ (c + 1) - 1) + 1 = y := by
    have : 0 < 2 ^ (c + 1) := Nat.two_pow_pos _
    rw [hA, hy, Nat.add_assoc, Nat.sub_add_cancel this, Nat.mul_add, Nat.mul_sub, Nat.mul_one,
      Nat.add_assoc, Nat.sub_add_cancel (by
        calc 2 ^ (c + 1) = 2 ^ (c + 1) * 1 := by ring
          _ ≤ 2 ^ (c + 1) * 2 ^ j := Nat.mul_le_mul_left _ hj)]
    ring
  rw [← hy] at h ⊢
  rw [hvA]
  obtain ⟨v, hv⟩ : ∃ v, v = 2 ^ (c + 1) * A + 2 ^ c := ⟨_, rfl⟩
  obtain ⟨t, ht⟩ : ∃ t, t = 2 ^ (c + 1) * A + (2 ^ (c + 1) - 1) := ⟨_, rfl⟩
  rw [← ht] at hty
  have hc1 : 2 ^ (c + 1) = 2 ^ c + 2 ^ c := by ring
  have hvt : v + 2 ^ c = t + 1 := by
    rw [hv, ht]
    generalize 2 ^ (c + 1) * A = Z at *
    omega
  have hvpos : 0 < v := by rw [hv]; omega
  have hvlt : v < U64 := by omega
  have hv1 : (v + U64 - 1) % U64 = 2 ^ (c + 1) * A + (2 ^ c - 1) := by
    have : v + U64 - 1 = (v - 1) + U64 := by omega
    rw [this, Nat.add_mod_right, Nat.mod_eq_of_lt (by omega), hv]
    omega
  have hor : v ||| ((v + U64 - 1) % U64) = t := by
    rw [hv1, hv, ht]; exact lor_pred c A
  have hctz : ctz v = c := by
    have hodd : (2 * A + 1) % 2 = 1 := by omega
    have : v = 2 ^ c * (2 * A + 1) := by rw [hv]; ring
    rw [this]
    have hcl : c < 64 := by
      by_contra hcon
      have h1 : 2 ^ 64 ≤ 2 ^ c := Nat.pow_le_pow_right (by decide) (by omega)
      rw [U64_eq] at hvlt
      rw [hv] at hvlt
      omega
    exact ctz_bits_pow_mul_odd c 64 _ hcl hodd
  rw [← hv]
  unfold next_state
  simp only [if_true]
  rw [hor, hctz]
  have htlt : t + 1 < U64 := by omega
  have hnot : U64 - 1 - t = U64 - y := by omega
  have hneg : (U64 - (U64 - y)) % U64 = y := by
    have : U64 - (U64 - y) = y := by omega
    rw [this, Nat.mod_eq_of_lt h]
  have hlow : (U64 - y) &&& y = 2 ^ (c + j + 1) := by
    rw [hy]
    exact land_neg (c + j + 1) p (by rw [← hy]; exact h)
  have hE1 : 2 ^ (c + j + 1) ≤ y := by rw [hy]; omega
  have hEpos : 0 < 2 ^ (c + j + 1) := Nat.two_pow_pos _
  have hsub : (2 ^ (c + j + 1) + U64 - 1) % U64 = 2 ^ (c + j + 1) - 1 := by
    have : 2 ^ (c + j + 1) + U64 - 1 = (2 ^ (c + j + 1) - 1) + U64 := by omega
    rw [this, Nat.add_mod_right]
    apply Nat.mod_eq_of_lt
    omega
  have hshift : (2 ^ (c + j + 1) - 1) >>> (c + 1) = 2 ^ j - 1 := by
    have := shift_pred c j
    have e : c + 1 + j = c + j + 1 := by omega
    rw [e] at this
    exact this
  rw [hnot, hneg, hlow, hsub, hshift, hty, Nat.mod_eq_of_lt h]
  have e : y = 2 ^ j * (2 ^ (c + 2) * p + 2 ^ (c + 1)) := by rw [hy]; ring
  rw [e, ← Nat.mul_add_lt_is_or (show 2 ^ j - 1 < 2 ^ j by omega)]

/-! ## The successor in a Hamming sector: least and popcount-preserving -/

theorem pc_one : pc 1 = 1 := rfl

theorem pc_run_form (c j p : Nat) :
    pc (2 ^ (c + j + 2) * p + 2 ^ c * (2 ^ (j + 1) - 1)) = pc p + (j + 1) := by
  have hlt : 2 ^ c * (2 ^ (j + 1) - 1) < 2 ^ (c + j + 2) := by
    have e : 2 ^ (c + j + 2) = 2 ^ c * (2 ^ (j + 1) * 2) := by ring
    rw [e]
    apply Nat.mul_lt_mul_of_pos_left _ (Nat.two_pow_pos _)
    have : 0 < 2 ^ (j + 1) := Nat.two_pow_pos _
    omega
  rw [pc_split _ _ _ hlt, pc_pow_mul, pc_pow_sub_one]

theorem pc_next_form (c j p : Nat) :
    pc (2 ^ (c + j + 2) * p + 2 ^ (c + j + 1) + (2 ^ j - 1)) = pc p + (j + 1) := by
  have hj : 0 < 2 ^ j := Nat.two_pow_pos _
  have h1 : 2 ^ j - 1 < 2 ^ (c + j + 1) := by
    have e : 2 ^ (c + j + 1) = 2 ^ j * 2 ^ (c + 1) := by ring
    have : 2 ^ j * 1 ≤ 2 ^ j * 2 ^ (c + 1) := Nat.mul_le_mul_left _ (Nat.two_pow_pos _)
    omega
  have hlt : 2 ^ (c + j + 1) + (2 ^ j - 1) < 2 ^ (c + j + 2) := by
    have e : 2 ^ (c + j + 2) = 2 ^ (c + j + 1) + 2 ^ (c + j + 1) := by ring
    omega
  have h2 : pc (2 ^ (c + j + 1) + (2 ^ j - 1)) = 1 + j := by
    have := pc_split (c + j + 1) 1 (2 ^ j - 1) h1
    rw [Nat.mul_one] at this
    rw [this, pc_one, pc_pow_sub_one]
  rw [Nat.add_assoc, pc_split _ _ _ hlt, h2]
  omega

theorem pc_between_run_forms (c j p z : Nat)
    (h1 : 2 ^ (c + j + 2) * p + 2 ^ c * (2 ^ (j + 1) - 1) < z)
    (h2 : z < 2 ^ (c + j + 2) * p + 2 ^ (c + j + 1) + (2 ^ j - 1)) :
    pc z ≠ pc p + (j + 1) := by
  have hj : 0 < 2 ^ j := Nat.two_pow_pos _
  have hc : 0 < 2 ^ c := Nat.two_pow_pos _
  have e1 : 2 ^ c * (2 ^ (j + 1) - 1) + 2 ^ c = 2 ^ (c + j + 1) := by
    rw [Nat.mul_sub, Nat.mul_one, Nat.sub_add_cancel (by
      calc 2 ^ c = 2 ^ c * 1 := by ring
        _ ≤ 2 ^ c * 2 ^ (j + 1) := Nat.mul_le_mul_left _ (Nat.two_pow_pos _))]
    ring
  have e2 : 2 ^ (c + j + 2) = 2 ^ (c + j + 1) + 2 ^ (c + j + 1) := by ring
  have e3 : 2 ^ j ≤ 2 ^ (c + j + 1) := Nat.pow_le_pow_right (by decide) (by omega)
  obtain ⟨r, hr⟩ : ∃ r, z = 2 ^ (c + j + 2) * p + r := ⟨z - 2 ^ (c + j + 2) * p, by omega⟩
  have hrlt : r < 2 ^ (c + j + 2) := by omega
  rw [hr, pc_split _ _ _ hrlt]
  by_cases hcase : r < 2 ^ (c + j + 1)
  · obtain ⟨l, hl⟩ : ∃ l, r = 2 ^ c * (2 ^ (j + 1) - 1) + l :=
      ⟨r - 2 ^ c * (2 ^ (j + 1) - 1), by omega⟩
    have hl1 : 0 < l := by omega
    have hl2 : l < 2 ^ c := by omega
    have := pc_pos hl1
    rw [hl, pc_split _ _ _ hl2, pc_pow_sub_one]
    omega
  · obtain ⟨l, hl⟩ : ∃ l, r = 2 ^ (c + j + 1) * 1 + l := ⟨r - 2 ^ (c + j + 1), by omega⟩
    have hl1 : l < 2 ^ j - 1 := by omega
    have hl2 : l < 2 ^ (c + j + 1) := by omega
    have := pc_lt_of_lt_pred hl1
    rw [hl, pc_split _ _ _ hl2, pc_one]
    omega

/-- Gosper's step is the successor among the words of one popcount. -/
theorem next_state_true_spec {v u : Nat} (hv : 0 < v) (hvu : v < u) (hu : u < U64)
    (hp : pc u = pc v) :
    v < next_state true v ∧ next_state true v ≤ u ∧ pc (next_state true v) = pc v ∧
      ∀ z, v < z → z < next_state true v → pc z ≠ pc v := by
  obtain ⟨c, j, p, hform⟩ := exists_run_form hv
  have hpv : pc v = pc p + (j + 1) := by rw [hform]; exact pc_run_form c j p
  have hle : 2 ^ (c + j + 2) * p + 2 ^ (c + j + 1) + (2 ^ j - 1) ≤ u := by
    by_contra hcon
    exact pc_between_run_forms c j p u (by rw [← hform]; exact hvu) (by omega) (by rw [hp, hpv])
  have hnext : next_state true v = 2 ^ (c + j + 2) * p + 2 ^ (c + j + 1) + (2 ^ j - 1) := by
    rw [hform]
    exact next_state_run_form (by omega)
  have e1 : 2 ^ c * (2 ^ (j + 1) - 1) + 2 ^ c = 2 ^ (c + j + 1) := by
    rw [Nat.mul_sub, Nat.mul_one, Nat.sub_add_cancel (by
      calc 2 ^ c = 2 ^ c * 1 := by ring
        _ ≤ 2 ^ c * 2 ^ (j + 1) := Nat.mul_le_mul_left _ (Nat.two_pow_pos _))]
    ring
  have hc : 0 < 2 ^ c := Nat.two_pow_pos _
  refine ⟨?_, ?_, ?_, ?_⟩
  · rw [hnext]; conv_lhs => rw [hform]
    omega
  · rw [hnext]; exact hle
  · rw [hnext, pc_next_form, hpv]
  · intro z hz1 hz2
    rw [hpv]
    rw [hnext] at hz2
    rw [hform] at hz1
    exact pc_between_run_forms c j p z hz1 hz2

/-! ## The loops of `closest_hamming` -/

theorem test_bit_iff (x i : Nat) : test_bit x i = true ↔ (x / 2 ^ i) % 2 = 1 := by
  unfold test_bit
  rw [Nat.shiftRight_eq_div_pow]
  simp

theorem test_bit_pow_mul (i a : Nat) : test_bit (2 ^ i * a) i = true ↔ a % 2 = 1 := by
  rw [test_bit_iff, Nat.mul_div_cancel_left _ (Nat.two_pow_pos i)]

theorem test_bit_pow_mul_add (i a : Nat) :
    test_bit (2 ^ i * a + (2 ^ i - 1)) i = true ↔ a % 2 = 1 := by
  have hpos : 0 < 2 ^ i := Nat.two_pow_pos i
  rw [test_bit_iff, Nat.mul_add_div hpos, Nat.div_eq_of_lt (by omega), Nat.add_zero]

theorem clear_bit_pow_mul {i a : Nat} (hi : i < 64) (ha : a % 2 = 1) (hlt : 2 ^ i * a < U64) :
    clear_bit (2 ^ i * a) i = 2 ^ (i + 1) * (a / 2) := by
  have hpos : 0 < 2 ^ i := Nat.two_pow_pos i
  have hi1 : 2 ^ (i + 1) = 2 ^ i * 2 := by ring
  have hU : U64 = 2 ^ (i + 1) * 2 ^ (63 - i) := by
    rw [← pow_add, U64_eq]
    congr 1; omega
  have hm : 0 < 2 ^ (63 - i) := Nat.two_pow_pos _
  have e1 : U64 - 1 - 1 <<< i = 2 ^ (i + 1) * (2 ^ (63 - i) - 1) + (2 ^ i - 1) := by
    rw [Nat.one_shiftLeft, hU, Nat.mul_sub, Nat.mul_one]
    have : 2 ^ (i + 1) * 1 ≤ 2 ^ (i + 1) * 2 ^ (63 - i) := Nat.mul_le_mul_left _ hm
    generalize 2 ^ (i + 1) * 2 ^ (63 - i) = X at *
    omega
  have e2 : 2 ^ i * a = 2 ^ (i + 1) * (a / 2) + 2 ^ i := by
    have : a = 2 * (a / 2) + 1 := by omega
    conv_lhs => rw [this]
    ring
  have ha2 : a / 2 < 2 ^ (63 - i) := by
    by_contra hcon
    have h1 : 2 ^ (i + 1) * 2 ^ (63 - i) ≤ 2 ^ (i + 1) * (a / 2) :=
      Nat.mul_le_mul_left _ (by omega)
    rw [← hU] at h1
    omega
  have e3 : a / 2 &&& (2 ^ (63 - i) - 1) = a / 2 := by
    rw [Nat.and_pow_two_sub_one_eq_mod, Nat.mod_eq_of_lt ha2]
  have e4 : 2 ^ i &&& (2 ^ i - 1) = 0 := by
    rw [Nat.and_pow_two_sub_one_eq_mod, Nat.mod_self]
  unfold clear_bit
  rw [e1]
  conv_lhs => rw [e2]
  rw [land_split (by omega) (by omega), e3, e4, Nat.add_zero]

theorem set_bit_pow_mul_add {i a : Nat} (ha : a % 2 = 0) :
    set_bit (2 ^ i * a + (2 ^ i - 1)) i = 2 ^ (i + 1) * (a / 2) + (2 ^ (i + 1) - 1) := by
  have hpos : 0 < 2 ^ i := Nat.two_pow_pos i
  have hi1 : 2 ^ (i + 1) = 2 ^ i * 2 := by ring
  have e2 : 2 ^ i * a = 2 ^ (i + 1) * (a / 2) := by
    have : a = 2 * (a / 2) := by omega
    conv_lhs => rw [this]
    ring
  have e3 : 1 <<< i = 2 ^ (i + 1) * 0 + 2 ^ i := by rw [Nat.one_shiftLeft]; simp
  have e4 : (2 ^ i - 1) ||| 2 ^ i = 2 ^ (i + 1) - 1 := by
    have h1 := Nat.mul_add_lt_is_or (show 2 ^ i - 1 < 2 ^ i by omega) 1
    rw [Nat.mul_one] at h1
    rw [Nat.or_comm, ← h1, hi1]; omega
  unfold set_bit
  rw [e2, e3, lor_split (by omega) (by omega), e4, Nat.or_zero]

theorem div_pow_succ (x i : Nat) : x / 2 ^ (i + 1) = x / 2 ^ i / 2 := by
  rw [pow_succ, Nat.div_div_eq_div_mul]

/-- The clearing loop stops at a word `2^k * (x / 2^k)` of popcount `h`. -/
theorem closest_hamming_clear_spec (h x : Nat) (hx : x < U64) :
    ∀ (todo i : Nat), todo + i = 64 →
      ∃ k, i ≤ k ∧ k ≤ 64 ∧
        closest_hamming_clear h todo i (2 ^ i * (x / 2 ^ i)) (pc (x / 2 ^ i))
          = some (2 ^ k * (x / 2 ^ k)) ∧
        pc (x / 2 ^ k) ≤ max h (pc (x / 2 ^ i)) ∧ (h ≤ pc (x / 2 ^ i) → pc (x / 2 ^ k) = h) := by
  intro todo
  induction todo with
  | zero =>
    intro i hi
    have hi64 : i = 64 := by omega
    subst hi64
    have h0 : x / 2 ^ 64 = 0 := Nat.div_eq_of_lt hx
    refine ⟨64, le_refl _, le_refl _, ?_, ?_, ?_⟩
    · rw [closest_hamming_clear, h0, pc_zero, if_neg (by omega)]
    · rw [h0, pc_zero]; omega
    · intro hh; rw [h0, pc_zero] at hh ⊢; omega
  | succ todo ih =>
    intro i hi
    have hi64 : i < 64 := by omega
    obtain ⟨k, hk1, hk2, hk3, hk4, hk5⟩ := ih (i + 1) (by omega)
    have hstep := pc_step (x / 2 ^ i)
    have hdiv := div_pow_succ x i
    by_cases hw : pc (x / 2 ^ i) > h
    · by_cases hodd : (x / 2 ^ i) % 2 = 1
      · refine ⟨k, by omega, hk2, ?_, ?_, ?_⟩
        · rw [closest_hamming_clear, if_pos hw, if_pos ((test_bit_pow_mul i _).mpr hodd)]
          have hlt : 2 ^ i * (x / 2 ^ i) < U64 :=
            Nat.lt_of_le_of_lt (Nat.mul_div_le x (2 ^ i)) hx
          rw [clear_bit_pow_mul hi64 hodd hlt, ← hdiv]
          have : pc (x / 2 ^ i) - 1 = pc (x / 2 ^ (i + 1)) := by rw [hdiv]; omega
          rw [this]
          exact hk3
        · rw [hdiv] at hk4; omega
        · intro _; apply hk5; rw [hdiv]; omega
      · have heven : (x / 2 ^ i) % 2 = 0 := by omega
        refine ⟨k, by omega, hk2, ?_, ?_, ?_⟩
        · have hnt : ¬ test_bit (2 ^ i * (x / 2 ^ i)) i = true := by
            rw [test_bit_pow_mul]; omega
          rw [closest_hamming_clear, if_pos hw, if_neg hnt]
          have e : 2 ^ i * (x / 2 ^ i) = 2 ^ (i + 1) * (x / 2 ^ (i + 1)) := by
            rw [hdiv, pow_succ]
            have : x / 2 ^ i = 2 * (x / 2 ^ i / 2) := by omega
            conv_lhs => rw [this]
            ring
          have e2 : pc (x / 2 ^ i) = pc (x / 2 ^ (i + 1)) := by rw [hdiv]; omega
          rw [e, e2]
          exact hk3
        · rw [hdiv] at hk4; omega
        · intro _; apply hk5; rw [hdiv]; omega
    · refine ⟨i, le_refl _, by omega, ?_, ?_, ?_⟩
      · rw [closest_hamming_clear, if_neg hw]
      · omega
      · intro hh; omega

/-- The setting loop stops at a word `2^k * (x / 2^k) + (2^k - 1)` of popcount `h`. -/
theorem closest_hamming_set_spec (h x : Nat) (hh : h ≤ 64) :
    ∀ (todo i : Nat), todo + i = 64 →
      ∃ k, i ≤ k ∧ k ≤ 64 ∧
        closest_hamming_set h todo i (2 ^ i * (x / 2 ^ i) + (2 ^ i - 1)) (pc (x / 2 ^ i) + i)
          = some (2 ^ k * (x / 2 ^ k) + (2 ^ k - 1)) ∧
        (pc (x / 2 ^ i) + i ≤ h → pc (x / 2 ^ k) + k = h) := by
  intro todo
  induction todo with
  | zero =>
    intro i hi
    have hi64 : i = 64 := by omega
    subst hi64
    refine ⟨64, le_refl _, le_refl _, ?_, ?_⟩
    · rw [closest_hamming_set, if_neg (by omega)]
    · intro h1; omega
  | succ todo ih =>
    intro i hi
    have hi64 : i < 64 := by omega
    obtain ⟨k, hk1, hk2, hk3, hk5⟩ := ih (i + 1) (by omega)
    have hstep := pc_step (x / 2 ^ i)
    have hdiv := div_pow_succ x i
    by_cases hw : pc (x / 2 ^ i) + i < h
    · by_cases hodd : (x / 2 ^ i) % 2 = 1
      · refine ⟨k, by omega, hk2, ?_, ?_⟩
        · have ht : ¬ ¬ test_bit (2 ^ i * (x / 2 ^ i) + (2 ^ i - 1)) i = true := by
            rw [test_bit_pow_mul_add]; omega
          rw [closest_hamming_set, if_pos hw, if_neg ht]
          have hpos : 0 < 2 ^ i := Nat.two_pow_pos i
          have e : 2 ^ i * (x / 2 ^ i) + (2 ^ i - 1)
              = 2 ^ (i + 1) * (x / 2 ^ (i + 1)) + (2 ^ (i + 1) - 1) := by
            rw [hdiv, pow_succ]
            have : x / 2 ^ i = 2 * (x / 2 ^ i / 2) + 1 := by omega
            conv_lhs => rw [this]
            have e' : 2 ^ i * (2 * (x / 2 ^ i / 2) + 1) = 2 ^ i * 2 * (x / 2 ^ i / 2) + 2 ^ i := by
              ring
            rw [e']
            omega
          have e2 : pc (x / 2 ^ i) + i = pc (x / 2 ^ (i + 1)) + (i + 1) := by rw [hdiv]; omega
          rw [e, e2]
          exact hk3
        · intro _; apply hk5; rw [hdiv]; omega
      · have heven : (x / 2 ^ i) % 2 = 0 := by omega
        refine ⟨k, by omega, hk2, ?_, ?_⟩
        · have ht : ¬ test_bit (2 ^ i * (x / 2 ^ i) + (2 ^ i - 1)) i = true := by
            rw [test_bit_pow_mul_add]; omega
          rw [closest_hamming_set, if_pos hw, if_pos ht, set_bit_pow_mul_add heven, ← hdiv]
          have e2 : pc (x / 2 ^ i) + i + 1 = pc (x / 2 ^ (i + 1)) + (i + 1) := by rw [hdiv]; omega
          rw [e2]
          exact hk3
        · intro _; apply hk5; rw [hdiv]; omega
    · refine ⟨i, le_refl _, by omega, ?_, ?_⟩
      · rw [closest_hamming_set, if_neg hw]
      · intro hh; omega

/-! ## The function `closest_hamming` -/

theorem max_value_eq {m : Nat} (hm : m < 64) : ((U64 - 1) <<< m) % U64 = U64 - 2 ^ m := by
  have hpos : 0 < 2 ^ m := Nat.two_pow_pos m
  have hlt : 2 ^ m < U64 := by
    rw [U64_eq]; exact Nat.pow_lt_pow_right (by decide) hm
  have e : (U64 - 1) <<< m = U64 * (2 ^ m - 1) + (U64 - 2 ^ m) := by
    rw [Nat.shiftLeft_eq, Nat.sub_mul, Nat.mul_sub, Nat.one_mul, Nat.mul_one]
    have : U64 * 1 ≤ U64 * 2 ^ m := Nat.mul_le_mul_left _ hpos
    generalize U64 * 2 ^ m = X at *
    omega
  rw [e, Nat.mul_add_mod, Nat.mod_eq_of_lt (by omega)]

theorem pc_eq_zero {x : Nat} (h : pc x = 0) : x = 0 := by
  rcases Nat.eq_zero_or_pos x with h0 | h0
  · exact h0
  · have := pc_pos h0; omega

/-- Above a word with its low `k` bits cleared, up to the word itself, the
popcount is larger. -/
theorem pc_above_cleared {k x z : Nat} (h1 : 2 ^ k * (x / 2 ^ k) < z) (h2 : z ≤ x) :
    pc (x / 2 ^ k) < pc z := by
  have hpos : 0 < 2 ^ k := Nat.two_pow_pos k
  have hx := Nat.div_add_mod x (2 ^ k)
  have hr := Nat.mod_lt x hpos
  obtain ⟨l, hl⟩ : ∃ l, z = 2 ^ k * (x / 2 ^ k) + l := ⟨z - 2 ^ k * (x / 2 ^ k), by omega⟩
  have hl1 : 0 < l := by omega
  have hl2 : l < 2 ^ k := by omega
  have := pc_pos hl1
  rw [hl, pc_split _ _ _ hl2]
  omega

/-- Below a word with its low `k` bits set, down to the word itself, the
popcount is smaller. -/
theorem pc_below_filled {k x z : Nat} (h1 : x ≤ z) (h2 : z < 2 ^ k * (x / 2 ^ k) + (2 ^ k - 1)) :
    pc z < pc (x / 2 ^ k) + k := by
  have hpos : 0 < 2 ^ k := Nat.two_pow_pos k
  have hx := Nat.div_add_mod x (2 ^ k)
  have hr := Nat.mod_lt x hpos
  obtain ⟨l, hl⟩ : ∃ l, z = 2 ^ k * (x / 2 ^ k) + l := ⟨z - 2 ^ k * (x / 2 ^ k), by omega⟩
  have hl1 : l < 2 ^ k - 1 := by omega
  have hl2 : l < 2 ^ k := by omega
  have := pc_lt_of_lt_pred hl1
  rw [hl, pc_split _ _ _ hl2]
  omega

/-- The function `closest_hamming` returns the least word from `x` on that has
popcount `h`, whenever a 64-bit word from `x` on has popcount `h`. -/
theorem closest_hamming_spec {x h u : Nat} (hx : x < U64) (hxu : x ≤ u) (hu : u < U64)
    (hpu : pc u = h) :
    ∃ y, closest_hamming x h = some y ∧ x ≤ y ∧ y ≤ u ∧ pc y = h ∧
      ∀ z, x ≤ z → z < y → pc z ≠ h := by
  have hh : h ≤ 64 := by rw [← hpu]; exact pc_le_of_lt 64 u hu
  unfold closest_hamming
  rw [if_neg (by omega), popcount_eq_pc hx]
  simp only
  by_cases hgt : pc x > h
  · rw [if_pos hgt]
    obtain ⟨k, _, _, hk3, _, hk5⟩ := closest_hamming_clear_spec h x hx 64 0 (by omega)
    simp only [pow_zero, Nat.div_one, Nat.one_mul] at hk3 hk5
    have hpy0 : pc (2 ^ k * (x / 2 ^ k)) = h := by rw [pc_pow_mul]; exact hk5 (by omega)
    have hy0x : 2 ^ k * (x / 2 ^ k) ≤ x := Nat.mul_div_le x (2 ^ k)
    have hne : 2 ^ k * (x / 2 ^ k) ≠ x := by
      intro he; rw [he] at hpy0; omega
    have hh0 : h ≠ 0 := by
      intro h0
      rw [h0] at hpu
      have := pc_eq_zero hpu
      omega
    have hmax : (if h = 0 then 0 else ((U64 - 1) <<< (64 - h)) % U64) = U64 - 2 ^ (64 - h) := by
      rw [if_neg hh0, max_value_eq (by omega)]
    have hule : u ≤ U64 - 2 ^ (64 - h) := pc_upper_bound hu hpu
    have hy0pos : 0 < 2 ^ k * (x / 2 ^ k) := by
      rcases Nat.eq_zero_or_pos (2 ^ k * (x / 2 ^ k)) with h0 | h0
      · rw [h0, pc_zero] at hpy0; omega
      · exact h0
    obtain ⟨hn1, hn2, hn3, hn4⟩ :=
      next_state_true_spec hy0pos (show 2 ^ k * (x / 2 ^ k) < u by omega) hu (by rw [hpu, hpy0])
    refine ⟨next_state true (2 ^ k * (x / 2 ^ k)), ?_, ?_, hn2, by rw [hn3, hpy0], ?_⟩
    · rw [hk3, hmax, Option.map_some', if_pos (by omega)]
    · by_contra hcon
      have h1 := pc_above_cleared hn1 (by omega)
      rw [hn3, pc_pow_mul] at h1
      omega
    · intro z hz1 hz2
      rw [← hpy0]
      exact hn4 z (by omega) hz2
  · rw [if_neg hgt]
    by_cases hlt : pc x < h
    · rw [if_pos hlt]
      obtain ⟨k, _, _, hk3, hk5⟩ := closest_hamming_set_spec h x hh 64 0 (by omega)
      simp only [pow_zero, Nat.div_one, Nat.one_mul, Nat.sub_self, Nat.add_zero] at hk3 hk5
      have hpos : 0 < 2 ^ k := Nat.two_pow_pos k
      have hxd := Nat.div_add_mod x (2 ^ k)
      have hr := Nat.mod_lt x hpos
      have hpk := hk5 (by omega)
      have hleast : ∀ z, x ≤ z → z < 2 ^ k * (x / 2 ^ k) + (2 ^ k - 1) → pc z ≠ h := by
        intro z hz1 hz2
        have := pc_below_filled hz1 hz2
        omega
      refine ⟨2 ^ k * (x / 2 ^ k) + (2 ^ k - 1), hk3, by omega, ?_, ?_, hleast⟩
      · by_contra hcon
        exact hleast u hxu (by omega) hpu
      · rw [pc_split _ _ _ (by omega), pc_pow_sub_one]; exact hpk
    · rw [if_neg hlt]
      refine ⟨x, rfl, le_refl _, hxu, by omega, ?_⟩
      intro z hz1 hz2; omega

/-! ## One task -/

theorem in_sequence_iff {fhw : Bool} {hw x : Nat} (hx : x < U64) :
    in_sequence fhw hw x = true ↔ (fhw = true → pc x = hw) := by
  unfold in_sequence
  rw [popcount_eq_pc hx]
  cases fhw <;> simp

theorem states_between_self (fhw : Bool) (hw a : Nat) : states_between fhw hw a a = [] := by
  simp [states_between]

theorem states_between_append (fhw : Bool) (hw : Nat) {a b c : Nat} (hab : a ≤ b) (hbc : b ≤ c) :
    states_between fhw hw a c = states_between fhw hw a b ++ states_between fhw hw b c := by
  unfold states_between
  rw [← List.filter_append]
  congr 1
  have h := List.range'_append a (b - a) (c - b) 1
  rw [Nat.one_mul] at h
  have e1 : a + (b - a) = b := by omega
  have e2 : c - b + (b - a) = c - a := by omega
  rw [e1, e2] at h
  exact h.symm

theorem states_between_eq_nil (fhw : Bool) (hw a b : Nat)
    (h : ∀ z, a ≤ z → z < b → in_sequence fhw hw z = false) : states_between fhw hw a b = [] := by
  unfold states_between
  rw [List.filter_eq_nil_iff]
  intro z hz
  rw [List.mem_range'_1] at hz
  rw [h z hz.1 (by omega)]
  simp

theorem states_between_single (fhw : Bool) (hw : Nat) {a : Nat}
    (h : in_sequence fhw hw a = true) : states_between fhw hw a (a + 1) = [a] := by
  unfold states_between
  have : a + 1 - a = 1 := by omega
  rw [this, List.range'_one, List.filter_cons, if_pos h, List.filter_nil]

/-- From a state of the sequence to its successor. -/
theorem states_between_cons (fhw : Bool) (hw : Nat) {a n b : Nat} (han : a < n) (hnb : n ≤ b)
    (ha : in_sequence fhw hw a = true)
    (hgap : ∀ z, a < z → z < n → in_sequence fhw hw z = false) :
    states_between fhw hw a b = a :: states_between fhw hw n b := by
  rw [states_between_append fhw hw (show a ≤ a + 1 by omega) (show a + 1 ≤ b by omega),
    states_between_single fhw hw ha,
    states_between_append fhw hw (show a + 1 ≤ n by omega) hnb,
    states_between_eq_nil fhw hw _ _ (fun z hz1 hz2 => hgap z (by omega) hz2)]
  rfl

theorem mem_states_between {fhw : Bool} {hw a b x : Nat} :
    x ∈ states_between fhw hw a b ↔ a ≤ x ∧ x < b ∧ in_sequence fhw hw x = true := by
  unfold states_between
  rw [List.mem_filter, List.mem_range'_1]
  constructor
  · rintro ⟨⟨h1, h2⟩, h3⟩; exact ⟨h1, by omega, h3⟩
  · rintro ⟨h1, h2, h3⟩; exact ⟨⟨h1, by omega⟩, h3⟩

theorem states_between_pairwise (fhw : Bool) (hw a b : Nat) :
    (states_between fhw hw a b).Pairwise (· < ·) :=
  (List.pairwise_lt_range' a (b - a)).filter _

theorem handle_eq (get_state_info : Nat → Nat × Bool) (states : List Nat) (x : Nat) :
    handle get_state_info states x = states ++ [x].filter (is_pushed get_state_info) := by
  unfold handle is_pushed
  by_cases h : (get_state_info x).1 = x ∧ (get_state_info x).2 = true
  · simp [h]
  · simp only [h, if_false, List.filter_cons, decide_False, List.filter_nil, List.append_nil]
    simp

/-- The successor of a state of the sequence below a later state. -/
theorem next_state_spec {fhw : Bool} {hw v u : Nat} (hvu : v < u) (hu : u < U64)
    (hv : in_sequence fhw hw v = true) (hpu : in_sequence fhw hw u = true) :
    v < next_state fhw v ∧ next_state fhw v ≤ u ∧ in_sequence fhw hw (next_state fhw v) = true ∧
      ∀ z, v < z → z < next_state fhw v → in_sequence fhw hw z = false := by
  have hvlt : v < U64 := by omega
  cases fhw with
  | false =>
    have e : next_state false v = v + 1 := by
      unfold next_state
      simp only [Bool.false_eq_true, if_false]
      exact Nat.mod_eq_of_lt (by omega)
    rw [e]
    refine ⟨by omega, by omega, by simp [in_sequence], ?_⟩
    intro z h1 h2; omega
  | true =>
    rw [in_sequence_iff hvlt] at hv
    rw [in_sequence_iff hu] at hpu
    have hpv := hv rfl
    have hpu' := hpu rfl
    have hvpos : 0 < v := by
      rcases Nat.eq_zero_or_pos v with h0 | h0
      · subst h0
        rw [pc_zero] at hpv
        rw [← hpv] at hpu'
        have := pc_eq_zero hpu'
        omega
      · exact h0
    obtain ⟨h1, h2, h3, h4⟩ := next_state_true_spec hvpos hvu hu (by rw [hpu', hpv])
    refine ⟨h1, h2, ?_, ?_⟩
    · rw [in_sequence_iff (by omega)]; intro _; rw [h3, hpv]
    · intro z hz1 hz2
      have := h4 z hz1 hz2
      have hzlt : z < U64 := by omega
      cases hin : in_sequence true hw z with
      | false => rfl
      | true =>
        rw [in_sequence_iff hzlt] at hin
        exact absurd ((hin rfl).trans hpv.symm) this

/-- The loop of a task visits the states of the sequence from `current` up
to, not including, `upper_bound`, and stops exactly on `upper_bound`. -/
theorem generate_states_task_loop_spec (fhw : Bool) (hw upper_bound : Nat)
    (get_state_info : Nat → Nat × Bool) (hub : upper_bound < U64)
    (hpub : in_sequence fhw hw upper_bound = true) :
    ∀ (fuel current : Nat) (states : List Nat), current ≤ upper_bound →
      in_sequence fhw hw current = true → upper_bound - current < fuel →
      generate_states_task_loop fhw upper_bound get_state_info fuel current states
        = some (upper_bound,
            states ++ (states_between fhw hw current upper_bound).filter (is_pushed get_state_info)) := by
  intro fuel
  induction fuel with
  | zero => intro current states _ _ h; omega
  | succ fuel ih =>
    intro current states hle hin hfuel
    rw [generate_states_task_loop]
    by_cases hlt : current < upper_bound
    · rw [if_pos hlt]
      obtain ⟨h1, h2, h3, h4⟩ := next_state_spec hlt hub hin hpub
      rw [ih _ _ h2 h3 (by omega), handle_eq, states_between_cons fhw hw h1 h2 hin h4,
        List.filter_cons, List.append_assoc]
      congr 2
      by_cases hp : is_pushed get_state_info current = true
      · simp [hp]
      · simp [hp]
    · rw [if_neg hlt]
      have : current = upper_bound := by omega
      subst this
      rw [states_between_self]
      simp

/-- A task pushes the states of the sequence from `current` to `upper_bound`
that pass the test, in increasing order. -/
theorem generate_states_task_spec (fhw : Bool) (hw current upper_bound : Nat)
    (get_state_info : Nat → Nat × Bool) (states : List Nat) (hub : upper_bound < U64)
    (hle : current ≤ upper_bound) (hin : in_sequence fhw hw current = true)
    (hpub : in_sequence fhw hw upper_bound = true) :
    generate_states_task fhw current upper_bound get_state_info states
      = some (states ++
          (states_between fhw hw current (upper_bound + 1)).filter (is_pushed get_state_info)) := by
  unfold generate_states_task
  have hc : ¬ (fhw = true ∧ popcount current ≠ popcount upper_bound) := by
    rintro ⟨h1, h2⟩
    subst h1
    simp [in_sequence] at hin hpub
    omega
  rw [if_neg hc, generate_states_task_loop_spec fhw hw upper_bound get_state_info hub hpub _ _ _ hle
    hin (by omega)]
  simp only [if_true]
  rw [handle_eq, states_between_append fhw hw hle (show upper_bound ≤ upper_bound + 1 by omega),
    states_between_single fhw hw hpub, List.filter_append, List.append_assoc]

/-! ## The task list -/

/-- The loop of `split_into_tasks` ends and its ranges tile the sequence from
`current` to `bound`. -/
theorem split_into_tasks_loop_spec (fhw : Bool) (hw bound chunk_size : Nat) (hb : bound < U64)
    (hpb : in_sequence fhw hw bound = true) :
    ∀ (fuel current : Nat), current ≤ bound → in_sequence fhw hw current = true →
      bound - current < fuel →
      ∃ ranges, split_into_tasks_loop fhw hw bound chunk_size fuel current = some ranges ∧
        tasks_tile fhw hw bound current ranges := by
  intro fuel
  induction fuel with
  | zero => intro current _ _ h; omega
  | succ fuel ih =>
    intro current hle hin hfuel
    rw [split_into_tasks_loop]
    have hsub : (bound + U64 - current) % U64 = bound - current := by
      have : bound + U64 - current = (bound - current) + U64 := by omega
      rw [this, Nat.add_mod_right, Nat.mod_eq_of_lt (by omega)]
    rw [hsub]
    have hlast : tasks_tile fhw hw bound current [(current, bound)] := by
      simp [tasks_tile, hle, hpb]
    by_cases hcs : bound - current ≤ chunk_size
    · rw [if_pos hcs]
      exact ⟨_, rfl, hlast⟩
    · rw [if_neg hcs]
      have htarget : (current + chunk_size) % U64 = current + chunk_size :=
        Nat.mod_eq_of_lt (by omega)
      have hnext : ∃ next, (if fhw = true then closest_hamming ((current + chunk_size) % U64) hw
            else some ((current + chunk_size) % U64)) = some next ∧
          current ≤ next ∧ next ≤ bound ∧ in_sequence fhw hw next = true := by
        rw [htarget]
        cases fhw with
        | false =>
          refine ⟨current + chunk_size, by simp, by omega, by omega, by simp [in_sequence]⟩
        | true =>
          rw [in_sequence_iff hb] at hpb
          obtain ⟨y, hy1, hy2, hy3, hy4, _⟩ :=
            closest_hamming_spec (show current + chunk_size < U64 by omega)
              (show current + chunk_size ≤ bound by omega) hb (hpb rfl)
          refine ⟨y, by simpa using hy1, by omega, hy3, ?_⟩
          rw [in_sequence_iff (by omega)]
          intro _; exact hy4
      obtain ⟨next, hn1, hn2, hn3, hn4⟩ := hnext
      simp only [hn1]
      rw [if_neg (by omega)]
      by_cases hnb : next ≥ bound
      · rw [if_pos hnb]
        exact ⟨_, rfl, hlast⟩
      · rw [if_neg hnb]
        obtain ⟨h1, h2, h3, _⟩ := next_state_spec (show next < bound by omega) hb hn4 hpb
        obtain ⟨ranges, hr1, hr2⟩ := ih (next_state fhw next) h2 h3 (by omega)
        refine ⟨(current, next) :: ranges, by rw [hr1]; rfl, ?_⟩
        rw [tasks_tile]
        exact ⟨rfl, hn2, hn4, Or.inr ⟨by omega, hr2⟩⟩

theorem concatenate_cons (c : List Nat) (cs : List (List Nat)) :
    concatenate (c :: cs) = c ++ concatenate cs := by
  unfold concatenate
  rw [List.foldl_cons, List.nil_append]
  suffices h : ∀ (cs : List (List Nat)) (init : List Nat),
      List.foldl (fun r x => r ++ x) init cs = init ++ List.foldl (fun r x => r ++ x) [] cs from
    h cs c
  intro cs
  induction cs with
  | nil => intro init; simp
  | cons d ds ih =>
    intro init
    rw [List.foldl_cons, List.foldl_cons, ih (init ++ d), List.nil_append, ih d, List.append_assoc]

theorem concatenate_nil : concatenate [] = [] := rfl

/-- Tasks that tile the sequence each produce the pushed states of their
range, and the chunks concatenate to the pushed states of the whole span. -/
theorem generate_states_chunks_spec (fhw : Bool) (hw bound : Nat)
    (get_state_info : Nat → Nat × Bool) (hb : bound < U64)
    (hpb : in_sequence fhw hw bound = true) :
    ∀ (ranges : List (Nat × Nat)) (current : Nat), in_sequence fhw hw current = true →
      tasks_tile fhw hw bound current ranges →
      ∃ chunks, generate_states_chunks fhw get_state_info ranges = some chunks ∧
        chunks = ranges.map (fun r =>
          (states_between fhw hw r.1 (r.2 + 1)).filter (is_pushed get_state_info)) ∧
        concatenate chunks
          = (states_between fhw hw current (bound + 1)).filter (is_pushed get_state_info) := by
  intro ranges
  induction ranges with
  | nil => intro current _ h; simp [tasks_tile] at h
  | cons r rest ih =>
    intro current hin htile
    obtain ⟨a, b⟩ := r
    rw [tasks_tile] at htile
    obtain ⟨ha, hab, hpbb, hrest⟩ := htile
    subst ha
    rcases hrest with ⟨hnil, hbb⟩ | ⟨hlt, htile'⟩
    · subst hnil; subst hbb
      rw [generate_states_chunks, generate_states_task_spec fhw hw a b get_state_info [] hb hab hin hpb]
      refine ⟨_, rfl, ?_, ?_⟩
      · simp [generate_states_chunks]
      · simp [generate_states_chunks, concatenate_cons, concatenate_nil]
    · obtain ⟨h1, h2, h3, h4⟩ := next_state_spec hlt hb hpbb hpb
      obtain ⟨chunks, hc1, hc2, hc3⟩ := ih (next_state fhw b) h3 htile'
      rw [generate_states_chunks,
        generate_states_task_spec fhw hw a b get_state_info [] (by omega) hab hin hpbb]
      simp only [hc1, Option.map_some', List.nil_append]
      refine ⟨_, rfl, ?_, ?_⟩
      · rw [hc2]; rfl
      · rw [concatenate_cons, hc3,
          states_between_append fhw hw (show a ≤ b + 1 by omega) (show b + 1 ≤ bound + 1 by omega),
          states_between_append fhw hw (show b + 1 ≤ next_state fhw b by omega)
            (show next_state fhw b ≤ bound + 1 by omega),
          states_between_eq_nil fhw hw _ _ (fun z hz1 hz2 => h4 z (by omega) hz2),
          List.nil_append, List.filter_append]

/-! ## Bounds and the whole enumeration -/

theorem all_ones_shift {n : Nat} (hn : n ≤ 64) : (U64 - 1) >>> (64 - n) = 2 ^ n - 1 := by
  rw [Nat.shiftRight_eq_div_pow]
  have hU : U64 = 2 ^ (64 - n) * 2 ^ n := by
    rw [← pow_add, U64_eq]; congr 1; omega
  have hpos : 0 < 2 ^ (64 - n) := Nat.two_pow_pos _
  have hn' : 0 < 2 ^ n := Nat.two_pow_pos _
  have e : U64 - 1 = 2 ^ (64 - n) * (2 ^ n - 1) + (2 ^ (64 - n) - 1) := by
    rw [hU, Nat.mul_sub, Nat.mul_one]
    have : 2 ^ (64 - n) * 1 ≤ 2 ^ (64 - n) * 2 ^ n := Nat.mul_le_mul_left _ hn'
    generalize 2 ^ (64 - n) * 2 ^ n = X at *
    omega
  rw [e, Nat.mul_add_div hpos, Nat.div_eq_of_lt (by omega)]
  rfl

theorem pow_le_U64 {n : Nat} (hn : n ≤ 64) : 2 ^ n ≤ U64 := by
  rw [U64_eq]; exact Nat.pow_le_pow_right (by decide) hn

theorem get_bounds_none {n : Nat} (hn : n ≤ 64) : get_bounds n none = (0, 2 ^ n - 1) := by
  unfold get_bounds
  simp only
  rw [all_ones_shift hn]

theorem get_bounds_some {n h : Nat} (hn : n ≤ 64) (hh : h ≤ n) :
    get_bounds n (some h) = (2 ^ h - 1, 2 ^ n - 2 ^ (n - h)) := by
  unfold get_bounds
  simp only
  by_cases h0 : h = 0
  · subst h0; simp
  · rw [if_neg h0]
    by_cases h64 : h = 64
    · subst h64
      have : n = 64 := by omega
      subst this
      simp [U64]
    · rw [if_neg h64, all_ones_shift (by omega)]
      have hpos : 0 < 2 ^ h := Nat.two_pow_pos _
      have hpos' : 0 < 2 ^ (n - h) := Nat.two_pow_pos _
      have e : 2 ^ n = 2 ^ h * 2 ^ (n - h) := by rw [← pow_add]; congr 1; omega
      by_cases hlt : n > h
      · rw [if_pos hlt, Nat.shiftLeft_eq, Nat.sub_mul, Nat.one_mul, ← e,
          Nat.mod_eq_of_lt (by have := pow_le_U64 hn; have := Nat.two_pow_pos n; omega)]
      · rw [if_neg hlt]
        have : n = h := by omega
        subst this
        simp

/-- What `get_bounds` returns for a valid request: the least and the greatest
state of the sector. -/
theorem get_bounds_spec {n : Nat} (h : Option Nat) (hn : n ≤ 64)
    (hh : ∀ k, h = some k → k ≤ n) :
    (get_bounds n h).1 ≤ (get_bounds n h).2 ∧ (get_bounds n h).2 < 2 ^ n ∧
      in_sequence h.isSome (popcount (get_bounds n h).1) (get_bounds n h).1 = true ∧
      in_sequence h.isSome (popcount (get_bounds n h).1) (get_bounds n h).2 = true ∧
      (∀ k, h = some k → popcount (get_bounds n h).1 = k) ∧
      ∀ x, x < 2 ^ n → in_sequence h.isSome (popcount (get_bounds n h).1) x = true →
        (get_bounds n h).1 ≤ x ∧ x ≤ (get_bounds n h).2 := by
  have hpos : 0 < 2 ^ n := Nat.two_pow_pos _
  have hU := pow_le_U64 hn
  cases h with
  | none =>
    rw [get_bounds_none hn]
    refine ⟨by simp, by show 2 ^ n - 1 < 2 ^ n; omega, by simp [in_sequence], by simp [in_sequence], by simp, ?_⟩
    intro x hx _
    simp only
    omega
  | some k =>
    have hk := hh k rfl
    rw [get_bounds_some hn hk]
    simp only [Option.isSome_some]
    have hpk : 0 < 2 ^ k := Nat.two_pow_pos _
    have hpnk : 0 < 2 ^ (n - k) := Nat.two_pow_pos _
    have e : 2 ^ n = 2 ^ (n - k) * 2 ^ k := by rw [← pow_add]; congr 1; omega
    have hkn : 2 ^ k ≤ 2 ^ n := Nat.pow_le_pow_right (by decide) hk
    have hlo : popcount (2 ^ k - 1) = k := by
      rw [popcount_eq_pc (by omega), pc_pow_sub_one]
    have hhi : 2 ^ n - 2 ^ (n - k) = 2 ^ (n - k) * (2 ^ k - 1) := by
      rw [Nat.mul_sub, Nat.mul_one, ← e]
    have hle : 2 ^ k - 1 ≤ 2 ^ n - 2 ^ (n - k) := by
      rw [hhi]
      calc 2 ^ k - 1 = 1 * (2 ^ k - 1) := by rw [Nat.one_mul]
        _ ≤ 2 ^ (n - k) * (2 ^ k - 1) := Nat.mul_le_mul_right _ hpnk
    rw [hlo]
    refine ⟨hle, by omega, ?_, ?_, ?_, ?_⟩
    · simp [in_sequence, hlo]
    · rw [in_sequence_iff (by omega)]
      intro _
      rw [hhi, pc_pow_mul, pc_pow_sub_one]
    · intro k' hk'
      cases hk'; rfl
    · intro x hx hin
      rw [in_sequence_iff (by omega)] at hin
      exact ⟨pc_lower_bound k x (hin rfl), pc_upper_bound hx (hin rfl)⟩

/-- The sequence between the bounds is the sector. -/
theorem states_between_bounds {n : Nat} (h : Option Nat) (hn : n ≤ 64)
    (hh : ∀ k, h = some k → k ≤ n) :
    states_between h.isSome (popcount (get_bounds n h).1) (get_bounds n h).1
      ((get_bounds n h).2 + 1) = sector_states n h := by
  obtain ⟨h1, h2, _, _, h5, h6⟩ := get_bounds_spec h hn hh
  have hfilter : sector_states n h
      = states_between h.isSome (popcount (get_bounds n h).1) 0 (2 ^ n) := by
    unfold sector_states states_between
    rw [Nat.sub_zero, List.range_eq_range']
    apply List.filter_congr
    intro x _
    cases h with
    | none => simp [in_sequence]
    | some k => simp [in_sequence, h5 k rfl]
  rw [hfilter,
    states_between_append _ _ (Nat.zero_le (get_bounds n h).1) (show (get_bounds n h).1 ≤ 2 ^ n by omega),
    states_between_append _ _ (show (get_bounds n h).1 ≤ (get_bounds n h).2 + 1 by omega)
      (show (get_bounds n h).2 + 1 ≤ 2 ^ n by omega),
    states_between_eq_nil _ _ 0 _, states_between_eq_nil _ _ ((get_bounds n h).2 + 1) _]
  · simp
  · intro z hz1 hz2
    cases hin : in_sequence h.isSome (popcount (get_bounds n h).1) z with
    | false => rfl
    | true => have := (h6 z hz2 hin).2; omega
  · intro z _ hz2
    cases hin : in_sequence h.isSome (popcount (get_bounds n h).1) z with
    | false => rfl
    | true => have := (h6 z (by omega) hin).1; omega

/-- The enumeration: for a valid request and any chunk size the task list is
produced, every task produces the representatives of its range, and the
chunks concatenate to the representatives of the sector. -/
theorem enumeration_spec (get_state_info : Nat → Nat × Bool) {n : Nat} (h : Option Nat)
    (chunk_size : Nat) (hn0 : 0 < n) (hn : n ≤ 64) (hh : ∀ k, h = some k → k ≤ n) :
    ∃ ranges chunks, split_into_tasks n h chunk_size = some ranges ∧
      tasks_tile h.isSome (popcount (get_bounds n h).1) (get_bounds n h).2 (get_bounds n h).1 ranges ∧
      generate_states_chunks h.isSome get_state_info ranges = some chunks ∧
      chunks = ranges.map (fun r =>
        (states_between h.isSome (popcount (get_bounds n h).1) r.1 (r.2 + 1)).filter
          (is_pushed get_state_info)) ∧
      concatenate chunks = representatives get_state_info n h := by
  obtain ⟨h1, h2, h3, h4, _, _⟩ := get_bounds_spec h hn hh
  have hU := pow_le_U64 hn
  obtain ⟨ranges, hr1, hr2⟩ :=
    split_into_tasks_loop_spec h.isSome (popcount (get_bounds n h).1) (get_bounds n h).2
      ((chunk_size + U32 - 1) % U32) (by omega) h4
      ((get_bounds n h).2 - (get_bounds n h).1 + 1) (get_bounds n h).1 h1 h3 (by omega)
  obtain ⟨chunks, hc1, hc2, hc3⟩ :=
    generate_states_chunks_spec h.isSome (popcount (get_bounds n h).1) (get_bounds n h).2
      get_state_info (by omega) h4 ranges (get_bounds n h).1 h3 hr2
  refine ⟨ranges, chunks, ?_, hr2, hc1, hc2, ?_⟩
  · unfold split_into_tasks
    rw [if_neg (by omega), if_neg]
    · exact hr1
    · cases h with
      | none => simp
      | some k => simpa using hh k rfl
  · rw [hc3, states_between_bounds h hn hh]
    rfl

/-! ## The enumerated list and the cache built from it -/

theorem representatives_pairwise (get_state_info : Nat → Nat × Bool) (n : Nat) (h : Option Nat) :
    (representatives get_state_info n h).Pairwise (· < ·) := by
  unfold representatives sector_states
  refine List.Pairwise.filter _ (List.Pairwise.filter _ ?_)
  rw [List.range_eq_range']
  exact List.pairwise_lt_range' 0 (2 ^ n)

theorem mem_representatives {get_state_info : Nat → Nat × Bool} {n : Nat} {h : Option Nat}
    {x : Nat} :
    x ∈ representatives get_state_info n h ↔
      x < 2 ^ n ∧ (∀ k, h = some k → popcount x = k) ∧
        (get_state_info x).1 = x ∧ (get_state_info x).2 = true := by
  unfold representatives sector_states is_pushed
  rw [List.mem_filter, List.mem_filter, List.mem_range]
  cases h with
  | none => simp
  | some k => simp [and_assoc]

theorem enumerate_eq (get_state_info : Nat → Nat × Bool) {n : Nat} (h : Option Nat)
    (chunk_size : Nat) (hn0 : 0 < n) (hn : n ≤ 64) (hh : ∀ k, h = some k → k ≤ n) :
    enumerate get_state_info n h chunk_size = some (representatives get_state_info n h) := by
  obtain ⟨ranges, chunks, h1, _, h2, _, h3⟩ :=
    enumeration_spec get_state_info h chunk_size hn0 hn hh
  unfold enumerate
  rw [h1, Option.some_bind, h2, Option.map_some', h3]

theorem generate_states_eq (get_state_info : Nat → Nat × Bool) {n : Nat} (h : Option Nat)
    (max_threads : Nat) (hn0 : 0 < n) (hn : n ≤ 64) (hh : ∀ k, h = some k → k ≤ n) :
    (generate_states get_state_info n h max_threads).map concatenate
      = some (representatives get_state_info n h) := by
  unfold generate_states
  rw [if_neg (by omega), if_neg]
  · simp only
    have := enumerate_eq get_state_info h
      ((max (((get_bounds n h).2 - (get_bounds n h).1) / ((100 * (max_threads % U32)) % U32)) 1) % U32)
      hn0 hn hh
    unfold enumerate at this
    cases hs : split_into_tasks n h
      ((max (((get_bounds n h).2 - (get_bounds n h).1) / ((100 * (max_threads % U32)) % U32)) 1) % U32) with
    | none => rw [hs] at this; simp at this
    | some ranges =>
      rw [hs] at this
      simpa using this
  · cases h with
    | none => simp
    | some k => simpa using hh k rfl

theorem generate_ranges_bits (states : List Nat) :
    generate_ranges states basis_cache_t.bits
      = some (generate_ranges_loop (2 ^ 16 - 1) (2 ^ 16) 0 0 states) := by
  unfold generate_ranges basis_cache_t.bits
  rw [if_pos (by decide)]
  rfl

/-- Building the cache from the enumeration succeeds for a valid request and
holds the representatives of the sector. -/
theorem basis_cache_create_enumerated (get_state_info : Nat → Nat × Bool) {n : Nat}
    (h : Option Nat) (max_threads : Nat) (hn0 : 0 < n) (hn : n ≤ 64)
    (hh : ∀ k, h = some k → k ≤ n) :
    ∃ c, basis_cache_t.create get_state_info n h max_threads [] = some c ∧
      c._states = representatives get_state_info n h := by
  unfold basis_cache_t.create
  simp only [List.isEmpty_nil, if_true]
  rw [generate_states_eq get_state_info h max_threads hn0 hn hh, Option.some_bind]
  unfold basis_cache_t.of_states
  rw [generate_ranges_bits]
  exact ⟨_, rfl, rfl⟩

/-! ## The index and the enumeration: properties -/

/-- C1 (code at the failing input): the strictly increasing list `[0, 1, 65536]`
holds 65536, yet `index(65536)` on the cache built from it answers
`LS_NOT_A_REPRESENTATIVE`: bucket 0 was closed after the entry 0.  The same
through the handle: `ls_build_unsafe` with that list on a basis of 17 spins
succeeds and `ls_get_index` of 65536 then returns `LS_NOT_A_REPRESENTATIVE`. -/
theorem C1_index_misses_a_representative :
    List.Pairwise (· < ·) [0, 1, 65536] ∧ 65536 ∈ [0, 1, 65536] ∧
      ((basis_cache_t.of_states [0, 1, 65536]).map fun c => c.index 65536)
        = some (index_result.failure LS_NOT_A_REPRESENTATIVE) ∧
      ∃ built, ( ls_build_unsafe sample_env sample_basis17 [0, 1, 65536])
          = some (LS_SUCCESS, built) ∧
        ls_get_index built 65536 = some (LS_NOT_A_REPRESENTATIVE, none) := by
  refine ⟨by decide, by decide, by decide, _, rfl, by decide⟩

/-- C2 (code at the failing input): 1 is not in the strictly increasing list
`[65537]`, yet `index(1)` on the cache built from it does not answer
`LS_NOT_A_REPRESENTATIVE`: the search stops on 65537 and the assertion
`*i == x` fails.  The same through the handle: after `ls_build_unsafe` with
that list on a basis of 17 spins, `ls_get_index` of 1 aborts. -/
theorem C2_index_asserts_on_a_non_representative :
    List.Pairwise (· < ·) [65537] ∧ 1 ∉ [65537] ∧
      ((basis_cache_t.of_states [65537]).map fun c => c.index 1)
        = some index_result.assertion_failed ∧
      ∃ built, ( ls_build_unsafe sample_env sample_basis17 [65537]) = some (LS_SUCCESS, built) ∧
        ls_get_index built 1 = none := by
  refine ⟨by decide, by decide, by decide, _, rfl, by decide⟩

/-- C3 (code at the failing input): for the strictly increasing list
`[0, 1, 65536]` the bucket of key 0 computed by `generate_ranges(R, 16)` is
`(0, 1)`, the sub-range `[0]`, while the entries of the list whose low 16 bits
are 0 are `[0, 65536]`. -/
theorem C3_bucket_drops_an_entry :
    List.Pairwise (· < ·) [0, 1, 65536] ∧
      ((generate_ranges [0, 1, 65536] 16).map fun r => r.getD 0 empty_range) = some (0, 1) ∧
      (([0, 1, 65536] : List Nat).drop 0).take 1 = [0] ∧
      ([0, 1, 65536] : List Nat).filter (fun r => r &&& (2 ^ 16 - 1) = 0) = [0, 65536] := by
  refine ⟨by decide, by decide, by decide, by decide⟩

/-- C4: for every number of spins in [1,64], optional Hamming weight within
it, state-info engine and chunk size, the task list is produced, every task
emits its representatives in strictly increasing order, and the
concatenation of the task outputs in range order is strictly increasing. -/
theorem C4_enumeration_strictly_increasing (get_state_info : Nat → Nat × Bool) (n : Nat)
    (h : Option Nat) (chunk_size : Nat) (hn : 0 < n ∧ n ≤ 64) (hh : ∀ k, h = some k → k ≤ n) :
    ∃ ranges chunks, split_into_tasks n h chunk_size = some ranges ∧
      generate_states_chunks h.isSome get_state_info ranges = some chunks ∧
      (∀ c ∈ chunks, c.Pairwise (· < ·)) ∧ (concatenate chunks).Pairwise (· < ·) := by
  obtain ⟨ranges, chunks, h1, _, h2, h3, h4⟩ :=
    enumeration_spec get_state_info h chunk_size hn.1 hn.2 hh
  refine ⟨ranges, chunks, h1, h2, ?_, ?_⟩
  · intro c hc
    rw [h3, List.mem_map] at hc
    obtain ⟨r, _, hr⟩ := hc
    rw [← hr]
    exact (states_between_pairwise _ _ _ _).filter _
  · rw [h4]
    exact representatives_pairwise get_state_info n h

/-- C4 at two spins, Hamming weight 1, chunk size 1. -/
theorem C4_enumeration_strictly_increasing_witness :
    (0 < 2 ∧ 2 ≤ 64) ∧ (∀ k, some 1 = some k → k ≤ 2) ∧
      ∃ ranges chunks, split_into_tasks 2 (some 1) 1 = some ranges ∧
        generate_states_chunks (some 1).isSome (fun x => (x, true)) ranges = some chunks ∧
        (∀ c ∈ chunks, c.Pairwise (· < ·)) ∧ (concatenate chunks).Pairwise (· < ·) :=
  ⟨by decide, by simp,
    C4_enumeration_strictly_increasing (fun x => (x, true)) 2 (some 1) 1 (by decide) (by simp)⟩

/-- C5: for every number of spins in [1,64], optional Hamming weight within
it and state-info engine, the enumerated list holds a state exactly when it
is a word of that many bits (of that popcount when the weight is set) that
the engine reports as its own representative with positive norm, and holds
no state twice; with an engine that accepts every state the list is the list
of visited states, so every state of the sector is visited exactly once. -/
theorem C5_enumeration_membership (get_state_info : Nat → Nat × Bool) (n : Nat)
    (h : Option Nat) (chunk_size : Nat) (hn : 0 < n ∧ n ≤ 64) (hh : ∀ k, h = some k → k ≤ n) :
    ∃ R, enumerate get_state_info n h chunk_size = some R ∧
      (∀ x, x ∈ R ↔ x < 2 ^ n ∧ (∀ k, h = some k → popcount x = k) ∧
        (get_state_info x).1 = x ∧ (get_state_info x).2 = true) ∧
      R.Nodup ∧
      ∃ V, enumerate (fun x => (x, true)) n h chunk_size = some V ∧ V.Nodup ∧
        ∀ x, x ∈ V ↔ x < 2 ^ n ∧ ∀ k, h = some k → popcount x = k := by
  refine ⟨_, enumerate_eq get_state_info h chunk_size hn.1 hn.2 hh, ?_, ?_,
    _, enumerate_eq (fun x => (x, true)) h chunk_size hn.1 hn.2 hh, ?_, ?_⟩
  · intro x; exact mem_representatives
  · exact (representatives_pairwise get_state_info n h).imp (fun hab => Nat.ne_of_lt hab)
  · exact (representatives_pairwise _ n h).imp (fun hab => Nat.ne_of_lt hab)
  · intro x
    rw [mem_representatives]
    simp

/-- C5 at three spins, Hamming weight 2, chunk size 2. -/
theorem C5_enumeration_membership_witness :
    (0 < 3 ∧ 3 ≤ 64) ∧ (∀ k, some 2 = some k → k ≤ 3) ∧
      ∃ R, enumerate (fun x => (x, decide (x ≠ 5))) 3 (some 2) 2 = some R ∧
        (∀ x, x ∈ R ↔ x < 2 ^ 3 ∧ (∀ k, some 2 = some k → popcount x = k) ∧
          ((fun x => (x, decide (x ≠ 5))) x).1 = x ∧ ((fun x => (x, decide (x ≠ 5))) x).2 = true) ∧
        R.Nodup ∧
        ∃ V, enumerate (fun x => (x, true)) 3 (some 2) 2 = some V ∧ V.Nodup ∧
          ∀ x, x ∈ V ↔ x < 2 ^ 3 ∧ ∀ k, some 2 = some k → popcount x = k :=
  ⟨by decide, by simp,
    C5_enumeration_membership (fun x => (x, decide (x ≠ 5))) 3 (some 2) 2 (by decide) (by simp)⟩

/-- C6: for a fixed number of spins in [1,64], optional Hamming weight within
it and state-info engine, the enumerated list is the same for every two
chunk sizes and for every two worker-pool sizes; the enumeration being a
function of its inputs, a second run yields the same list. -/
theorem C6_parallel_determinism (get_state_info : Nat → Nat × Bool) (n : Nat)
    (h : Option Nat) (chunk1 chunk2 threads1 threads2 : Nat) (hn : 0 < n ∧ n ≤ 64)
    (hh : ∀ k, h = some k → k ≤ n) :
    (enumerate get_state_info n h chunk1).isSome = true ∧
      enumerate get_state_info n h chunk1 = enumerate get_state_info n h chunk2 ∧
      ((generate_states get_state_info n h threads1).map concatenate).isSome = true ∧
      (generate_states get_state_info n h threads1).map concatenate
        = (generate_states get_state_info n h threads2).map concatenate := by
  rw [enumerate_eq get_state_info h chunk1 hn.1 hn.2 hh,
    enumerate_eq get_state_info h chunk2 hn.1 hn.2 hh,
    generate_states_eq get_state_info h threads1 hn.1 hn.2 hh,
    generate_states_eq get_state_info h threads2 hn.1 hn.2 hh]
  simp

/-- C6 at four spins, no Hamming weight, chunk sizes 1 and 5, pools of 1 and 16. -/
theorem C6_parallel_determinism_witness :
    (0 < 4 ∧ 4 ≤ 64) ∧ (∀ k, (none : Option Nat) = some k → k ≤ 4) ∧
      (enumerate (fun x => (x / 2 * 2, true)) 4 none 1).isSome = true ∧
      enumerate (fun x => (x / 2 * 2, true)) 4 none 1
        = enumerate (fun x => (x / 2 * 2, true)) 4 none 5 ∧
      ((generate_states (fun x => (x / 2 * 2, true)) 4 none 1).map concatenate).isSome = true ∧
      (generate_states (fun x => (x / 2 * 2, true)) 4 none 1).map concatenate
        = (generate_states (fun x => (x / 2 * 2, true)) 4 none 16).map concatenate :=
  ⟨by decide, by simp,
    C6_parallel_determinism (fun x => (x / 2 * 2, true)) 4 none 1 5 1 16 (by decide) (by simp)⟩

/-! ## The basis handle: properties -/

/-- C7: with the group's spin count an `int`, `ls_create_spin_basis` returns
`LS_INVALID_NUMBER_SPINS` iff N = 0, N > 512 or the group's spin count is
defined and differs from N; otherwise `LS_INVALID_HAMMING_WEIGHT` iff h is
not -1 and lies outside [0, N]; otherwise `LS_INVALID_SPIN_INVERSION` iff
sigma is not in {-1, 0, 1} or sigma and h are both set with 2h different
from N; otherwise `LS_SUCCESS`; a basis is stored exactly on success. -/
theorem C7_create_spin_basis_codes {Sym : Type} (env : collaborators Sym) (group : ls_group Sym)
    (n : Nat) (h sigma : Int)
    (hint : -2 ^ 31 ≤ group.number_spins ∧ group.number_spins < 2 ^ 31) :
    ∃ code basis, ls_create_spin_basis env group n h sigma = some (code, basis) ∧
      code =
        (if n = 0 ∨ n > 512 ∨ (group.number_spins ≠ -1 ∧ group.number_spins ≠ (n : Int)) then
          LS_INVALID_NUMBER_SPINS
        else if h ≠ -1 ∧ ¬ (0 ≤ h ∧ h ≤ (n : Int)) then LS_INVALID_HAMMING_WEIGHT
        else if (sigma ≠ -1 ∧ sigma ≠ 0 ∧ sigma ≠ 1) ∨
            (sigma ≠ 0 ∧ h ≠ -1 ∧ 2 * h ≠ (n : Int)) then LS_INVALID_SPIN_INVERSION
        else LS_SUCCESS) ∧
      (basis.isSome = true ↔ code = LS_SUCCESS) := by
  obtain ⟨hlo, hhi⟩ := hint
  have hU : (U32 : Int) = 4294967296 := by norm_num [U32]
  unfold ls_create_spin_basis
  by_cases h1 : n = 0 ∨ n > 512
  · rw [if_pos h1]
    refine ⟨_, _, rfl, ?_, by simp⟩
    rw [if_pos]
    rcases h1 with h1 | h1
    · exact Or.inl h1
    · exact Or.inr (Or.inl h1)
  · rw [if_neg h1]
    have hn1 : ¬ n = 0 := fun hc => h1 (Or.inl hc)
    have hn2 : ¬ n > 512 := fun hc => h1 (Or.inr hc)
    have hmod : (n ≠ (group.number_spins % (U32 : Int)).toNat) ↔ group.number_spins ≠ (n : Int) := by
      rw [hU]
      constructor
      · intro hne heq
        apply hne
        rw [heq]
        omega
      · intro hne heq
        apply hne
        omega
    by_cases h2 : group.number_spins ≠ -1 ∧ n ≠ (group.number_spins % (U32 : Int)).toNat
    · rw [if_pos h2]
      refine ⟨_, _, rfl, ?_, by simp⟩
      rw [if_pos]
      exact Or.inr (Or.inr ⟨h2.1, hmod.mp h2.2⟩)
    · rw [if_neg h2]
      have hc1 : ¬ (n = 0 ∨ n > 512 ∨ (group.number_spins ≠ -1 ∧ group.number_spins ≠ (n : Int))) := by
        rintro (hc | hc | ⟨hc1, hc2⟩)
        · exact hn1 hc
        · exact hn2 hc
        · exact h2 ⟨hc1, hmod.mpr hc2⟩
      by_cases h3 : ¬ (h = -1 ∨ (0 ≤ h ∧ h ≤ (n : Int)))
      · rw [if_pos h3]
        refine ⟨_, _, rfl, ?_, by simp⟩
        rw [if_neg hc1, if_pos]
        constructor
        · intro hc; exact h3 (Or.inl hc)
        · intro hc; exact h3 (Or.inr hc)
      · rw [if_neg h3]
        have hc2 : ¬ (h ≠ -1 ∧ ¬ (0 ≤ h ∧ h ≤ (n : Int))) := by
          rintro ⟨hc1', hc2'⟩
          apply h3
          rintro (hc | hc)
          · exact hc1' hc
          · exact hc2' hc
        by_cases h4 : sigma ≠ -1 ∧ sigma ≠ 0 ∧ sigma ≠ 1
        · rw [if_pos h4]
          refine ⟨_, _, rfl, ?_, by simp⟩
          rw [if_neg hc1, if_neg hc2, if_pos (Or.inl h4)]
        · rw [if_neg h4]
          by_cases h5 : sigma ≠ 0 ∧ h ≠ -1 ∧ 2 * h ≠ (n : Int)
          · rw [if_pos h5]
            refine ⟨_, _, rfl, ?_, by simp⟩
            rw [if_neg hc1, if_neg hc2, if_pos (Or.inr h5)]
          · rw [if_neg h5]
            have hc3 : ¬ ((sigma ≠ -1 ∧ sigma ≠ 0 ∧ sigma ≠ 1) ∨
                (sigma ≠ 0 ∧ h ≠ -1 ∧ 2 * h ≠ (n : Int))) := by
              rintro (hc | hc)
              · exact h4 hc
              · exact h5 hc
            have ht : ¬ ((decide (ls_get_group_size group = 0 ∧ sigma ≠ 0)) = true ∧
                (ls_create_trivial_group env n).1 ≠ LS_SUCCESS) := by
              rintro ⟨_, hc⟩
              exact hc rfl
            simp only []
            rw [if_neg ht]
            refine ⟨_, _, rfl, ?_, by simp⟩
            rw [if_neg hc1, if_neg hc2, if_neg hc3]

/-- C7 for a group on 4 spins, N = 4, h = 2, sigma = 1. -/
theorem C7_create_spin_basis_codes_witness :
    (-2 ^ 31 ≤ (4 : Int) ∧ (4 : Int) < 2 ^ 31) ∧
      ∃ code basis,
        ls_create_spin_basis sample_env { number_spins := 4, symmetries := [(), ()] } 4 2 1
          = some (code, basis) ∧
        code =
          (if 4 = 0 ∨ 4 > 512 ∨ ((4 : Int) ≠ -1 ∧ (4 : Int) ≠ ((4 : Nat) : Int)) then
            LS_INVALID_NUMBER_SPINS
          else if (2 : Int) ≠ -1 ∧ ¬ (0 ≤ (2 : Int) ∧ (2 : Int) ≤ ((4 : Nat) : Int)) then
            LS_INVALID_HAMMING_WEIGHT
          else if ((1 : Int) ≠ -1 ∧ (1 : Int) ≠ 0 ∧ (1 : Int) ≠ 1) ∨
              ((1 : Int) ≠ 0 ∧ (2 : Int) ≠ -1 ∧ 2 * (2 : Int) ≠ ((4 : Nat) : Int)) then
            LS_INVALID_SPIN_INVERSION
          else LS_SUCCESS) ∧
        (basis.isSome = true ↔ code = LS_SUCCESS) :=
  ⟨by decide,
    C7_create_spin_basis_codes sample_env { number_spins := 4, symmetries := [(), ()] } 4 2 1
      (by decide)⟩

/-- C8: on every big basis each of build, build_unsafe, number_states, index,
states, is_representative, save_cache and load_cache returns
`LS_WRONG_BASIS_TYPE`, hands out nothing and leaves the basis as it was. -/
theorem C8_big_basis_wrong_type {Sym : Type} (env : collaborators Sym) (header : basis_base_t)
    (big : big_basis_t Sym) (representatives : List Nat) (x : Nat) (bits : List Nat)
    (filename : String) :
    ls_build env { header := header, payload := basis_payload.big big }
        = some (LS_WRONG_BASIS_TYPE, { header := header, payload := basis_payload.big big }) ∧
      ( ls_build_unsafe env { header := header, payload := basis_payload.big big } representatives)
        = some (LS_WRONG_BASIS_TYPE, { header := header, payload := basis_payload.big big }) ∧
      ls_get_number_states { header := header, payload := basis_payload.big big }
        = (LS_WRONG_BASIS_TYPE, none) ∧
      ls_get_index { header := header, payload := basis_payload.big big } x
        = some (LS_WRONG_BASIS_TYPE, none) ∧
      ls_get_states { header := header, payload := basis_payload.big big }
        = (LS_WRONG_BASIS_TYPE, none, { header := header, payload := basis_payload.big big }) ∧
      ls_is_representative env { header := header, payload := basis_payload.big big } bits
        = (LS_WRONG_BASIS_TYPE, none) ∧
      ls_save_cache env { header := header, payload := basis_payload.big big } filename
        = LS_WRONG_BASIS_TYPE ∧
      ls_load_cache env { header := header, payload := basis_payload.big big } filename
        = some (LS_WRONG_BASIS_TYPE, { header := header, payload := basis_payload.big big }) :=
  ⟨rfl, rfl, rfl, rfl, rfl, rfl, rfl, rfl⟩

/-- Every basis `ls_create_spin_basis` stores is well formed. -/
theorem ls_create_spin_basis_well_formed {Sym : Type} (env : collaborators Sym)
    (group : ls_group Sym) (n : Nat) (h sigma : Int) (code : ls_error_code)
    (basis : ls_spin_basis Sym)
    (hb : ls_create_spin_basis env group n h sigma = some (code, some basis)) :
    basis.well_formed := by
  unfold ls_create_spin_basis at hb
  by_cases h1 : n = 0 ∨ n > 512
  · rw [if_pos h1] at hb; simp at hb
  rw [if_neg h1] at hb
  by_cases h2 : group.number_spins ≠ -1 ∧ n ≠ (group.number_spins % (U32 : Int)).toNat
  · rw [if_pos h2] at hb; simp at hb
  rw [if_neg h2] at hb
  by_cases h3 : ¬ (h = -1 ∨ (0 ≤ h ∧ h ≤ (n : Int)))
  · rw [if_pos h3] at hb; simp at hb
  rw [if_neg h3] at hb
  by_cases h4 : sigma ≠ -1 ∧ sigma ≠ 0 ∧ sigma ≠ 1
  · rw [if_pos h4] at hb; simp at hb
  rw [if_neg h4] at hb
  by_cases h5 : sigma ≠ 0 ∧ h ≠ -1 ∧ 2 * h ≠ (n : Int)
  · rw [if_pos h5] at hb; simp at hb
  rw [if_neg h5] at hb
  have ht : ¬ ((decide (ls_get_group_size group = 0 ∧ sigma ≠ 0)) = true ∧
      (ls_create_trivial_group env n).1 ≠ LS_SUCCESS) := by
    rintro ⟨_, hc⟩
    exact hc rfl
  simp only [] at hb
  rw [if_neg ht] at hb
  simp only [Option.some.injEq, Prod.mk.injEq] at hb
  obtain ⟨_, hb⟩ := hb
  subst hb
  have hn1 : 0 < n := by omega
  have hn2 : n ≤ 512 := by omega
  have h3' : h = -1 ∨ (0 ≤ h ∧ h ≤ (n : Int)) := by
    by_contra hc; exact h3 hc
  refine ⟨hn1, hn2, ?_, ?_⟩
  · intro k hk
    show k ≤ n
    simp only at hk
    by_cases h7 : h = -1
    · rw [if_pos h7] at hk; simp at hk
    · rw [if_neg h7] at hk
      simp only [Option.some.injEq] at hk
      omega
  · simp only
    by_cases h8 : n > 64
    · simp [h8]
    · simp [h8]; omega

/-- C9: on every small basis as `ls_create_spin_basis` makes them, `ls_build`
returns `LS_SUCCESS` and leaves a built cache, and a second call, whatever
the state-info engine and the number of threads then are, returns
`LS_SUCCESS` and leaves the basis, cache included, exactly as the first call
left it. -/
theorem C9_build_idempotent {Sym : Type} (env : collaborators Sym) (basis : ls_spin_basis Sym)
    (p : small_basis_t Sym) (hp : basis.payload = basis_payload.small p)
    (hwf : basis.well_formed) :
    ∃ built, ls_build env basis = some (LS_SUCCESS, built) ∧ built.cache.isSome = true ∧
      ∀ env1 : collaborators Sym, ls_build env1 built = some (LS_SUCCESS, built) := by
  obtain ⟨header, payload⟩ := basis
  simp only at hp
  subst hp
  obtain ⟨hn0, _, hh, hn⟩ := hwf
  simp only at hn0 hh hn
  cases hc : p.cache with
  | some c =>
    refine ⟨{ header := header, payload := basis_payload.small p }, ?_, ?_, ?_⟩
    · simp only [ls_build, hc]
    · simp [ls_spin_basis.cache, hc]
    · intro env1; simp only [ls_build, hc]
  | none =>
    obtain ⟨c, hc1, _⟩ := basis_cache_create_enumerated
      (env.get_state_info p.batched_symmetries p.other_symmetries p.number_other_symmetries)
      header.hamming_weight env.omp_get_max_threads hn0 hn hh
    refine ⟨{ header := header, payload := basis_payload.small { p with cache := some c } }, ?_, ?_, ?_⟩
    · simp only [ls_build, hc, basis_cache_t.of_basis, hc1, Option.map_some']
    · simp [ls_spin_basis.cache]
    · intro env1; simp only [ls_build]

/-- C9 on a small basis of two spins without a cache. -/
theorem C9_build_idempotent_witness :
    sample_basis.payload = basis_payload.small
        { batched_symmetries := [], other_symmetries := none, number_other_symmetries := 0,
          cache := none } ∧
      sample_basis.well_formed ∧
      ∃ built, ls_build sample_env sample_basis = some (LS_SUCCESS, built) ∧
        built.cache.isSome = true ∧
        ∀ env1 : collaborators Unit, ls_build env1 built = some (LS_SUCCESS, built) :=
  ⟨rfl, by simp [ls_spin_basis.well_formed, sample_basis],
    C9_build_idempotent sample_env sample_basis _ rfl
      (by simp [ls_spin_basis.well_formed, sample_basis])⟩

theorem basis_step_cache {Sym : Type} (env : collaborators Sym) (basis : ls_spin_basis Sym)
    (c : basis_cache_t) (hc : basis.cache = some c) (op : basis_op)
    (r : Option ls_error_code × ls_spin_basis Sym) (hr : basis_step env basis op = some r) :
    r.2.cache = some c := by
  obtain ⟨header, payload⟩ := basis
  cases payload with
  | big b => simp [ls_spin_basis.cache] at hc
  | small p =>
    simp only [ls_spin_basis.cache] at hc
    cases op with
    | build =>
      simp only [basis_step, ls_build, hc, Option.map_some', Option.some.injEq] at hr
      rw [← hr]; simp [ls_spin_basis.cache, hc]
    | build_unsafe rs =>
      simp only [basis_step, ls_build_unsafe, hc, Option.map_some', Option.some.injEq] at hr
      rw [← hr]; simp [ls_spin_basis.cache, hc]
    | load_cache f =>
      simp only [basis_step, ls_load_cache, hc, Option.map_some', Option.some.injEq] at hr
      rw [← hr]; simp [ls_spin_basis.cache, hc]
    | number_states =>
      simp only [basis_step, Option.some.injEq] at hr
      rw [← hr]; simp [ls_spin_basis.cache, hc]
    | index x =>
      simp only [basis_step, Option.map_eq_some'] at hr
      obtain ⟨_, _, hr⟩ := hr
      rw [← hr]; simp [ls_spin_basis.cache, hc]
    | states =>
      simp only [basis_step, ls_get_states, hc, Option.some.injEq] at hr
      rw [← hr]; simp [ls_spin_basis.cache, ls_copy_spin_basis, hc]
    | is_representative bits =>
      simp only [basis_step, Option.some.injEq] at hr
      rw [← hr]; simp [ls_spin_basis.cache, hc]
    | state_info x =>
      simp only [basis_step, Option.some.injEq] at hr
      rw [← hr]; simp [ls_spin_basis.cache, hc]
    | save_cache f =>
      simp only [basis_step, Option.some.injEq] at hr
      rw [← hr]; simp [ls_spin_basis.cache, hc]

/-- C10: from a basis whose cache is built, along every sequence of
operations (build, build_unsafe with any list, load_cache, number_states,
index, states, is_representative, state_info, save_cache) every basis
reached still holds that same cache, list and bucket index unchanged; and
build_unsafe and load_cache on such a basis return `LS_SUCCESS` and leave the
basis as it was. -/
theorem C10_cache_never_replaced {Sym : Type} (env : collaborators Sym)
    (basis : ls_spin_basis Sym) (c : basis_cache_t) (hc : basis.cache = some c)
    (ops : List basis_op) (representatives : List Nat) (filename : String) :
    (∀ r ∈ basis_trace env basis ops, r.2.cache = some c) ∧
      ( ls_build_unsafe env basis representatives) = some (LS_SUCCESS, basis) ∧
      ls_load_cache env basis filename = some (LS_SUCCESS, basis) := by
  refine ⟨?_, ?_, ?_⟩
  · induction ops generalizing basis with
    | nil => intro r hr; simp [basis_trace] at hr
    | cons op ops ih =>
      intro r hr
      rw [basis_trace] at hr
      cases hs : basis_step env basis op with
      | none => rw [hs] at hr; simp at hr
      | some r1 =>
        rw [hs] at hr
        simp only [List.mem_cons] at hr
        have h1 := basis_step_cache env basis c hc op r1 hs
        rcases hr with hr | hr
        · rw [hr]; exact h1
        · exact ih r1.2 h1 r hr
  · obtain ⟨header, payload⟩ := basis
    cases payload with
    | big b => simp [ls_spin_basis.cache] at hc
    | small p =>
      simp only [ls_spin_basis.cache] at hc
      simp only [ ls_build_unsafe, hc]
  · obtain ⟨header, payload⟩ := basis
    cases payload with
    | big b => simp [ls_spin_basis.cache] at hc
    | small p =>
      simp only [ls_spin_basis.cache] at hc
      simp only [ls_load_cache, hc]

/-- C10 on a built basis, for a sequence of all nine operations. -/
theorem C10_cache_never_replaced_witness :
    sample_built_basis.cache = some sample_cache ∧
      ((∀ r ∈ basis_trace sample_env sample_built_basis
          [basis_op.build, basis_op.build_unsafe [7], basis_op.load_cache "f",
            basis_op.number_states, basis_op.index 5, basis_op.states,
            basis_op.is_representative [1], basis_op.state_info 2, basis_op.save_cache "f"],
          r.2.cache = some sample_cache) ∧
        ( ls_build_unsafe sample_env sample_built_basis [7]) = some (LS_SUCCESS, sample_built_basis) ∧
        ls_load_cache sample_env sample_built_basis "f" = some (LS_SUCCESS, sample_built_basis)) :=
  ⟨rfl, C10_cache_never_replaced sample_env sample_built_basis sample_cache rfl _ [7] "f"⟩

/-! ## The trusted build and the successor functions: properties -/

/-- C11 (the claim fails at the empty list): on the two-spin basis without a
cache, `ls_build_unsafe` with the empty list succeeds and the cache then
holds the enumerated list `[0, 1, 2, 3]`, four states, not the empty list. -/
theorem C11_empty_list_is_enumerated :
    ((( ls_build_unsafe sample_env sample_basis []).bind fun r => r.2.cache).map
        fun c => (c.states, c.number_states)) = some ([0, 1, 2, 3], 4) ∧
      ([0, 1, 2, 3] : List Nat) ≠ [] := by
  refine ⟨by decide, by decide⟩

/-- C11 (amended): for every small basis without a cache and every non-empty
list `rs`, `ls_build_unsafe` returns `LS_SUCCESS` and leaves a cache for which
`states()` returns `rs` and `number_states()` returns the length of `rs`; the
rest of the basis is unchanged. -/
theorem C11_build_unsafe_holds_the_list {Sym : Type} (env : collaborators Sym)
    (header : basis_base_t) (p : small_basis_t Sym) (rs : List Nat) (hp : p.cache = none)
    (hrs : rs ≠ []) :
    ∃ c, ( ls_build_unsafe env { header := header, payload := basis_payload.small p } rs)
        = some (LS_SUCCESS,
            { header := header, payload := basis_payload.small { p with cache := some c } }) ∧
      c.states = rs ∧ c.number_states = rs.length := by
  have hne : rs.isEmpty = false := by
    cases rs with
    | nil => exact absurd rfl hrs
    | cons a l => rfl
  refine ⟨{ _states := rs, _ranges := generate_ranges_loop (2 ^ 16 - 1) (2 ^ 16) 0 0 rs }, ?_, rfl, rfl⟩
  simp only [ ls_build_unsafe, hp, basis_cache_t.of_basis, basis_cache_t.create, hne,
    Bool.false_eq_true, if_false, Option.some_bind, basis_cache_t.of_states, generate_ranges_bits,
    Option.map_some']

/-- C11 (amended) on the two-spin basis with the list `[0, 3]`. -/
theorem C11_build_unsafe_holds_the_list_witness :
    (small_basis_t.mk ([] : List (List Unit)) none 0 none).cache = none ∧
      ([0, 3] : List Nat) ≠ [] ∧
      ∃ c, ( ls_build_unsafe sample_env
          { header := sample_basis.header,
            payload := basis_payload.small (small_basis_t.mk [] none 0 none) } [0, 3])
          = some (LS_SUCCESS,
              { header := sample_basis.header,
                payload := basis_payload.small
                  { small_basis_t.mk ([] : List (List Unit)) none 0 none with cache := some c } }) ∧
        c.states = [0, 3] ∧ c.number_states = ([0, 3] : List Nat).length :=
  ⟨rfl, by decide,
    C11_build_unsafe_holds_the_list sample_env sample_basis.header
      (small_basis_t.mk [] none 0 none) [0, 3] rfl (by decide)⟩

/-- C12: for every non-zero 64-bit `v` below a 64-bit `u` of the same
popcount, `next_state<true>(v)` is a 64-bit word greater than `v`, of the
popcount of `v`, and no 64-bit word greater than `v` of that popcount is
smaller. -/
theorem C12_next_state_is_the_successor (v u : Nat) (hv : 0 < v) (hvu : v < u) (hu : u < U64)
    (hp : popcount u = popcount v) :
    v < next_state true v ∧ next_state true v < U64 ∧
      popcount (next_state true v) = popcount v ∧
      ∀ z, z < U64 → v < z → popcount z = popcount v → next_state true v ≤ z := by
  have hvlt : v < U64 := by omega
  rw [popcount_eq_pc hu, popcount_eq_pc hvlt] at hp
  obtain ⟨h1, h2, h3, h4⟩ := next_state_true_spec hv hvu hu hp
  have hnlt : next_state true v < U64 := by omega
  refine ⟨h1, hnlt, ?_, ?_⟩
  · rw [popcount_eq_pc hnlt, popcount_eq_pc hvlt]; exact h3
  · intro z hz hvz hpz
    rw [popcount_eq_pc hz, popcount_eq_pc hvlt] at hpz
    by_contra hcon
    exact h4 z hvz (by omega) hpz

/-- C12 at `v = 6` (binary 110), whose successor is 9 (binary 1001). -/
theorem C12_next_state_is_the_successor_witness :
    0 < 6 ∧ 6 < 9 ∧ 9 < U64 ∧ popcount 9 = popcount 6 ∧
      (6 < next_state true 6 ∧ next_state true 6 < U64 ∧
        popcount (next_state true 6) = popcount 6 ∧
        ∀ z, z < U64 → 6 < z → popcount z = popcount 6 → next_state true 6 ≤ z) :=
  ⟨by decide, by decide, by decide, by decide,
    C12_next_state_is_the_successor 6 9 (by decide) (by decide) (by decide) (by decide)⟩

/-- C13: for every 64-bit `x` and every `h` for which a 64-bit `u` from `x` on
has popcount `h`, `closest_hamming(x, h)` returns a word from `x` on of
popcount `h`, and no word from `x` on of popcount `h` is smaller. -/
theorem C13_closest_hamming_is_least (x h u : Nat) (hx : x < U64) (hxu : x ≤ u) (hu : u < U64)
    (hpu : popcount u = h) :
    ∃ y, closest_hamming x h = some y ∧ x ≤ y ∧ y < U64 ∧ popcount y = h ∧
      ∀ z, z < U64 → x ≤ z → popcount z = h → y ≤ z := by
  rw [popcount_eq_pc hu] at hpu
  obtain ⟨y, h1, h2, h3, h4, h5⟩ := closest_hamming_spec hx hxu hu hpu
  have hylt : y < U64 := by omega
  refine ⟨y, h1, h2, hylt, ?_, ?_⟩
  · rw [popcount_eq_pc hylt]; exact h4
  · intro z hz hxz hpz
    rw [popcount_eq_pc hz] at hpz
    by_contra hcon
    exact h5 z hxz (by omega) hpz

/-- C13 at `x = 7`, `h = 2`: the least word from 7 on of popcount 2 is 9. -/
theorem C13_closest_hamming_is_least_witness :
    7 < U64 ∧ 7 ≤ 9 ∧ 9 < U64 ∧ popcount 9 = 2 ∧
      ∃ y, closest_hamming 7 2 = some y ∧ 7 ≤ y ∧ y < U64 ∧ popcount y = 2 ∧
        ∀ z, z < U64 → 7 ≤ z → popcount z = 2 → y ≤ z :=
  ⟨by decide, by decide, by decide, by decide,
    C13_closest_hamming_is_least 7 2 9 (by decide) (by decide) (by decide) (by decide)⟩

/-! ## The state-info engine: the representative it returns -/

/-! The representative is the least of `x` and the candidates. -/

theorem state_info_step_representative {R : Type} (ops : real_ops R) (x : Nat)
    (acc : state_info_acc R) (candidate : Nat × (R × R)) :
    (state_info_step ops x acc candidate).representative = min acc.representative candidate.1 := by
  unfold state_info_step
  simp only
  by_cases hz : candidate.1 = x
  · by_cases hlt : candidate.1 < acc.representative
    · simp only [hz] at hlt ⊢
      simp only [if_true, hlt]
      omega
    · simp only [hz] at hlt ⊢
      simp only [if_true, hlt, if_false]
      omega
  · by_cases hlt : candidate.1 < acc.representative
    · simp only [hz, if_false, hlt, if_true]
      omega
    · simp only [hz, if_false, hlt]
      omega

theorem state_info_fold_representative {R : Type} (ops : real_ops R) (x : Nat) :
    ∀ (candidates : List (Nat × (R × R))) (acc : state_info_acc R),
      (candidates.foldl (state_info_step ops x) acc).representative
        = (candidates.map Prod.fst).foldl min acc.representative := by
  intro candidates
  induction candidates with
  | nil => intro acc; rfl
  | cons c cs ih =>
    intro acc
    rw [List.foldl_cons, ih, state_info_step_representative, List.map_cons, List.foldl_cons]

theorem foldl_min_le_init : ∀ (l : List Nat) (r : Nat), l.foldl min r ≤ r := by
  intro l
  induction l with
  | nil => intro r; exact Nat.le_refl r
  | cons a l ih =>
    intro r
    rw [List.foldl_cons]
    exact Nat.le_trans (ih (min r a)) (Nat.min_le_left r a)

theorem foldl_min_le_mem : ∀ (l : List Nat) (r z : Nat), z ∈ l → l.foldl min r ≤ z := by
  intro l
  induction l with
  | nil => intro r z hz; simp at hz
  | cons a l ih =>
    intro r z hz
    rw [List.foldl_cons]
    rcases List.mem_cons.mp hz with h | h
    · subst h
      exact Nat.le_trans (foldl_min_le_init l (min r z)) (Nat.min_le_right r z)
    · exact ih (min r a) z h

theorem foldl_min_mem : ∀ (l : List Nat) (r : Nat), l.foldl min r = r ∨ l.foldl min r ∈ l := by
  intro l
  induction l with
  | nil => intro r; exact Or.inl rfl
  | cons a l ih =>
    intro r
    rw [List.foldl_cons]
    rcases ih (min r a) with h | h
    · rw [h]
      rcases Nat.le_total r a with hra | hra
      · left; exact Nat.min_eq_left hra
      · right; rw [Nat.min_eq_right hra]; exact List.mem_cons_self a l
    · right; exact List.mem_cons_of_mem a h

theorem foldl_min_eq_init : ∀ (l : List Nat) (r : Nat), (∀ z ∈ l, r ≤ z) → l.foldl min r = r := by
  intro l
  induction l with
  | nil => intro r _; rfl
  | cons a l ih =>
    intro r h
    rw [List.foldl_cons, Nat.min_eq_left (h a (List.mem_cons_self a l))]
    exact ih r (fun z hz => h z (List.mem_cons_of_mem a hz))

theorem state_info_representative {R : Type} (ops : real_ops R) (width : Nat)
    (lanes : List (symmetry_t R)) (sigma : Int) (flip x : Nat) :
    (state_info ops width lanes sigma flip x).1
      = ((state_info_candidates ops width lanes sigma flip x).map Prod.fst).foldl min x := by
  unfold state_info
  simp only
  rw [state_info_fold_representative]

theorem mem_state_info_candidates {R : Type} (ops : real_ops R) (width : Nat)
    (lanes : List (symmetry_t R)) (sigma : Int) (flip x z : Nat) :
    z ∈ (state_info_candidates ops width lanes sigma flip x).map Prod.fst ↔
      ∃ s ∈ lanes, z = s.apply width x ∨ (sigma ≠ 0 ∧ z = s.apply width x ^^^ flip) := by
  unfold state_info_candidates
  rw [List.mem_map]
  constructor
  · rintro ⟨c, hc, rfl⟩
    rw [List.mem_flatMap] at hc
    obtain ⟨s, hs, hc⟩ := hc
    refine ⟨s, hs, ?_⟩
    by_cases h0 : sigma = 0
    · simp only [h0, if_true, List.mem_singleton] at hc
      left; rw [hc]
    · simp only [h0, if_false, List.mem_cons, List.mem_singleton, List.mem_nil_iff, or_false] at hc
      rcases hc with hc | hc
      · left; rw [hc]
      · right; exact ⟨h0, by rw [hc]⟩
  · rintro ⟨s, hs, hz⟩
    by_cases h0 : sigma = 0
    · rcases hz with hz | ⟨hne, _⟩
      · refine ⟨(z, (s.eigenvalue_real, s.eigenvalue_imag)), ?_, rfl⟩
        rw [List.mem_flatMap]
        refine ⟨s, hs, ?_⟩
        simp only [h0, if_true, List.mem_singleton, hz]
      · exact absurd h0 hne
    · rcases hz with hz | ⟨_, hz⟩
      · refine ⟨(z, (s.eigenvalue_real, s.eigenvalue_imag)), ?_, rfl⟩
        rw [List.mem_flatMap]
        refine ⟨s, hs, ?_⟩
        simp only [h0, if_false, hz, List.mem_cons, true_or]
      · refine ⟨(z, flipped_character ops sigma (s.eigenvalue_real, s.eigenvalue_imag)), ?_, rfl⟩
        rw [List.mem_flatMap]
        refine ⟨s, hs, ?_⟩
        simp only [h0, if_false, hz, List.mem_cons, true_or, or_true]

/-! The networks are linear for the exclusive or. -/

theorem apply_layer_xor (width mask delta a b : Nat) :
    apply_layer width mask delta (a ^^^ b)
      = apply_layer width mask delta a ^^^ apply_layer width mask delta b := by
  unfold apply_layer
  apply Nat.eq_of_testBit_eq
  intro i
  simp only [Nat.testBit_mod_two_pow, Nat.testBit_xor, Nat.testBit_and, Nat.testBit_shiftLeft,
    Nat.testBit_shiftRight]
  by_cases hi : i < width <;> by_cases hd : delta ≤ i <;> simp [hi, hd] <;>
    cases a.testBit i <;> cases b.testBit i <;> cases mask.testBit i <;>
    cases a.testBit (delta + i) <;> cases b.testBit (delta + i) <;>
    cases mask.testBit (i - delta) <;> cases a.testBit (i - delta) <;>
    cases b.testBit (i - delta) <;> cases a.testBit (delta + (i - delta)) <;>
    cases b.testBit (delta + (i - delta)) <;> rfl

theorem apply_network_xor (width : Nat) :
    ∀ (masks deltas : List Nat) (a b : Nat),
      apply_network width masks deltas (a ^^^ b)
        = apply_network width masks deltas a ^^^ apply_network width masks deltas b := by
  intro masks
  induction masks with
  | nil => intro deltas a b; simp [apply_network]
  | cons m ms ih =>
    intro deltas a b
    cases deltas with
    | nil => simp [apply_network]
    | cons d ds =>
      simp only [apply_network]
      rw [apply_layer_xor, ih]

theorem symmetry_apply_xor {R : Type} (width : Nat) (s : symmetry_t R) (a b : Nat) :
    s.apply width (a ^^^ b) = s.apply width a ^^^ s.apply width b :=
  apply_network_xor width _ _ a b

/-! ## Representatives: properties -/

/-- C16: the representative the state-info algorithm returns for `x` is at
most `x`, for every table, spin inversion and flip mask, on 64-bit words
(small basis) and on 512-bit words (big basis). -/
theorem C16_representative_le {R : Type} (ops : real_ops R) (width : Nat)
    (lanes : List (symmetry_t R)) (sigma : Int) (flip x : Nat) (header : basis_base_t)
    (small : small_basis_t (symmetry_t R)) (big : big_basis_t (symmetry_t R)) :
    (state_info ops width lanes sigma flip x).1 ≤ x ∧
      (get_state_info_64 ops header small x).1 ≤ x ∧
      (get_state_info_512 ops header big flip x).1 ≤ x := by
  have h : ∀ (w : Nat) (l : List (symmetry_t R)) (s : Int) (f : Nat),
      (state_info ops w l s f x).1 ≤ x := by
    intro w l s f
    rw [state_info_representative]
    exact foldl_min_le_init _ _
  exact ⟨h _ _ _ _, h _ _ _ _, h _ _ _ _⟩

/-- C15: for a table closed under composition (for every two lanes the table
has a lane that maps `x` as the one after the other does; a table whose
permutations form a group has one for every state) whose networks, when spin
inversion is on, map the flip mask to itself (as permutations of the spins
do), the representative of the representative of `x` is the representative
of `x`. -/
theorem C15_representative_fixed_point {R : Type} (ops : real_ops R) (width : Nat)
    (lanes : List (symmetry_t R)) (sigma : Int) (flip x : Nat)
    (hcomp : ∀ a ∈ lanes, ∀ b ∈ lanes, ∃ c ∈ lanes,
      c.apply width x = b.apply width (a.apply width x))
    (hflip : sigma ≠ 0 → ∀ a ∈ lanes, a.apply width flip = flip) :
    (state_info ops width lanes sigma flip (state_info ops width lanes sigma flip x).1).1
      = (state_info ops width lanes sigma flip x).1 := by
  rw [state_info_representative ops width lanes sigma flip
    (state_info ops width lanes sigma flip x).1]
  apply foldl_min_eq_init
  intro z hz
  have hr := state_info_representative ops width lanes sigma flip x
  rcases foldl_min_mem ((state_info_candidates ops width lanes sigma flip x).map Prod.fst) x
    with hself | hmem
  · -- the representative is x itself
    rw [← hr] at hself
    rw [hself] at hz ⊢
    have := foldl_min_le_mem _ x z hz
    rw [← hr, hself] at this
    exact this
  · -- the representative is a candidate of x; the candidates of it are candidates of x
    rw [← hr] at hmem
    suffices hsub : z ∈ (state_info_candidates ops width lanes sigma flip x).map Prod.fst by
      have := foldl_min_le_mem _ x z hsub
      rw [← hr] at this
      exact this
    rw [mem_state_info_candidates] at hz hmem ⊢
    obtain ⟨a, ha, hra⟩ := hmem
    obtain ⟨b, hb, hzb⟩ := hz
    obtain ⟨c, hc, hcab⟩ := hcomp a ha b hb
    refine ⟨c, hc, ?_⟩
    rcases hra with hra | ⟨hs, hra⟩
    · rcases hzb with hzb | ⟨hs, hzb⟩
      · left; rw [hzb, hra, hcab]
      · right; exact ⟨hs, by rw [hzb, hra, hcab]⟩
    · have hbf := hflip hs b hb
      rcases hzb with hzb | ⟨_, hzb⟩
      · right
        refine ⟨hs, ?_⟩
        rw [hzb, hra, symmetry_apply_xor, hbf, hcab]
      · left
        rw [hzb, hra, symmetry_apply_xor, hbf, hcab, Nat.xor_assoc, Nat.xor_self, Nat.xor_zero]

/-- C15 for the group of the identity and the exchange of two spins, with
spin inversion, at `x = 2`. -/
theorem C15_representative_fixed_point_witness :
    (∀ a ∈ [sample_identity, sample_swap], ∀ b ∈ [sample_identity, sample_swap],
        ∃ c ∈ [sample_identity, sample_swap], c.apply 64 2 = b.apply 64 (a.apply 64 2)) ∧
      ((1 : Int) ≠ 0 → ∀ a ∈ [sample_identity, sample_swap], a.apply 64 3 = 3) ∧
      (state_info sample_ops 64 [sample_identity, sample_swap] 1 3
          (state_info sample_ops 64 [sample_identity, sample_swap] 1 3 2).1).1
        = (state_info sample_ops 64 [sample_identity, sample_swap] 1 3 2).1 :=
  ⟨by decide, by decide,
    C15_representative_fixed_point sample_ops 64 [sample_identity, sample_swap] 1 3 2
      (by decide) (by decide)⟩

/-! ## Lists written in blocks -/

/-! Lists written block after block. -/

theorem range_map_get? {α β : Type} (f : Option α → β) :
    ∀ (n : Nat) (l : List α), n ≤ l.length →
      (List.range n).map (fun i => f (l.get? i)) = (l.take n).map (fun a => f (some a)) := by
  intro n
  induction n with
  | zero => intro l _; simp
  | succ n ih =>
    intro l hl
    cases l with
    | nil => simp at hl
    | cons a t =>
      rw [List.range_succ_eq_map, List.map_cons, List.map_map, List.take_succ_cons, List.map_cons]
      have h := ih t (by simpa using hl)
      rw [← h]
      rfl

theorem range_map_get?_length {α β : Type} (f : Option α → β) (l : List α) :
    (List.range l.length).map (fun i => f (l.get? i)) = l.map (fun a => f (some a)) := by
  rw [range_map_get? f l.length l (Nat.le_refl _), List.take_length]

theorem flatMap_uniform_length {α β : Type} (F : α → List β) (K : Nat) :
    ∀ (l : List α), (∀ a ∈ l, (F a).length = K) → (l.flatMap F).length = l.length * K := by
  intro l
  induction l with
  | nil => intro _; simp
  | cons a t ih =>
    intro h
    rw [List.flatMap_cons, List.length_append, h a (List.mem_cons_self a t),
      ih (fun b hb => h b (List.mem_cons_of_mem a hb)), List.length_cons]
    ring

/-- Entry `j * K + w` of a list written as blocks of `K` values is entry `w`
of block `j`. -/
theorem flatMap_uniform_get? {α β : Type} (F : α → List β) (K : Nat) :
    ∀ (l : List α) (j w : Nat), (∀ a ∈ l, (F a).length = K) → w < K →
      (l.flatMap F).get? (j * K + w) = (l.get? j).bind (fun a => (F a).get? w) := by
  intro l
  induction l with
  | nil => intro j w _ _; simp
  | cons a t ih =>
    intro j w h hw
    have ha := h a (List.mem_cons_self a t)
    rw [List.flatMap_cons]
    cases j with
    | zero =>
      simp only [Nat.zero_mul, Nat.zero_add, List.get?_cons_zero, Option.some_bind]
      rw [List.get?_eq_getElem?, List.get?_eq_getElem?, List.getElem?_append_left (by omega)]
    | succ j =>
      have e : (j + 1) * K + w = (F a).length + (j * K + w) := by rw [ha]; ring
      rw [List.get?_eq_getElem?, e, List.getElem?_append_right (by omega), Nat.add_sub_cancel_left,
        ← List.get?_eq_getElem?, ih j w (fun b hb => h b (List.mem_cons_of_mem a hb)) hw]
      simp

theorem range_get? {n d : Nat} (h : d < n) : (List.range n).get? d = some d := by
  rw [List.get?_eq_getElem?, List.getElem?_range h]

/-! The real lanes of a small table. -/

theorem flatten_uniform_length {α : Type} (K : Nat) :
    ∀ (l : List (List α)), (∀ s ∈ l, s.length = K) → l.flatten.length = l.length * K := by
  intro l h
  have := flatMap_uniform_length (fun s : List α => s) K l h
  have e : (l.flatMap fun s => s) = l.flatten := by
    rw [List.flatMap_def, List.map_id']
  rw [e] at this
  exact this

theorem small_lanes_length {Sym : Type} (p : small_basis_t Sym)
    (hb : ∀ s ∈ p.batched_symmetries, s.length = batch_size)
    (ho : p.number_other_symmetries ≤ (p.other_symmetries.getD []).length) :
    p.lanes.length = p.batched_symmetries.length * batch_size + p.number_other_symmetries := by
  unfold small_basis_t.lanes
  rw [List.length_append, flatten_uniform_length batch_size _ hb, List.length_take,
    Nat.min_eq_left ho]

/-- The lanes the small visitor reads, batch after batch and index after
index, are the real lanes of the table. -/
theorem small_read_lanes {R β : Type} (p : small_basis_t (symmetry_t R))
    (f : Option (symmetry_t R) → β)
    (hb : ∀ s ∈ p.batched_symmetries, s.length = batch_size)
    (ho : p.number_other_symmetries ≤ (p.other_symmetries.getD []).length) :
    (p.batched_symmetries.flatMap fun s => (List.range batch_size).map fun i => f (s.get? i)) ++
        (List.range p.number_other_symmetries).map
          (fun i => f ((p.other_symmetries.getD []).get? i))
      = p.lanes.map fun l => f (some l) := by
  unfold small_basis_t.lanes
  rw [List.map_append, range_map_get? f _ _ ho]
  congr 1
  have hbatch : ∀ (l : List (List (symmetry_t R))), (∀ s ∈ l, s.length = batch_size) →
      (l.flatMap fun s => (List.range batch_size).map fun i => f (s.get? i))
        = l.flatten.map fun a => f (some a) := by
    intro l
    induction l with
    | nil => intro _; simp
    | cons s t ih =>
      intro h
      have hs := h s (List.mem_cons_self s t)
      rw [List.flatMap_cons, List.flatten_cons, List.map_append,
        ih (fun b hb' => h b (List.mem_cons_of_mem s hb')), ← hs, range_map_get?_length]
  exact hbatch _ hb

/-! ## Batches and the shape of the flat view -/

/-! The batches `split_into_batches` makes. -/

theorem split_into_batches_full_spec {Sym : Type} (symmetries : List Sym) :
    ∀ (fuel offset : Nat) (batched : List (List Sym)),
      (∀ s ∈ batched, s.length = batch_size) →
      symmetries.length < offset + batch_size * fuel + batch_size →
      (split_into_batches_full symmetries fuel offset batched).1.length * batch_size + offset
          = batched.length * batch_size
            + (split_into_batches_full symmetries fuel offset batched).2 ∧
        (offset ≤ symmetries.length →
          (split_into_batches_full symmetries fuel offset batched).2 ≤ symmetries.length) ∧
        symmetries.length
          < (split_into_batches_full symmetries fuel offset batched).2 + batch_size ∧
        ∀ s ∈ (split_into_batches_full symmetries fuel offset batched).1, s.length = batch_size := by
  intro fuel
  induction fuel with
  | zero =>
    intro offset batched hb hfuel
    show ([] ++ batched : List (List Sym)).length * batch_size + offset
        = batched.length * batch_size + offset ∧
      (offset ≤ symmetries.length → offset ≤ symmetries.length) ∧
      symmetries.length < offset + batch_size ∧ ∀ s ∈ batched, s.length = batch_size
    exact ⟨by rw [List.nil_append], fun h => h, by omega, hb⟩
  | succ fuel ih =>
    intro offset batched hb hfuel
    rw [split_into_batches_full]
    by_cases hle : offset + batch_size ≤ symmetries.length
    · rw [if_pos hle]
      have hb' : ∀ s ∈ batched ++ [(symmetries.drop offset).take batch_size],
          s.length = batch_size := by
        intro s hs
        rcases List.mem_append.mp hs with h | h
        · exact hb s h
        · rw [List.mem_singleton] at h
          rw [h, List.length_take, List.length_drop]
          omega
      obtain ⟨h1, h2, h3, h4⟩ := ih (offset + batch_size)
        (batched ++ [(symmetries.drop offset).take batch_size]) hb'
        (by rw [Nat.mul_succ] at hfuel; omega)
      refine ⟨?_, fun _ => h2 hle, h3, h4⟩
      rw [List.length_append, List.length_singleton] at h1
      rw [Nat.add_mul] at h1
      omega
    · rw [if_neg hle]
      exact ⟨rfl, fun h => h, by omega, hb⟩

theorem split_into_batches_pad_length {Sym : Type} (s : Sym) :
    ∀ (fuel : Nat) (other : List Sym), other.length ≤ batch_size →
      batch_size ≤ other.length + fuel →
      (split_into_batches_pad s fuel other).length = batch_size := by
  intro fuel
  induction fuel with
  | zero => intro other h1 h2; simp only [split_into_batches_pad]; omega
  | succ fuel ih =>
    intro other h1 h2
    rw [split_into_batches_pad]
    by_cases hne : other.length ≠ batch_size
    · rw [if_pos hne]
      apply ih
      · rw [List.length_append, List.length_singleton]; omega
      · rw [List.length_append, List.length_singleton]; omega
    · rw [if_neg hne]; omega

/-- What `split_into_batches` returns: full batches of `batch_size` lanes, a
partial batch, when there is one, of `batch_size` lanes of which the recorded
count, at most `batch_size`, are real, and as many real lanes in all as
there are symmetries. -/
theorem split_into_batches_spec {Sym : Type} (symmetries : List Sym) :
    (∀ s ∈ (split_into_batches symmetries).1, s.length = batch_size) ∧
      (split_into_batches symmetries).2.2
        ≤ ((split_into_batches symmetries).2.1.getD []).length ∧
      (split_into_batches symmetries).1.length * batch_size
          + (split_into_batches symmetries).2.2 = symmetries.length := by
  obtain ⟨h1, h2, h3, h4⟩ := split_into_batches_full_spec symmetries symmetries.length 0 []
    (by intro s hs; simp at hs) (by unfold batch_size; omega)
  simp only [List.length_nil, Nat.zero_mul, Nat.add_zero, Nat.zero_add] at h1
  have h2' := h2 (Nat.zero_le _)
  unfold split_into_batches
  simp only
  cases hlast : (symmetries.drop
      (split_into_batches_full symmetries symmetries.length 0 []).2).getLast? with
  | none =>
    have hnil := List.getLast?_eq_none_iff.mp hlast
    have hlen : (symmetries.drop
        (split_into_batches_full symmetries symmetries.length 0 []).2).length = 0 := by
      rw [hnil]; rfl
    rw [List.length_drop] at hlen
    refine ⟨h4, by simp, ?_⟩
    show (split_into_batches_full symmetries symmetries.length 0 []).1.length * batch_size + 0
      = symmetries.length
    omega
  | some s =>
    refine ⟨h4, ?_, ?_⟩
    · show (symmetries.drop (split_into_batches_full symmetries symmetries.length 0 []).2).length
        ≤ (split_into_batches_pad s batch_size
            (symmetries.drop (split_into_batches_full symmetries symmetries.length 0 []).2)).length
      rw [split_into_batches_pad_length s batch_size _
        (by rw [List.length_drop]; omega) (by omega), List.length_drop]
      omega
    · show (split_into_batches_full symmetries symmetries.length 0 []).1.length * batch_size
          + (symmetries.drop (split_into_batches_full symmetries symmetries.length 0 []).2).length
        = symmetries.length
      rw [List.length_drop]
      omega

/-- C17 (the claim fails at a partial batch): for the small basis made from a
group of three symmetries the table has one batch, the partial one, of
eight lanes, and `masks_shape` gives M = 3, the real lanes, not 8. -/
theorem C17_shape_counts_real_lanes_only :
    masks_shape
        { header := sample_small_basis.header,
          payload := basis_payload.small
            (small_basis_t.create
              { number_spins := 2,
                symmetries := [sample_identity, sample_swap, sample_identity] }) }
      = (1, 3, 1) ∧
      ((small_basis_t.create
          { number_spins := 2,
            symmetries := [sample_identity, sample_swap, sample_identity] }).batched_symmetries.length,
        (small_basis_t.create
          { number_spins := 2,
            symmetries := [sample_identity, sample_swap, sample_identity] }).other_symmetries.map
              List.length) = (0, some 8) ∧
      3 ≠ 8 * (0 + 1) := by
  refine ⟨by decide, by decide, by decide⟩

/-- C17 (amended): the shape component M is the number of real lanes, 8 times
the number of full batches plus the recorded count of real lanes of the
partial batch, which for a small basis made from a group of fewer than 2^32
symmetries is the number of symmetries, as it is for a big basis; W is 1 for
a small basis and 8 for a big basis. -/
theorem C17_shape_lanes_and_width {R : Type} (header : basis_base_t)
    (group : ls_group (symmetry_t R)) (p : small_basis_t (symmetry_t R))
    (hn : group.symmetries.length < U32) :
    (masks_shape { header := header, payload := basis_payload.small p }).2
        = ((p.batched_symmetries.length * 8 + p.number_other_symmetries) % U32, 1) ∧
      (masks_shape
          { header := header, payload := basis_payload.small (small_basis_t.create group) }).2
        = (group.symmetries.length, 1) ∧
      (masks_shape
          { header := header, payload := basis_payload.big (big_basis_t.create group) }).2
        = (group.symmetries.length, 8) := by
  refine ⟨rfl, ?_, ?_⟩
  · obtain ⟨_, _, h3⟩ := split_into_batches_spec group.symmetries
    show ((((split_into_batches group.symmetries).1.length * batch_size
      + (split_into_batches group.symmetries).2.2) % U32, 1) : Nat × Nat)
      = (group.symmetries.length, 1)
    rw [h3, Nat.mod_eq_of_lt hn]
  · show (((group.symmetries.length % U32, 8) : Nat × Nat)) = (group.symmetries.length, 8)
    rw [Nat.mod_eq_of_lt hn]

/-- C17 (amended) for the group of the identity and the exchange. -/
theorem C17_shape_lanes_and_width_witness :
    ([sample_identity, sample_swap] : List (symmetry_t Int)).length < U32 ∧
      ((masks_shape
            { header := sample_small_basis.header,
              payload := basis_payload.small
                (small_basis_t.mk [] (some [sample_identity]) 1 none) }).2
          = ((([] : List (List (symmetry_t Int))).length * 8 + 1) % U32, 1) ∧
        (masks_shape
            { header := sample_small_basis.header,
              payload := basis_payload.small
                (small_basis_t.create
                  { number_spins := 2, symmetries := [sample_identity, sample_swap] }) }).2
          = (([sample_identity, sample_swap] : List (symmetry_t Int)).length, 1) ∧
        (masks_shape
            { header := sample_small_basis.header,
              payload := basis_payload.big
                (big_basis_t.create
                  { number_spins := 2, symmetries := [sample_identity, sample_swap] }) }).2
          = (([sample_identity, sample_swap] : List (symmetry_t Int)).length, 8)) :=
  ⟨by decide,
    C17_shape_lanes_and_width sample_small_basis.header
      { number_spins := 2, symmetries := [sample_identity, sample_swap] }
      (small_basis_t.mk [] (some [sample_identity]) 1 none) (by decide)⟩

/-! ## The conversion to the flat view -/

/-! The conversion and what the visitors store. -/

/-- When every allocation succeeds and the mask buffer has a positive element
count below 2^32, the conversion succeeds and every buffer has the element
count its shape asks for. -/
theorem convert_succeeds {R : Type} [Inhabited R] (alloc_succeeds : Nat → Bool)
    (basis : ls_spin_basis (symmetry_t R)) (halloc : ∀ k, alloc_succeeds k = true)
    (hpos : 0 < (masks_shape basis).1 * (masks_shape basis).2.1 * (masks_shape basis).2.2)
    (hlt : (masks_shape basis).1 * (masks_shape basis).2.1 * (masks_shape basis).2.2 < U32) :
    ls_convert_to_flat_spin_basis alloc_succeeds basis
      = (LS_SUCCESS,
          some { refcount := 0, number_spins := basis.header.number_spins,
                 hamming_weight := ls_get_hamming_weight basis,
                 spin_inversion := basis.header.spin_inversion,
                 group := init_flat_group_contents
                   { shape := masks_shape basis,
                     masks :=
                       { allocated := some ((masks_shape basis).1 * (masks_shape basis).2.1
                           * (masks_shape basis).2.2),
                         stored := [] },
                     shifts := { allocated := some (masks_shape basis).1, stored := [] },
                     eigenvalues_real :=
                       { allocated := some (masks_shape basis).2.1, stored := [] },
                     eigenvalues_imag :=
                       { allocated := some (masks_shape basis).2.1, stored := [] },
                     sectors := { allocated := some (masks_shape basis).2.1, stored := [] },
                     periodicities :=
                       { allocated := some (masks_shape basis).2.1, stored := [] } }
                   basis }) := by
  have hD : 0 < (masks_shape basis).1 := by
    rcases Nat.eq_zero_or_pos (masks_shape basis).1 with h | h
    · rw [h] at hpos; simp at hpos
    · exact h
  have hM : 0 < (masks_shape basis).2.1 := by
    rcases Nat.eq_zero_or_pos (masks_shape basis).2.1 with h | h
    · rw [h] at hpos; simp at hpos
    · exact h
  unfold ls_convert_to_flat_spin_basis alloc_aligned_unitialized
  simp only [halloc, Nat.mod_eq_of_lt hlt, gt_iff_lt, hpos, hD, hM, and_self, if_true,
    Bool.true_eq_false, if_false, ne_eq, false_or, or_self, and_false, reduceCtorEq]

/-- The mask values the small visitor stores: layer after layer, the one-word
masks of the real lanes in table order. -/
theorem small_masks_stored {R : Type} [Inhabited R] (g : ls_flat_group R)
    (p : small_basis_t (symmetry_t R)) (hwf : p.batches_well_formed) :
    (init_flat_group_contents_small g p).masks.stored
      = (List.range g.shape.1).flatMap fun depth =>
          p.lanes.map fun l => (l.network.masks.getD depth []).getD 0 0 := by
  show ((List.range g.shape.1).flatMap fun depth =>
      (p.batched_symmetries.flatMap fun s =>
        (List.range batch_size).map fun i => batch_mask s depth i) ++
      (List.range p.number_other_symmetries).map
        fun i => batch_mask (p.other_symmetries.getD []) depth i) = _
  congr 1
  funext depth
  exact small_read_lanes p
    (fun o => match o with
      | some lane => (lane.network.masks.getD depth []).getD 0 0
      | none => 0) hwf.1 hwf.2

/-- The lanes whose character, sector and periodicity the small visitor
stores are the real lanes in table order. -/
theorem small_lanes_stored {R : Type} [Inhabited R] (p : small_basis_t (symmetry_t R))
    (hwf : p.batches_well_formed) :
    (p.batched_symmetries.flatMap fun s => (List.range batch_size).map fun i => batch_lane s i) ++
        (List.range p.number_other_symmetries).map
          (fun i => batch_lane (p.other_symmetries.getD []) i)
      = p.lanes := by
  have h := small_read_lanes p
    (fun o => match o with
      | some lane => lane
      | none =>
        ({ network := { depth := 0, masks := [], deltas := [] }, eigenvalue_real := default,
           eigenvalue_imag := default, sector := 0, periodicity := 0 } : symmetry_t R))
    hwf.1 hwf.2
  exact h.trans (List.map_id p.lanes)

/-! ## The layout of the mask buffer -/

/-! The layout of the mask buffer. -/

theorem map_eq_flatMap_singleton {α β : Type} (f : α → β) (l : List α) :
    l.map f = l.flatMap fun a => [f a] := by
  induction l with
  | nil => rfl
  | cons a t ih => rw [List.map_cons, List.flatMap_cons, ih]; rfl

/-- Entry `(d * M + j) * W + w` of a buffer written layer after layer, lane
after lane and word after word is word `w` of lane `j` in layer `d`. -/
theorem layout_get? {α β : Type} (lanes : List α) (G : Nat → α → List β) (W D : Nat)
    (hG : ∀ depth a, (G depth a).length = W) (d j w : Nat) (hd : d < D)
    (hj : j < lanes.length) (hw : w < W) :
    ((List.range D).flatMap fun depth => lanes.flatMap (G depth)).get?
        ((d * lanes.length + j) * W + w)
      = (lanes.get? j).bind fun a => (G d a).get? w := by
  have hblock : ∀ depth ∈ List.range D,
      (lanes.flatMap (G depth)).length = lanes.length * W :=
    fun depth _ => flatMap_uniform_length (G depth) W lanes (fun a _ => hG depth a)
  have hidx : (d * lanes.length + j) * W + w = d * (lanes.length * W) + (j * W + w) := by ring
  have hlt : j * W + w < lanes.length * W := by
    have h1 : (j + 1) * W ≤ lanes.length * W := Nat.mul_le_mul_right W hj
    rw [Nat.add_mul, Nat.one_mul] at h1
    omega
  rw [hidx, flatMap_uniform_get? (fun depth => lanes.flatMap (G depth)) (lanes.length * W)
    (List.range D) d (j * W + w) hblock hlt, range_get? hd, Option.some_bind,
    flatMap_uniform_get? (G d) W lanes j w (fun a _ => hG d a) hw]

/-- An offset `(d * M + j) * W + w` with `d < D`, `j < M`, `w < W` is below
`D * M * W`. -/
theorem layout_offset_lt {D M W d j w : Nat} (hd : d < D) (hj : j < M) (hw : w < W) :
    (d * M + j) * W + w < D * M * W := by
  have h1 : (d * M + j + 1) * W ≤ D * M * W := by
    apply Nat.mul_le_mul_right
    have h2 : (d + 1) * M ≤ D * M := Nat.mul_le_mul_right M hd
    rw [Nat.add_mul, Nat.one_mul] at h2
    omega
  rw [Nat.add_mul, Nat.one_mul] at h1
  omega

/-- The shape component M of a well-formed table that fits is the number of
its lanes. -/
theorem masks_shape_lanes {R : Type} (basis : ls_spin_basis (symmetry_t R))
    (hwf : table_well_formed basis) (hlt : (table_lanes basis).length < U32) :
    (masks_shape basis).2.1 = (table_lanes basis).length := by
  obtain ⟨header, payload⟩ := basis
  cases payload with
  | small p =>
    have hlen := small_lanes_length p hwf.1 hwf.2
    show (p.batched_symmetries.length * batch_size + p.number_other_symmetries) % U32
      = p.lanes.length
    rw [← hlen]
    exact Nat.mod_eq_of_lt hlt
  | big b => exact Nat.mod_eq_of_lt hlt

/-- The mask values a visitor stores: layer after layer, lane after lane of
the table, the W words of the mask. -/
theorem masks_stored {R : Type} [Inhabited R] (g : ls_flat_group R)
    (basis : ls_spin_basis (symmetry_t R)) (hwf : table_well_formed basis) :
    (init_flat_group_contents g basis).masks.stored
      = (List.range g.shape.1).flatMap fun depth =>
          (table_lanes basis).flatMap fun l =>
            (List.range (masks_shape basis).2.2).map
              fun i => (l.network.masks.getD depth []).getD i 0 := by
  obtain ⟨header, payload⟩ := basis
  cases payload with
  | small p =>
    show (init_flat_group_contents_small g p).masks.stored = _
    rw [small_masks_stored g p hwf]
    congr 1
    funext depth
    exact map_eq_flatMap_singleton _ _
  | big b => rfl

/-- C18: when the table is well formed, the allocations succeed and the mask
buffer has fewer than 2^32 elements, the conversion succeeds with the shape
(D, M, W), M the number of lanes of the table, and for every layer d < D,
lane j < M and word w < W the element of the mask buffer at offset
(d*M + j)*W + w, an offset inside the buffer, is word w of the layer-d mask
of the j-th symmetry of the table; for W = 1 and M < 2^31 this is the element
the two-dimensional descriptor of the kernel state addresses with (d, j). -/
theorem C18_mask_layout {R : Type} [Inhabited R] (alloc_succeeds : Nat → Bool)
    (basis : ls_spin_basis (symmetry_t R)) (d j w : Nat)
    (halloc : ∀ k, alloc_succeeds k = true) (hwf : table_well_formed basis)
    (hsize : (masks_shape basis).1 * (table_lanes basis).length * (masks_shape basis).2.2 < U32)
    (hd : d < (masks_shape basis).1) (hj : j < (table_lanes basis).length)
    (hw : w < (masks_shape basis).2.2) :
    ∃ fb lane,
      ls_convert_to_flat_spin_basis alloc_succeeds basis = (LS_SUCCESS, some fb) ∧
        fb.group.shape
          = ((masks_shape basis).1, (table_lanes basis).length, (masks_shape basis).2.2) ∧
        (table_lanes basis).get? j = some lane ∧
        fb.group.masks.allocated
          = some ((masks_shape basis).1 * (table_lanes basis).length
              * (masks_shape basis).2.2) ∧
        (d * (table_lanes basis).length + j) * (masks_shape basis).2.2 + w
          < (masks_shape basis).1 * (table_lanes basis).length * (masks_shape basis).2.2 ∧
        fb.group.masks.stored.get?
            ((d * (table_lanes basis).length + j) * (masks_shape basis).2.2 + w)
          = some ((lane.network.masks.getD d []).getD w 0) ∧
        ((masks_shape basis).2.2 = 1 → (table_lanes basis).length < 2 ^ 31 →
          halide_offset (halide_masks_dims fb.group.shape) [(d : Int), (j : Int)]
            = (((d * (table_lanes basis).length + j) * (masks_shape basis).2.2 + w : Nat) :
                Int)) := by
  have hoff := layout_offset_lt hd hj hw
  have hM : (table_lanes basis).length < U32 := by
    have h1 : 1 * (table_lanes basis).length * 1
        ≤ (masks_shape basis).1 * (table_lanes basis).length * (masks_shape basis).2.2 :=
      Nat.mul_le_mul (Nat.mul_le_mul_right _ (by omega)) (by omega)
    rw [Nat.one_mul, Nat.mul_one] at h1
    omega
  have hshape := masks_shape_lanes basis hwf hM
  have hconv := convert_succeeds alloc_succeeds basis halloc
    (by rw [hshape]; omega) (by rw [hshape]; exact hsize)
  have hlane : (table_lanes basis).get? j = some ((table_lanes basis).get ⟨j, hj⟩) :=
    List.get?_eq_get hj
  refine ⟨_, (table_lanes basis).get ⟨j, hj⟩, hconv, ?_, hlane, ?_, hoff, ?_, ?_⟩
  · show (init_flat_group_contents _ basis).shape = _
    obtain ⟨header, payload⟩ := basis
    cases payload with
    | small p => exact Prod.ext rfl (Prod.ext hshape rfl)
    | big b => exact Prod.ext rfl (Prod.ext hshape rfl)
  · show (init_flat_group_contents _ basis).masks.allocated = _
    obtain ⟨header, payload⟩ := basis
    cases payload with
    | small p => show some _ = some _; rw [hshape]
    | big b => show some _ = some _; rw [hshape]
  · show (init_flat_group_contents _ basis).masks.stored.get? _ = _
    rw [masks_stored _ basis hwf,
      layout_get? (table_lanes basis)
        (fun depth l => (List.range (masks_shape basis).2.2).map
          fun i => (l.network.masks.getD depth []).getD i 0)
        (masks_shape basis).2.2 (masks_shape basis).1
        (fun depth a => by rw [List.length_map, List.length_range]) d j w hd hj hw,
      hlane, Option.some_bind, List.get?_eq_getElem?, List.getElem?_map,
      List.getElem?_range hw]
    rfl
  · intro hW hM31
    have hw0 : w = 0 := by omega
    have hsh : (init_flat_group_contents
        ({ shape := masks_shape basis,
           masks := { allocated := some ((masks_shape basis).1 * (masks_shape basis).2.1
             * (masks_shape basis).2.2), stored := [] },
           shifts := { allocated := some (masks_shape basis).1, stored := [] },
           eigenvalues_real := { allocated := some (masks_shape basis).2.1, stored := [] },
           eigenvalues_imag := { allocated := some (masks_shape basis).2.1, stored := [] },
           sectors := { allocated := some (masks_shape basis).2.1, stored := [] },
           periodicities := { allocated := some (masks_shape basis).2.1, stored := [] } } :
          ls_flat_group R) basis).shape = masks_shape basis := by
      obtain ⟨header, payload⟩ := basis
      cases payload with
      | small p => rfl
      | big b => rfl
    show halide_offset (halide_masks_dims (init_flat_group_contents _ basis).shape) _ = _
    rw [hsh, hW, hw0]
    have h32 : to_int32 (masks_shape basis).2.1 = ((table_lanes basis).length : Int) := by
      unfold to_int32
      rw [hshape, Nat.mod_eq_of_lt hM, if_pos hM31]
    simp only [halide_masks_dims, halide_offset, h32]
    push_cast
    ring

/-! ## The mask buffer and the arrays of a big basis: evaluation -/

/-- C18 at the small basis of the identity and the exchange on two spins:
layer 0, lane 1, word 0. -/
theorem C18_mask_layout_witness :
    (∀ k : Nat, (fun _ : Nat => true) k = true) ∧ table_well_formed sample_small_basis ∧
      (masks_shape sample_small_basis).1 * (table_lanes sample_small_basis).length
          * (masks_shape sample_small_basis).2.2 < U32 ∧
      0 < (masks_shape sample_small_basis).1 ∧ 1 < (table_lanes sample_small_basis).length ∧
      0 < (masks_shape sample_small_basis).2.2 ∧
      ∃ fb lane,
        ls_convert_to_flat_spin_basis (fun _ => true) sample_small_basis
            = (LS_SUCCESS, some fb) ∧
          fb.group.shape
            = ((masks_shape sample_small_basis).1, (table_lanes sample_small_basis).length,
                (masks_shape sample_small_basis).2.2) ∧
          (table_lanes sample_small_basis).get? 1 = some lane ∧
          fb.group.masks.allocated
            = some ((masks_shape sample_small_basis).1
                * (table_lanes sample_small_basis).length
                * (masks_shape sample_small_basis).2.2) ∧
          (0 * (table_lanes sample_small_basis).length + 1)
                * (masks_shape sample_small_basis).2.2 + 0
            < (masks_shape sample_small_basis).1 * (table_lanes sample_small_basis).length
                * (masks_shape sample_small_basis).2.2 ∧
          fb.group.masks.stored.get?
              ((0 * (table_lanes sample_small_basis).length + 1)
                * (masks_shape sample_small_basis).2.2 + 0)
            = some ((lane.network.masks.getD 0 []).getD 0 0) ∧
          ((masks_shape sample_small_basis).2.2 = 1 →
            (table_lanes sample_small_basis).length < 2 ^ 31 →
            halide_offset (halide_masks_dims fb.group.shape) [((0 : Nat) : Int), ((1 : Nat) : Int)]
              = (((0 * (table_lanes sample_small_basis).length + 1)
                    * (masks_shape sample_small_basis).2.2 + 0 : Nat) : Int)) :=
  ⟨fun _ => rfl,
    ⟨(split_into_batches_spec [sample_identity, sample_swap]).1,
      (split_into_batches_spec [sample_identity, sample_swap]).2.1⟩,
    by decide, by decide, by decide, by decide,
    C18_mask_layout (fun _ => true) sample_small_basis 0 1 0 (fun _ => rfl)
      ⟨(split_into_batches_spec [sample_identity, sample_swap]).1,
        (split_into_batches_spec [sample_identity, sample_swap]).2.1⟩
      (by decide) (by decide) (by decide) (by decide)⟩

/-- C19 (the claim fails): the big visitor stores the character, sector and
periodicity of every symmetry eight times in a row, so it stores 8 M values
in arrays allocated with M elements, and entry j is that of symmetry j / 8.
For the big basis on 65 spins with two symmetries, of sectors 0 and 1 and
characters 1 and -1, the conversion succeeds with shape (1, 2, 8), the
sector and character arrays have 2 elements, 16 values are stored in each,
and entry 1 is the sector 0 and the character 1 of symmetry 0, not the sector
1 and the character -1 of symmetry 1. -/
theorem C19_big_arrays_repeat_each_symmetry :
    (∀ (g : ls_flat_group Int) (b : big_basis_t (symmetry_t Int)),
        (init_flat_group_contents_big g b).sectors.stored
          = b.symmetries.flatMap fun s => List.replicate 8 s.sector) ∧
      (ls_convert_to_flat_spin_basis (fun _ => true) sample_big_basis).1 = LS_SUCCESS ∧
      ((ls_convert_to_flat_spin_basis (fun _ => true) sample_big_basis).2.map fun fb =>
          (fb.group.shape, fb.group.sectors.allocated, fb.group.sectors.stored,
            fb.group.eigenvalues_real.allocated, fb.group.eigenvalues_real.stored))
        = some ((1, 2, 8), some 2, [0, 0, 0, 0, 0, 0, 0, 0, 1, 1, 1, 1, 1, 1, 1, 1],
            some 2, [1, 1, 1, 1, 1, 1, 1, 1, -1, -1, -1, -1, -1, -1, -1, -1]) ∧
      ((table_lanes sample_big_basis).get? 1).map
          (fun s => (s.sector, s.eigenvalue_real)) = some (1, -1) ∧
      ((ls_convert_to_flat_spin_basis (fun _ => true) sample_big_basis).2.bind fun fb =>
          (fb.group.sectors.stored.get? 1).bind fun sector =>
            (fb.group.eigenvalues_real.stored.get? 1).map fun re => (sector, re))
        = some (0, 1) := by
  refine ⟨?_, by decide, by decide, by decide, by decide⟩
  intro g b
  show (b.symmetries.flatMap fun s => (List.range batch_size).map fun _ => s).map
      (fun l => l.sector) = _
  induction b.symmetries with
  | nil => rfl
  | cons s t ih =>
    rw [List.flatMap_cons, List.map_append, ih, List.flatMap_cons]
    rfl

/-! ## The parallel arrays of a small basis -/

/-! The parallel arrays and the shifts of a small basis. -/

/-- The batch whose shifts the small visitor reads starts with a real lane of
the table, when the table has one. -/
theorem small_shift_lane {R : Type} (p : small_basis_t (symmetry_t R))
    (hwf : p.batches_well_formed) (hne : 0 < p.lanes.length) (depth : Nat) :
    ∃ lane ∈ p.lanes,
      batch_delta
          (match p.batched_symmetries with
            | s :: _ => s
            | [] => p.other_symmetries.getD []) depth
        = lane.network.deltas.getD depth 0 := by
  obtain ⟨hb, ho⟩ := hwf
  unfold small_basis_t.lanes at hne ⊢
  cases hbs : p.batched_symmetries with
  | nil =>
    rw [hbs] at hne
    simp only [List.flatten_nil, List.nil_append] at hne ⊢
    cases hos : p.other_symmetries.getD [] with
    | nil => rw [hos] at hne; simp at hne
    | cons lane t =>
      rw [hos] at hne
      refine ⟨lane, ?_, rfl⟩
      cases hn : p.number_other_symmetries with
      | zero => rw [hn] at hne; simp at hne
      | succ n => rw [List.take_succ_cons]; exact List.mem_cons_self _ _
  | cons s rest =>
    have hs : s.length = batch_size := hb s (by rw [hbs]; exact List.mem_cons_self _ _)
    cases s with
    | nil => simp [batch_size] at hs
    | cons lane t =>
      refine ⟨lane, ?_, rfl⟩
      rw [List.flatten_cons]
      exact List.mem_append_left _ (List.mem_append_left _ (List.mem_cons_self _ _))

/-- C20: for a small basis with a well-formed table of depth D > 0 whose
lanes share the layer shifts `deltas`, when the allocations succeed and the
mask buffer has fewer than 2^32 elements, the conversion succeeds, the four
parallel arrays have M elements, M the number of real lanes, and hold the
characters, sectors and periodicities of the real lanes in table order (full
batches first, then the real lanes of the partial batch), so that entry
j < M is that of the j-th lane, and entry d < D of the shifts is
`deltas[d]`. -/
theorem C20_small_parallel_arrays {R : Type} [Inhabited R] (alloc_succeeds : Nat → Bool)
    (header : basis_base_t) (p : small_basis_t (symmetry_t R)) (deltas : List Nat) (j : Nat)
    (halloc : ∀ k, alloc_succeeds k = true) (hwf : p.batches_well_formed)
    (hshare : ∀ l ∈ p.lanes, l.network.deltas = deltas)
    (hD : 0 < (masks_shape { header := header, payload := basis_payload.small p }).1)
    (hsize : (masks_shape { header := header, payload := basis_payload.small p }).1
      * p.lanes.length < U32)
    (hj : j < p.lanes.length) :
    ∃ fb lane,
      ls_convert_to_flat_spin_basis alloc_succeeds
          { header := header, payload := basis_payload.small p } = (LS_SUCCESS, some fb) ∧
        fb.group.shape
          = ((masks_shape { header := header, payload := basis_payload.small p }).1,
              p.lanes.length, 1) ∧
        p.lanes.get? j = some lane ∧
        (fb.group.eigenvalues_real.allocated, fb.group.eigenvalues_imag.allocated,
            fb.group.sectors.allocated, fb.group.periodicities.allocated)
          = (some p.lanes.length, some p.lanes.length, some p.lanes.length,
              some p.lanes.length) ∧
        fb.group.eigenvalues_real.stored = p.lanes.map (fun l => l.eigenvalue_real) ∧
        fb.group.eigenvalues_imag.stored = p.lanes.map (fun l => l.eigenvalue_imag) ∧
        fb.group.sectors.stored = p.lanes.map (fun l => l.sector) ∧
        fb.group.periodicities.stored = p.lanes.map (fun l => l.periodicity) ∧
        fb.group.eigenvalues_real.stored.get? j = some lane.eigenvalue_real ∧
        fb.group.eigenvalues_imag.stored.get? j = some lane.eigenvalue_imag ∧
        fb.group.sectors.stored.get? j = some lane.sector ∧
        fb.group.periodicities.stored.get? j = some lane.periodicity ∧
        fb.group.shifts.allocated = some fb.group.shape.1 ∧
        ∀ d, d < fb.group.shape.1 → fb.group.shifts.stored.get? d = some (deltas.getD d 0) := by
  have hM : p.lanes.length < U32 := by
    have h1 : 1 * p.lanes.length
        ≤ (masks_shape { header := header, payload := basis_payload.small p }).1
            * p.lanes.length := Nat.mul_le_mul_right _ hD
    rw [Nat.one_mul] at h1
    omega
  have hshape := masks_shape_lanes { header := header, payload := basis_payload.small p } hwf hM
  have hM' : (masks_shape { header := header, payload := basis_payload.small p }).2.1
      = p.lanes.length := hshape
  have hW : (masks_shape { header := header, payload := basis_payload.small p }).2.2 = 1 := rfl
  have hpos : 0 < (masks_shape { header := header, payload := basis_payload.small p }).1
      * p.lanes.length := Nat.mul_pos hD (by omega)
  have hconv := convert_succeeds alloc_succeeds
    { header := header, payload := basis_payload.small p } halloc
    (by rw [hM', hW, Nat.mul_one]; exact hpos) (by rw [hM', hW, Nat.mul_one]; exact hsize)
  have hlane : p.lanes.get? j = some (p.lanes.get ⟨j, hj⟩) := List.get?_eq_get hj
  have hstored := small_lanes_stored p hwf
  have hget : ∀ {β : Type} (f : symmetry_t R → β),
      (p.lanes.map f).get? j = some (f (p.lanes.get ⟨j, hj⟩)) := by
    intro β f
    rw [List.get?_eq_getElem?, List.getElem?_map, ← List.get?_eq_getElem?, hlane]
    rfl
  have hreal : ∀ {β : Type} (f : symmetry_t R → β),
      ((p.batched_symmetries.flatMap fun s =>
          (List.range batch_size).map fun i => batch_lane s i) ++
        (List.range p.number_other_symmetries).map
          (fun i => batch_lane (p.other_symmetries.getD []) i)).map f = p.lanes.map f := by
    intro β f
    rw [hstored]
  have hentry : ∀ {β : Type} (f : symmetry_t R → β),
      (((p.batched_symmetries.flatMap fun s =>
          (List.range batch_size).map fun i => batch_lane s i) ++
        (List.range p.number_other_symmetries).map
          (fun i => batch_lane (p.other_symmetries.getD []) i)).map f).get? j
        = some (f (p.lanes.get ⟨j, hj⟩)) := by
    intro β f
    rw [hreal f]
    exact hget f
  refine ⟨_, p.lanes.get ⟨j, hj⟩, hconv, ?_, hlane, ?_, hreal _, hreal _, hreal _, hreal _,
    ?_, ?_, ?_, ?_, rfl, ?_⟩
  · exact Prod.ext rfl (Prod.ext hM' rfl)
  · show (some _, some _, some _, some _) = _
    rw [hM']
  · exact hentry (fun l => l.eigenvalue_real)
  · exact hentry (fun l => l.eigenvalue_imag)
  · exact hentry (fun l => l.sector)
  · exact hentry (fun l => l.periodicity)
  · intro d hd
    have hd' : d < (masks_shape { header := header, payload := basis_payload.small p }).1 := hd
    obtain ⟨lane, hmem, hdelta⟩ := small_shift_lane p hwf (by omega) d
    show ((List.range (masks_shape { header := header, payload := basis_payload.small p }).1).map
        fun depth => batch_delta
          (match p.batched_symmetries with
            | s :: _ => s
            | [] => p.other_symmetries.getD []) depth).get? d = _
    rw [List.get?_eq_getElem?, List.getElem?_map, List.getElem?_range hd', Option.map_some',
      hdelta, hshare lane hmem]

/-- C20 at the small basis of the identity and the exchange on two spins,
whose networks share the shift 1: lane 1. -/
theorem C20_small_parallel_arrays_witness :
    (∀ k : Nat, (fun _ : Nat => true) k = true) ∧
      (small_basis_t.create
          { number_spins := 2,
            symmetries := [sample_identity, sample_swap] }).batches_well_formed ∧
      (∀ l ∈ (small_basis_t.create
          { number_spins := 2, symmetries := [sample_identity, sample_swap] }).lanes,
        l.network.deltas = [1]) ∧
      0 < (masks_shape sample_small_basis).1 ∧
      (masks_shape sample_small_basis).1
          * (small_basis_t.create
              { number_spins := 2,
                symmetries := [sample_identity, sample_swap] }).lanes.length < U32 ∧
      1 < (small_basis_t.create
          { number_spins := 2, symmetries := [sample_identity, sample_swap] }).lanes.length ∧
      ∃ fb lane,
        ls_convert_to_flat_spin_basis (fun _ => true) sample_small_basis
            = (LS_SUCCESS, some fb) ∧
          fb.group.shape = ((masks_shape sample_small_basis).1, 2, 1) ∧
          lane = sample_swap ∧
          fb.group.eigenvalues_real.stored.get? 1 = some lane.eigenvalue_real ∧
          fb.group.eigenvalues_imag.stored.get? 1 = some lane.eigenvalue_imag ∧
          fb.group.sectors.stored.get? 1 = some lane.sector ∧
          fb.group.periodicities.stored.get? 1 = some lane.periodicity ∧
          fb.group.shifts.stored.get? 0 = some 1 :=
  ⟨fun _ => rfl,
    ⟨(split_into_batches_spec [sample_identity, sample_swap]).1,
      (split_into_batches_spec [sample_identity, sample_swap]).2.1⟩,
    by decide, by decide, by decide, by decide,
    (C20_small_parallel_arrays (fun _ => true) sample_small_basis.header
      (small_basis_t.create { number_spins := 2, symmetries := [sample_identity, sample_swap] })
      [1] 1 (fun _ => rfl)
      ⟨(split_into_batches_spec [sample_identity, sample_swap]).1,
        (split_into_batches_spec [sample_identity, sample_swap]).2.1⟩
      (by decide) (by decide) (by decide) (by decide)).imp fun fb h =>
        h.imp fun lane h =>
          ⟨h.1, h.2.1,
            Option.some.inj (h.2.2.1.symm.trans
              (show (small_basis_t.create
                  { number_spins := 2,
                    symmetries := [sample_identity, sample_swap] }).lanes.get? 1
                = some sample_swap from rfl)),
            h.2.2.2.2.2.2.2.2.1, h.2.2.2.2.2.2.2.2.2.1, h.2.2.2.2.2.2.2.2.2.2.1,
            h.2.2.2.2.2.2.2.2.2.2.2.1,
            h.2.2.2.2.2.2.2.2.2.2.2.2.2 0 (by rw [h.2.1]; decide)⟩⟩

/-! ## The partial batch -/

/-! The lanes `split_into_batches` makes. -/

/-- The full batches are the input cut in pieces: together they are the
symmetries below the final offset, in order. -/
theorem split_into_batches_full_flatten {Sym : Type} (symmetries : List Sym) :
    ∀ (fuel offset : Nat) (batched : List (List Sym)),
      batched.flatten = symmetries.take offset →
      (split_into_batches_full symmetries fuel offset batched).1.flatten
        = symmetries.take (split_into_batches_full symmetries fuel offset batched).2 := by
  intro fuel
  induction fuel with
  | zero => intro offset batched h; exact h
  | succ fuel ih =>
    intro offset batched h
    rw [split_into_batches_full]
    by_cases hle : offset + batch_size ≤ symmetries.length
    · rw [if_pos hle]
      apply ih
      rw [List.flatten_append, h, List.flatten_singleton, List.take_add]
    · rw [if_neg hle]; exact h

/-- The final offset of the first loop is the number of symmetries rounded
down to a multiple of 8. -/
theorem split_into_batches_full_offset {Sym : Type} (symmetries : List Sym) :
    (split_into_batches_full symmetries symmetries.length 0 []).2
        = symmetries.length - symmetries.length % 8 ∧
      (split_into_batches_full symmetries symmetries.length 0 []).1.length
        = symmetries.length / 8 := by
  obtain ⟨h1, h2, h3, _⟩ := split_into_batches_full_spec symmetries symmetries.length 0 []
    (by intro s hs; simp at hs) (by unfold batch_size; omega)
  have h2' := h2 (Nat.zero_le _)
  simp only [List.length_nil, Nat.zero_mul, Nat.add_zero, Nat.zero_add] at h1
  unfold batch_size at h1 h3
  omega

theorem split_into_batches_pad_eq {Sym : Type} (s : Sym) :
    ∀ (fuel : Nat) (other : List Sym), other.length ≤ batch_size →
      batch_size ≤ other.length + fuel →
      split_into_batches_pad s fuel other
        = other ++ List.replicate (batch_size - other.length) s := by
  intro fuel
  induction fuel with
  | zero =>
    intro other h1 h2
    have : batch_size - other.length = 0 := by omega
    rw [this]; simp [split_into_batches_pad]
  | succ fuel ih =>
    intro other h1 h2
    rw [split_into_batches_pad]
    by_cases hne : other.length ≠ batch_size
    · rw [if_pos hne, ih (other ++ [s])
        (by rw [List.length_append, List.length_singleton]; omega)
        (by rw [List.length_append, List.length_singleton]; omega),
        List.length_append, List.length_singleton, List.append_assoc]
      congr 1
      have : batch_size - other.length = (batch_size - (other.length + 1)) + 1 := by omega
      rw [this, List.replicate_succ]
      rfl
    · rw [if_neg hne]
      have : batch_size - other.length = 0 := by omega
      rw [this]; simp

theorem getLast?_drop_of_lt {α : Type} (l : List α) (k : Nat) (h : k < l.length) :
    (l.drop k).getLast? = l.getLast? := by
  have hsplit : l = l.take k ++ l.drop k := (List.take_append_drop k l).symm
  have hne : l.drop k ≠ [] := by
    intro hc
    have := congrArg List.length hc
    rw [List.length_drop, List.length_nil] at this
    omega
  conv_rhs => rw [hsplit]
  rw [List.getLast?_append_of_ne_nil _ hne]

/-- C21: for every list of n symmetries, if n mod 8 is not 0 then the list
has a last symmetry and `split_into_batches` returns a partial batch of 8
lanes, the n mod 8 tail symmetries in order followed by copies of the last
symmetry, and records n mod 8 as the number of real lanes; if n mod 8 is 0
it returns no partial batch and records 0. -/
theorem C21_partial_batch {Sym : Type} (symmetries : List Sym) :
    (symmetries.length % 8 ≠ 0 →
        ∃ last, symmetries.getLast? = some last ∧
          (split_into_batches symmetries).2.1
            = some (symmetries.drop (symmetries.length - symmetries.length % 8)
                ++ List.replicate (8 - symmetries.length % 8) last) ∧
          (symmetries.drop (symmetries.length - symmetries.length % 8)).length
            = symmetries.length % 8 ∧
          (split_into_batches symmetries).2.2 = symmetries.length % 8) ∧
      (symmetries.length % 8 = 0 →
        (split_into_batches symmetries).2.1 = none ∧ (split_into_batches symmetries).2.2 = 0) := by
  obtain ⟨hoff, _⟩ := split_into_batches_full_offset symmetries
  unfold split_into_batches
  simp only
  rw [hoff]
  constructor
  · intro hmod
    have hlt : symmetries.length - symmetries.length % 8 < symmetries.length := by omega
    have hlast := getLast?_drop_of_lt symmetries _ hlt
    have hlen : (symmetries.drop (symmetries.length - symmetries.length % 8)).length
        = symmetries.length % 8 := by
      rw [List.length_drop]; omega
    cases hl : symmetries.getLast? with
    | none =>
      rw [List.getLast?_eq_none_iff] at hl
      rw [hl] at hmod
      simp at hmod
    | some last =>
      rw [hl] at hlast
      refine ⟨last, rfl, ?_, hlen, ?_⟩
      · rw [hlast]
        show some (split_into_batches_pad last batch_size
          (symmetries.drop (symmetries.length - symmetries.length % 8))) = _
        rw [split_into_batches_pad_eq last batch_size _ (by rw [hlen]; unfold batch_size; omega)
          (by omega), hlen]
        rfl
      · rw [hlast]
        exact hlen
  · intro hmod
    have hnil : symmetries.drop (symmetries.length - symmetries.length % 8) = [] := by
      rw [hmod, Nat.sub_zero]
      exact List.drop_length symmetries
    rw [hnil]
    exact ⟨rfl, rfl⟩

/-- C21 for the list of three symmetries 10, 20, 30. -/
theorem C21_partial_batch_witness :
    ([10, 20, 30] : List Nat).length % 8 ≠ 0 ∧
      ∃ last, ([10, 20, 30] : List Nat).getLast? = some last ∧
        (split_into_batches [10, 20, 30]).2.1
          = some (([10, 20, 30] : List Nat).drop
                (([10, 20, 30] : List Nat).length - ([10, 20, 30] : List Nat).length % 8)
              ++ List.replicate (8 - ([10, 20, 30] : List Nat).length % 8) last) ∧
        (([10, 20, 30] : List Nat).drop
            (([10, 20, 30] : List Nat).length - ([10, 20, 30] : List Nat).length % 8)).length
          = ([10, 20, 30] : List Nat).length % 8 ∧
        (split_into_batches [10, 20, 30]).2.2 = ([10, 20, 30] : List Nat).length % 8 :=
  ⟨by decide, (C21_partial_batch [10, 20, 30]).1 (by decide)⟩

/-- The real lanes of the table `split_into_batches` makes are the input
symmetries, once each and in order. -/
theorem split_into_batches_lanes {Sym : Type} (symmetries : List Sym) :
    (split_into_batches symmetries).1.flatten
        ++ ((split_into_batches symmetries).2.1.getD []).take (split_into_batches symmetries).2.2
      = symmetries := by
  obtain ⟨hoff, _⟩ := split_into_batches_full_offset symmetries
  have hflat := split_into_batches_full_flatten symmetries symmetries.length 0 [] rfl
  unfold split_into_batches
  simp only
  cases hlast : (symmetries.drop
      (split_into_batches_full symmetries symmetries.length 0 []).2).getLast? with
  | none =>
    have hnil := List.getLast?_eq_none_iff.mp hlast
    show (split_into_batches_full symmetries symmetries.length 0 []).1.flatten
      ++ (([] : List Sym)).take 0 = symmetries
    rw [hflat, List.take_zero, List.append_nil]
    conv_rhs => rw [← List.take_append_drop
      (split_into_batches_full symmetries symmetries.length 0 []).2 symmetries, hnil,
      List.append_nil]
  | some s =>
    have hlen : (symmetries.drop
        (split_into_batches_full symmetries symmetries.length 0 []).2).length ≤ batch_size := by
      rw [List.length_drop, hoff]; unfold batch_size; omega
    show (split_into_batches_full symmetries symmetries.length 0 []).1.flatten
      ++ (split_into_batches_pad s batch_size
            (symmetries.drop (split_into_batches_full symmetries symmetries.length 0 []).2)).take
          (symmetries.drop (split_into_batches_full symmetries symmetries.length 0 []).2).length
      = symmetries
    rw [split_into_batches_pad_eq s batch_size _ hlen (by omega), List.take_left, hflat,
      List.take_append_drop]

/-- The real lanes of a small basis made from a group are the symmetries of
the group. -/
theorem small_create_lanes {Sym : Type} (group : ls_group Sym) :
    (small_basis_t.create group).lanes = group.symmetries :=
  split_into_batches_lanes group.symmetries

/-! ## The created basis and the handle without a cache: properties -/

/-! The basis `ls_create_spin_basis` stores. -/

/-- The group a created basis is made from: the trivial group when the
group is empty and spin inversion is on, otherwise the group handed over. -/
theorem ls_create_spin_basis_stored {Sym : Type} (env : collaborators Sym)
    (group : ls_group Sym) (n : Nat) (h sigma : Int) (code : ls_error_code)
    (basis : ls_spin_basis Sym)
    (hb : ls_create_spin_basis env group n h sigma = some (code, some basis)) :
    code = LS_SUCCESS ∧ basis.header.number_spins = n ∧ basis.header.spin_inversion = sigma ∧
      basis.header.hamming_weight = (if h = -1 then none else some h.toNat) ∧
      (basis.header.has_symmetries = true ↔
        (ls_get_group_size
            (if ls_get_group_size group = 0 ∧ sigma ≠ 0 then (ls_create_trivial_group env n).2
              else group) > 1 ∨ sigma ≠ 0)) ∧
      basis.payload =
        (if n > 64 then
          basis_payload.big (big_basis_t.create
            (if ls_get_group_size group = 0 ∧ sigma ≠ 0 then (ls_create_trivial_group env n).2
              else group))
        else
          basis_payload.small (small_basis_t.create
            (if ls_get_group_size group = 0 ∧ sigma ≠ 0 then (ls_create_trivial_group env n).2
              else group))) := by
  unfold ls_create_spin_basis at hb
  by_cases h1 : n = 0 ∨ n > 512
  · rw [if_pos h1] at hb; simp at hb
  rw [if_neg h1] at hb
  by_cases h2 : group.number_spins ≠ -1 ∧ n ≠ (group.number_spins % (U32 : Int)).toNat
  · rw [if_pos h2] at hb; simp at hb
  rw [if_neg h2] at hb
  by_cases h3 : ¬ (h = -1 ∨ (0 ≤ h ∧ h ≤ (n : Int)))
  · rw [if_pos h3] at hb; simp at hb
  rw [if_neg h3] at hb
  by_cases h4 : sigma ≠ -1 ∧ sigma ≠ 0 ∧ sigma ≠ 1
  · rw [if_pos h4] at hb; simp at hb
  rw [if_neg h4] at hb
  by_cases h5 : sigma ≠ 0 ∧ h ≠ -1 ∧ 2 * h ≠ (n : Int)
  · rw [if_pos h5] at hb; simp at hb
  rw [if_neg h5] at hb
  have ht : ¬ ((decide (ls_get_group_size group = 0 ∧ sigma ≠ 0)) = true ∧
      (ls_create_trivial_group env n).1 ≠ LS_SUCCESS) := by
    rintro ⟨_, hc⟩
    exact hc rfl
  simp only [] at hb
  rw [if_neg ht] at hb
  simp only [Option.some.injEq, Prod.mk.injEq] at hb
  obtain ⟨hcode, hb⟩ := hb
  subst hb
  refine ⟨hcode.symm, rfl, rfl, rfl, ?_, ?_⟩
  · by_cases hg : ls_get_group_size group = 0 ∧ sigma ≠ 0
    · simp [hg]
    · simp [hg]
  · by_cases hg : ls_get_group_size group = 0 ∧ sigma ≠ 0
    · by_cases hn : n > 64
      · simp [hg, hn]
      · simp [hg, hn]
    · by_cases hn : n > 64
      · simp [hg, hn]
      · simp [hg, hn]

/-- C22: on every basis `ls_create_spin_basis` stores, `ls_has_symmetries` is
true iff the group handed over has more than one element or sigma is not 0;
when the group is empty and sigma is not 0 the table is that of the trivial
group, the identity alone, and the flag is true; otherwise the table is
that of the group handed over. -/
theorem C22_has_symmetries {Sym : Type} (env : collaborators Sym) (group : ls_group Sym)
    (n : Nat) (h sigma : Int) (basis : ls_spin_basis Sym)
    (hb : ls_create_spin_basis env group n h sigma = some (LS_SUCCESS, some basis)) :
    (ls_has_symmetries basis = true ↔ (ls_get_group_size group > 1 ∨ sigma ≠ 0)) ∧
      (ls_get_group_size group = 0 ∧ sigma ≠ 0 →
        table_lanes basis = [env.identity_symmetry n] ∧ ls_has_symmetries basis = true) ∧
      (¬ (ls_get_group_size group = 0 ∧ sigma ≠ 0) → table_lanes basis = group.symmetries) := by
  obtain ⟨_, _, _, _, hsym, hpay⟩ := ls_create_spin_basis_stored env group n h sigma _ basis hb
  have hlanes : table_lanes basis
      = (if ls_get_group_size group = 0 ∧ sigma ≠ 0 then (ls_create_trivial_group env n).2
          else group).symmetries := by
    unfold table_lanes
    rw [hpay]
    by_cases hn : n > 64
    · rw [if_pos hn]; rfl
    · rw [if_neg hn]; exact small_create_lanes _
  have hiff : ls_has_symmetries basis = true ↔ (ls_get_group_size group > 1 ∨ sigma ≠ 0) := by
    unfold ls_has_symmetries
    rw [hsym]
    by_cases hg : ls_get_group_size group = 0 ∧ sigma ≠ 0
    · rw [if_pos hg]
      constructor
      · intro _; exact Or.inr hg.2
      · intro _; exact Or.inr hg.2
    · rw [if_neg hg]
  refine ⟨hiff, ?_, ?_⟩
  · intro hg
    rw [hlanes, if_pos hg]
    exact ⟨rfl, hiff.mpr (Or.inr hg.2)⟩
  · intro hg
    rw [hlanes, if_neg hg]

/-- C22 for the empty group on 4 spins with h = 2 and sigma = 1, where the
trivial group takes the place of the group. -/
theorem C22_has_symmetries_witness :
    ls_create_spin_basis sample_env { number_spins := 4, symmetries := [] } 4 2 1
        = some (LS_SUCCESS,
            some { header := { refcount := 1, number_spins := 4, hamming_weight := some 2,
                               spin_inversion := 1, has_symmetries := true },
                   payload := basis_payload.small
                     (small_basis_t.create { number_spins := 4, symmetries := [()] }) }) ∧
      ((ls_has_symmetries
            ({ header := { refcount := 1, number_spins := 4, hamming_weight := some 2,
                           spin_inversion := 1, has_symmetries := true },
               payload := basis_payload.small
                 (small_basis_t.create { number_spins := 4, symmetries := [()] }) } :
              ls_spin_basis Unit) = true ↔
          (ls_get_group_size ({ number_spins := 4, symmetries := [] } : ls_group Unit) > 1 ∨
            (1 : Int) ≠ 0)) ∧
        (ls_get_group_size ({ number_spins := 4, symmetries := [] } : ls_group Unit) = 0 ∧
            (1 : Int) ≠ 0 →
          table_lanes
              ({ header := { refcount := 1, number_spins := 4, hamming_weight := some 2,
                             spin_inversion := 1, has_symmetries := true },
                 payload := basis_payload.small
                   (small_basis_t.create { number_spins := 4, symmetries := [()] }) } :
                ls_spin_basis Unit) = [sample_env.identity_symmetry 4] ∧
            ls_has_symmetries
              ({ header := { refcount := 1, number_spins := 4, hamming_weight := some 2,
                             spin_inversion := 1, has_symmetries := true },
                 payload := basis_payload.small
                   (small_basis_t.create { number_spins := 4, symmetries := [()] }) } :
                ls_spin_basis Unit) = true) ∧
        (¬ (ls_get_group_size ({ number_spins := 4, symmetries := [] } : ls_group Unit) = 0 ∧
            (1 : Int) ≠ 0) →
          table_lanes
              ({ header := { refcount := 1, number_spins := 4, hamming_weight := some 2,
                             spin_inversion := 1, has_symmetries := true },
                 payload := basis_payload.small
                   (small_basis_t.create { number_spins := 4, symmetries := [()] }) } :
                ls_spin_basis Unit)
            = ({ number_spins := 4, symmetries := [] } : ls_group Unit).symmetries)) :=
  ⟨rfl, C22_has_symmetries sample_env { number_spins := 4, symmetries := [] } 4 2 1 _ rfl⟩

/-- C23: on every basis `ls_create_spin_basis` stores for N spins, the payload
is the small variant iff N <= 64 and the big variant iff N > 64, and
`ls_get_number_bits` returns 64 in the first case and 512 in the second. -/
theorem C23_storage_width {Sym : Type} (env : collaborators Sym) (group : ls_group Sym)
    (n : Nat) (h sigma : Int) (basis : ls_spin_basis Sym)
    (hb : ls_create_spin_basis env group n h sigma = some (LS_SUCCESS, some basis)) :
    ((∃ p, basis.payload = basis_payload.small p) ↔ n ≤ 64) ∧
      ((∃ b, basis.payload = basis_payload.big b) ↔ 64 < n) ∧
      ls_get_number_bits basis = (if n ≤ 64 then 64 else 512) ∧
      basis.header.number_spins = n := by
  obtain ⟨_, hspins, _, _, _, hpay⟩ := ls_create_spin_basis_stored env group n h sigma _ basis hb
  by_cases hn : n > 64
  · rw [if_pos hn] at hpay
    have hbits : ls_get_number_bits basis = 512 := by
      unfold ls_get_number_bits; rw [hpay]
    refine ⟨?_, ?_, ?_, hspins⟩
    · constructor
      · rintro ⟨p, hp⟩; rw [hpay] at hp; cases hp
      · intro hle; omega
    · exact ⟨fun _ => hn, fun _ => ⟨_, hpay⟩⟩
    · rw [hbits, if_neg (by omega)]
  · rw [if_neg hn] at hpay
    have hbits : ls_get_number_bits basis = 64 := by
      unfold ls_get_number_bits; rw [hpay]
    refine ⟨?_, ?_, ?_, hspins⟩
    · exact ⟨fun _ => by omega, fun _ => ⟨_, hpay⟩⟩
    · constructor
      · rintro ⟨b, hb⟩; rw [hpay] at hb; cases hb
      · intro hlt; omega
    · rw [hbits, if_pos (by omega)]

/-- C23 for the group of two symmetries on 65 spins, which gives a big
basis. -/
theorem C23_storage_width_witness :
    ls_create_spin_basis sample_env { number_spins := 65, symmetries := [(), ()] } 65 (-1) 0
        = some (LS_SUCCESS,
            some { header := { refcount := 1, number_spins := 65, hamming_weight := none,
                               spin_inversion := 0, has_symmetries := true },
                   payload := basis_payload.big { symmetries := [(), ()] } }) ∧
      (((∃ p, basis_payload.big ({ symmetries := [(), ()] } : big_basis_t Unit)
            = basis_payload.small p) ↔ 65 ≤ 64) ∧
        ((∃ b, basis_payload.big ({ symmetries := [(), ()] } : big_basis_t Unit)
            = basis_payload.big b) ↔ 64 < 65) ∧
        ls_get_number_bits
            ({ header := { refcount := 1, number_spins := 65, hamming_weight := none,
                           spin_inversion := 0, has_symmetries := true },
               payload := basis_payload.big { symmetries := [(), ()] } } : ls_spin_basis Unit)
          = (if 65 ≤ 64 then 64 else 512) ∧
        (65 : Nat) = 65) :=
  have hb : ls_create_spin_basis sample_env { number_spins := 65, symmetries := [(), ()] } 65
      (-1) 0
      = some (LS_SUCCESS,
          some { header := { refcount := 1, number_spins := 65, hamming_weight := none,
                             spin_inversion := 0, has_symmetries := true },
                 payload := basis_payload.big { symmetries := [(), ()] } }) := rfl
  ⟨hb,
    C23_storage_width sample_env { number_spins := 65, symmetries := [(), ()] } 65 (-1) 0 _ hb⟩

/-- C28: on every small basis without a cache, `ls_get_number_states`,
`ls_get_index`, `ls_get_states` and `ls_save_cache` each return
`LS_CACHE_NOT_BUILT`, hand out nothing and leave the basis, still without a
cache, as it was; on a big basis each returns `LS_WRONG_BASIS_TYPE`, whether
or not a cache could exist. -/
theorem C28_cache_not_built {Sym : Type} (env : collaborators Sym) (header : basis_base_t)
    (p : small_basis_t Sym) (big : big_basis_t Sym) (x : Nat) (filename : String)
    (hp : p.cache = none) :
    ls_get_number_states { header := header, payload := basis_payload.small p }
        = (LS_CACHE_NOT_BUILT, none) ∧
      ls_get_index { header := header, payload := basis_payload.small p } x
        = some (LS_CACHE_NOT_BUILT, none) ∧
      ls_get_states { header := header, payload := basis_payload.small p }
        = (LS_CACHE_NOT_BUILT, none, { header := header, payload := basis_payload.small p }) ∧
      ls_save_cache env { header := header, payload := basis_payload.small p } filename
        = LS_CACHE_NOT_BUILT ∧
      (∀ op ∈ [basis_op.number_states, basis_op.index x, basis_op.states,
          basis_op.save_cache filename],
        basis_step env { header := header, payload := basis_payload.small p } op
          = some (some LS_CACHE_NOT_BUILT,
              { header := header, payload := basis_payload.small p })) ∧
      ls_spin_basis.cache { header := header, payload := basis_payload.small p } = none ∧
      (∀ op ∈ [basis_op.number_states, basis_op.index x, basis_op.states,
          basis_op.save_cache filename],
        basis_step env { header := header, payload := basis_payload.big big } op
          = some (some LS_WRONG_BASIS_TYPE,
              { header := header, payload := basis_payload.big big })) := by
  have h1 : ls_get_number_states { header := header, payload := basis_payload.small p }
      = (LS_CACHE_NOT_BUILT, none) := by
    simp only [ls_get_number_states, hp]
  have h2 : ls_get_index { header := header, payload := basis_payload.small p } x
      = some (LS_CACHE_NOT_BUILT, none) := by
    simp only [ls_get_index, hp]
  have h3 : ls_get_states { header := header, payload := basis_payload.small p }
      = (LS_CACHE_NOT_BUILT, none, { header := header, payload := basis_payload.small p }) := by
    simp only [ls_get_states, hp]
  have h4 : ls_save_cache env { header := header, payload := basis_payload.small p } filename
      = LS_CACHE_NOT_BUILT := by
    simp only [ls_save_cache, hp]
  refine ⟨h1, h2, h3, h4, ?_, hp, ?_⟩
  · intro op hop
    simp only [List.mem_cons, List.mem_singleton, List.not_mem_nil, or_false] at hop
    rcases hop with rfl | rfl | rfl | rfl
    · simp only [basis_step, h1]
    · simp only [basis_step, h2, Option.map_some']
    · simp only [basis_step, h3]
    · simp only [basis_step, h4]
  · intro op hop
    simp only [List.mem_cons, List.mem_singleton, List.not_mem_nil, or_false] at hop
    rcases hop with rfl | rfl | rfl | rfl <;> rfl

/-- C28 on the two-spin basis without a cache. -/
theorem C28_cache_not_built_witness :
    (small_basis_t.mk ([] : List (List Unit)) none 0 none).cache = none ∧
      ls_get_number_states
          ({ header := sample_basis.header,
             payload := basis_payload.small (small_basis_t.mk [] none 0 none) } :
            ls_spin_basis Unit)
        = (LS_CACHE_NOT_BUILT, none) :=
  ⟨rfl,
    (C28_cache_not_built sample_env sample_basis.header (small_basis_t.mk [] none 0 none)
      { symmetries := [] } 3 "cache.bin" rfl).1⟩

/-! ## The trivial basis -/

/-! The cache of the trivial basis. -/

/-- The cache built by enumeration for a valid request: the representatives
of the sector and the buckets made from them. -/
theorem basis_cache_create_eq (get_state_info : Nat → Nat × Bool) {n : Nat}
    (h : Option Nat) (max_threads : Nat) (hn0 : 0 < n) (hn : n ≤ 64)
    (hh : ∀ k, h = some k → k ≤ n) :
    basis_cache_t.create get_state_info n h max_threads []
      = some { _states := representatives get_state_info n h,
               _ranges := generate_ranges_loop (2 ^ 16 - 1) (2 ^ 16) 0 0
                 (representatives get_state_info n h) } := by
  unfold basis_cache_t.create
  simp only [List.isEmpty_nil, if_true]
  rw [generate_states_eq get_state_info h max_threads hn0 hn hh, Option.some_bind]
  unfold basis_cache_t.of_states
  rw [generate_ranges_bits]
  rfl

/-- With an engine that reports every state as its own representative with
positive norm and no Hamming weight, the representatives are all words of
`n` bits. -/
theorem representatives_all (get_state_info : Nat → Nat × Bool) (n : Nat)
    (hall : ∀ x, get_state_info x = (x, true)) :
    representatives get_state_info n none = List.range (2 ^ n) := by
  unfold representatives sector_states
  have hsector : ((List.range (2 ^ n)).filter fun x =>
      match (none : Option Nat) with
      | none => true
      | some h => decide (popcount x = h)) = List.range (2 ^ n) :=
    List.filter_eq_self.mpr (by intro a _; rfl)
  rw [hsector, List.filter_eq_self]
  intro a _
  unfold is_pushed
  rw [hall a]
  simp

theorem range_add_two (k : Nat) : List.range (k + 2) = 0 :: 1 :: List.range' 2 k := by
  rw [List.range_eq_range', List.range'_succ, List.range'_succ]

/-- On a list that starts with 0 and 1, bucket 0 is closed after the entry
0, and `index(65536)`, whose key is 0, finds nothing. -/
theorem index_misses_65536 (rest : List Nat) :
    ({ _states := 0 :: 1 :: rest,
       _ranges := generate_ranges_loop (2 ^ 16 - 1) (2 ^ 16) 0 0 (0 :: 1 :: rest) } :
        basis_cache_t).index 65536 = index_result.failure LS_NOT_A_REPRESENTATIVE := by
  have hloop : generate_ranges_loop (2 ^ 16 - 1) (2 ^ 16) 0 0 (0 :: 1 :: rest)
      = (0, 1) :: generate_ranges_loop (2 ^ 16 - 1) 65535 1 1 (1 :: rest) := by
    have e : (2 ^ 16 : Nat) = 65535 + 1 := by norm_num
    rw [e, generate_ranges_loop]
    have h0 : (0 : Nat) &&& (65535 + 1 - 1) = 0 := by decide
    rw [if_pos h0]
    have hscan : generate_ranges_scan (65535 + 1 - 1) 0 (1 :: rest) 1 = (1 :: rest, 1) := by
      rw [generate_ranges_scan]
      have h1 : ¬ ((1 : Nat) &&& (65535 + 1 - 1) = 0) := by decide
      rw [if_neg h1]
    simp only [hscan]
  unfold basis_cache_t.index basis_cache_t.bits
  have hkey : (65536 : Nat) &&& ((1 <<< 16) - 1) = 0 := by decide
  simp only [hkey, hloop, List.getD_cons_zero]
  have hlb : lower_bound (0 :: 1 :: rest) 0 1 65536 = 1 := by
    unfold lower_bound
    rw [lower_bound_loop]
    simp [lower_bound_loop]
  rw [hlb]
  simp

/-- The cache of the trivial basis on more than 16 spins holds every word of
`n` bits and `index` misses the representative 65536. -/
theorem trivial_cache_index_misses (get_state_info : Nat → Nat × Bool) (n max_threads : Nat)
    (hall : ∀ x, get_state_info x = (x, true)) (hn16 : 16 < n) (hn : n ≤ 64) :
    ∃ c, basis_cache_t.create get_state_info n none max_threads [] = some c ∧
      c.states = List.range (2 ^ n) ∧ 65536 ∈ c.states ∧
      c.index 65536 = index_result.failure LS_NOT_A_REPRESENTATIVE := by
  have hpow : 2 ^ 17 ≤ 2 ^ n := Nat.pow_le_pow_right (by omega) (by omega)
  have hsplit : 2 ^ n = (2 ^ n - 2) + 2 := by
    have : (2 : Nat) ^ 17 = 131072 := by norm_num
    omega
  refine ⟨_, basis_cache_create_eq get_state_info none max_threads (by omega) hn (by simp),
    representatives_all get_state_info n hall, ?_, ?_⟩
  · show 65536 ∈ representatives get_state_info n none
    rw [representatives_all get_state_info n hall, List.mem_range]
    have : (2 : Nat) ^ 17 = 131072 := by norm_num
    omega
  · rw [representatives_all get_state_info n hall, hsplit, range_add_two]
    exact index_misses_65536 _

/-- On a small basis without a cache `ls_build` builds the cache. -/
theorem ls_build_no_cache {Sym : Type} (env : collaborators Sym) (header : basis_base_t)
    (p : small_basis_t Sym) (hp : p.cache = none) :
    ls_build env { header := header, payload := basis_payload.small p }
      = (basis_cache_t.of_basis env header p []).map fun c =>
          (LS_SUCCESS,
            { header := header, payload := basis_payload.small { p with cache := some c } }) := by
  simp only [ls_build, hp]

/-- C24 (the claim fails above 16 spins): for the basis created on 17 spins
from the identity-only group, without Hamming weight and with sigma = 0,
and an engine that reports every state as its own representative with
positive norm, `ls_build` succeeds and the cache holds R = [0, 1, ...,
2^17 - 1], yet `ls_get_index` of the 17-bit word 65536, which is in R,
returns `LS_NOT_A_REPRESENTATIVE` and not the position 65536. -/
theorem C24_trivial_basis_index_misses :
    ∃ basis built c,
      ls_create_spin_basis sample_env { number_spins := 17, symmetries := [()] } 17 (-1) 0
          = some (LS_SUCCESS, some basis) ∧
        ls_build sample_env basis = some (LS_SUCCESS, built) ∧
        built.cache = some c ∧ c.states = List.range (2 ^ 17) ∧ 65536 ∈ c.states ∧
        65536 < 2 ^ 17 ∧
        ls_get_index built 65536 = some (LS_NOT_A_REPRESENTATIVE, none) := by
  obtain ⟨c, hc, hstates, hmem, hidx⟩ :=
    trivial_cache_index_misses (fun x => (x, true)) 17 1 (fun _ => rfl) (by decide) (by decide)
  have hcreate : ls_create_spin_basis sample_env { number_spins := 17, symmetries := [()] } 17
      (-1) 0
      = some (LS_SUCCESS,
          some { header := { refcount := 1, number_spins := 17, hamming_weight := none,
                             spin_inversion := 0, has_symmetries := false },
                 payload := basis_payload.small
                   (small_basis_t.create { number_spins := 17, symmetries := [()] }) }) := rfl
  have hc1 : basis_cache_t.of_basis sample_env
      { refcount := 1, number_spins := 17, hamming_weight := none, spin_inversion := 0,
        has_symmetries := false }
      (small_basis_t.create { number_spins := 17, symmetries := [()] }) [] = some c := hc
  refine ⟨_, { header := { refcount := 1, number_spins := 17, hamming_weight := none,
                           spin_inversion := 0, has_symmetries := false },
               payload := basis_payload.small
                 { small_basis_t.create { number_spins := 17, symmetries := [()] } with
                   cache := some c } },
    c, hcreate, ?_, rfl, hstates, hmem, by decide, ?_⟩
  · rw [ls_build_no_cache sample_env _ _ rfl, hc1]
    rfl
  · show c.index_code 65536 = _
    unfold basis_cache_t.index_code
    rw [hidx]

/-! ## Boundary cases of the enumeration -/

/-! The sector of Hamming weight 0 and the empty group. -/

theorem sector_states_zero {n : Nat} (hn : n ≤ 64) : sector_states n (some 0) = [0] := by
  have hb := states_between_bounds (some 0) hn (by intro k hk; cases hk; omega)
  have hbounds : get_bounds n (some 0) = (0, 0) := by simp [get_bounds]
  rw [hbounds] at hb
  rw [← hb]
  exact states_between_single _ _ (by decide)

/-- C25 (the claim fails for a table whose characters sum to zero): on the
small basis on two spins with Hamming weight 0 made from the identity, of
character 1, and the exchange, of character -1, the state-info algorithm of
the spec reports state 0 with representative 0 and norm 0, so state 0 is
not pushed: `ls_build` succeeds and the cache holds R = [], not [0]. -/
theorem C25_zero_state_of_zero_norm :
    state_info sample_ops 64 [sample_identity, sample_swap] 0 0 0 = (0, (1, 0), 0) ∧
      ((ls_create_spin_basis sample_engine_env
            { number_spins := 2, symmetries := [sample_identity, sample_swap] } 2 0 0).bind
          fun r => r.2.bind fun basis =>
            (ls_build sample_engine_env basis).bind fun built =>
              built.2.cache.map fun c => (built.1, c.states, c.number_states))
        = some (LS_SUCCESS, [], 0) ∧
      ([] : List Nat) ≠ [0] := by
  refine ⟨by decide, by decide, by decide⟩

/-- C25 (amended): on every small basis without a cache, on 1 to 64 spins and
with Hamming weight 0, whatever its symmetry table, `ls_build` succeeds and
the cache holds R = [0] if the state-info engine reports state 0 as its own
representative with positive norm, and R = [] otherwise. -/
theorem C25_zero_weight_enumeration {Sym : Type} (env : collaborators Sym)
    (header : basis_base_t) (p : small_basis_t Sym) (hp : p.cache = none)
    (hh : header.hamming_weight = some 0) (hn0 : 0 < header.number_spins)
    (hn : header.number_spins ≤ 64) :
    ∃ c, ls_build env { header := header, payload := basis_payload.small p }
        = some (LS_SUCCESS,
            { header := header, payload := basis_payload.small { p with cache := some c } }) ∧
      c.states
        = (if is_pushed (env.get_state_info p.batched_symmetries p.other_symmetries
              p.number_other_symmetries) 0 = true then [0] else []) := by
  have hc := basis_cache_create_eq
    (env.get_state_info p.batched_symmetries p.other_symmetries p.number_other_symmetries)
    (some 0) env.omp_get_max_threads hn0 hn (by intro k hk; cases hk; omega)
  refine ⟨{ _states := representatives
              (env.get_state_info p.batched_symmetries p.other_symmetries
                p.number_other_symmetries) header.number_spins (some 0),
            _ranges := generate_ranges_loop (2 ^ 16 - 1) (2 ^ 16) 0 0
              (representatives
                (env.get_state_info p.batched_symmetries p.other_symmetries
                  p.number_other_symmetries) header.number_spins (some 0)) }, ?_, ?_⟩
  · rw [ls_build_no_cache env header p hp]
    unfold basis_cache_t.of_basis
    rw [hh, hc]
    rfl
  · show representatives _ header.number_spins (some 0) = _
    unfold representatives
    rw [sector_states_zero hn]
    by_cases hpush : is_pushed (env.get_state_info p.batched_symmetries p.other_symmetries
        p.number_other_symmetries) 0 = true
    · rw [if_pos hpush, List.filter_cons_of_pos hpush, List.filter_nil]
    · rw [if_neg hpush, List.filter_cons_of_neg hpush, List.filter_nil]

/-- C25 (amended) on the basis on two spins with Hamming weight 0 and no
symmetries, with an engine that reports every state as its own
representative with positive norm: R = [0]. -/
theorem C25_zero_weight_enumeration_witness :
    (small_basis_t.mk ([] : List (List Unit)) none 0 none).cache = none ∧
      ({ refcount := 1, number_spins := 2, hamming_weight := some 0, spin_inversion := 0,
         has_symmetries := false } : basis_base_t).hamming_weight = some 0 ∧
      0 < ({ refcount := 1, number_spins := 2, hamming_weight := some 0, spin_inversion := 0,
             has_symmetries := false } : basis_base_t).number_spins ∧
      ({ refcount := 1, number_spins := 2, hamming_weight := some 0, spin_inversion := 0,
         has_symmetries := false } : basis_base_t).number_spins ≤ 64 ∧
      ∃ c, ls_build sample_env
          { header := { refcount := 1, number_spins := 2, hamming_weight := some 0,
                        spin_inversion := 0, has_symmetries := false },
            payload := basis_payload.small (small_basis_t.mk [] none 0 none) }
          = some (LS_SUCCESS,
              { header := { refcount := 1, number_spins := 2, hamming_weight := some 0,
                            spin_inversion := 0, has_symmetries := false },
                payload := basis_payload.small
                  { small_basis_t.mk ([] : List (List Unit)) none 0 none with
                    cache := some c } }) ∧
        c.states
          = (if is_pushed (sample_env.get_state_info
                (small_basis_t.mk ([] : List (List Unit)) none 0 none).batched_symmetries
                (small_basis_t.mk ([] : List (List Unit)) none 0 none).other_symmetries
                (small_basis_t.mk ([] : List (List Unit)) none 0 none).number_other_symmetries)
              0 = true then [0] else []) :=
  ⟨rfl, rfl, by decide, by decide,
    C25_zero_weight_enumeration sample_env
      { refcount := 1, number_spins := 2, hamming_weight := some 0, spin_inversion := 0,
        has_symmetries := false }
      (small_basis_t.mk [] none 0 none) rfl rfl (by decide) (by decide)⟩

/-- The lanes of the partial batch, padding included, are symmetries of the
input, and every symmetry of the input is a lane of a full batch or of the
partial batch. -/
theorem split_into_batches_mem {Sym : Type} (symmetries : List Sym) (s : Sym) :
    s ∈ symmetries ↔
      (∃ b ∈ (split_into_batches symmetries).1, s ∈ b) ∨
        s ∈ (split_into_batches symmetries).2.1.getD [] := by
  have hlanes := split_into_batches_lanes symmetries
  have hflat : (∃ b ∈ (split_into_batches symmetries).1, s ∈ b)
      ↔ s ∈ (split_into_batches symmetries).1.flatten := by
    rw [List.mem_flatten]
  rw [hflat]
  constructor
  · intro hs
    rw [← hlanes, List.mem_append] at hs
    rcases hs with h | h
    · exact Or.inl h
    · exact Or.inr (List.mem_of_mem_take h)
  · rintro (h | h)
    · rw [← hlanes]; exact List.mem_append_left _ h
    · revert h
      unfold split_into_batches
      simp only
      cases hlast : (symmetries.drop
          (split_into_batches_full symmetries symmetries.length 0 []).2).getLast? with
      | none => intro h; simp at h
      | some last =>
        have hmem : last ∈ symmetries.drop
            (split_into_batches_full symmetries symmetries.length 0 []).2 :=
          List.mem_of_getLast?_eq_some hlast
        have hlen : (symmetries.drop
            (split_into_batches_full symmetries symmetries.length 0 []).2).length
            ≤ batch_size := by
          rw [List.length_drop, (split_into_batches_full_offset symmetries).1]
          unfold batch_size; omega
        intro h
        have h' : s ∈ split_into_batches_pad last batch_size
            (symmetries.drop (split_into_batches_full symmetries symmetries.length 0 []).2) := h
        rw [split_into_batches_pad_eq last batch_size _ hlen (by omega), List.mem_append] at h'
        rcases h' with h1 | h1
        · exact List.mem_of_mem_drop h1
        · rw [List.eq_of_mem_replicate h1]
          exact List.mem_of_mem_drop hmem

/-- C27: for every basis made from a group, small (with or without a cache)
or big, `is_real` is true iff every symmetry of the group, that is, of the
table, passes the test on the imaginary part of its character; for a small
basis `is_real` is the conjunction of the per-batch test over the full
batches and the partial batch, padding included; a basis made from an empty
group is real. -/
theorem C27_is_real {R : Type} (negligible : R → Bool) (header : basis_base_t)
    (group : ls_group (symmetry_t R)) (cache : Option basis_cache_t)
    (x : small_basis_t (symmetry_t R)) (spins : Int) :
    (is_real negligible
          { header := header,
            payload := basis_payload.small { small_basis_t.create group with cache := cache } }
        = true ↔ ∀ s ∈ group.symmetries, negligible s.eigenvalue_imag = true) ∧
      (is_real negligible
          { header := header, payload := basis_payload.big (big_basis_t.create group) }
        = true ↔ ∀ s ∈ group.symmetries, negligible s.eigenvalue_imag = true) ∧
      table_lanes
          ({ header := header,
             payload := basis_payload.small { small_basis_t.create group with cache := cache } } :
            ls_spin_basis (symmetry_t R)) = group.symmetries ∧
      is_real negligible { header := header, payload := basis_payload.small x }
        = (x.batched_symmetries.all (batch_is_real negligible) &&
            (match x.other_symmetries with
              | some s => batch_is_real negligible s
              | none => true)) ∧
      is_real negligible
          { header := header,
            payload := basis_payload.small
              (small_basis_t.create { number_spins := spins, symmetries := [] }) } = true ∧
      is_real negligible
          { header := header,
            payload := basis_payload.big
              (big_basis_t.create { number_spins := spins, symmetries := [] }) } = true := by
  refine ⟨?_, ?_, small_create_lanes group, rfl, rfl, rfl⟩
  · show ((split_into_batches group.symmetries).1.all (batch_is_real negligible) &&
        (match (split_into_batches group.symmetries).2.1 with
          | some s => batch_is_real negligible s
          | none => true)) = true ↔ _
    have hother : (match (split_into_batches group.symmetries).2.1 with
          | some s => batch_is_real negligible s
          | none => true)
        = ((split_into_batches group.symmetries).2.1.getD []).all
            (symmetry_t.is_real negligible) := by
      cases (split_into_batches group.symmetries).2.1 with
      | none => rfl
      | some o => rfl
    rw [hother, Bool.and_eq_true, List.all_eq_true, List.all_eq_true]
    constructor
    · rintro ⟨h1, h2⟩ s hs
      rcases (split_into_batches_mem group.symmetries s).mp hs with ⟨b, hb, hsb⟩ | h
      · have := h1 b hb
        unfold batch_is_real at this
        rw [List.all_eq_true] at this
        exact this s hsb
      · exact h2 s h
    · intro hall
      refine ⟨?_, ?_⟩
      · intro b hb
        unfold batch_is_real
        rw [List.all_eq_true]
        intro s hs
        exact hall s ((split_into_batches_mem group.symmetries s).mpr (Or.inl ⟨b, hb, hs⟩))
      · intro s hs
        exact hall s ((split_into_batches_mem group.symmetries s).mpr (Or.inr hs))
  · show group.symmetries.all (symmetry_t.is_real negligible) = true ↔ _
    rw [List.all_eq_true]
    rfl

/-! ## The task list: alignment -/

/-! The task list, range by range. -/

/-- What tiling says range by range: the first range starts at `current`, the
last ends at `bound`, every range ends on a state of the sequence between
its start and `bound`, and each next range starts at the successor of the
end before it, which lies above that end. -/
theorem tasks_tile_spec (fhw : Bool) (hw bound : Nat) (hb : bound < U64)
    (hpb : in_sequence fhw hw bound = true) :
    ∀ (ranges : List (Nat × Nat)) (current : Nat),
      tasks_tile fhw hw bound current ranges →
      ranges.head?.map Prod.fst = some current ∧
        ranges.getLast?.map Prod.snd = some bound ∧
        (∀ r ∈ ranges, current ≤ r.1 ∧ r.1 ≤ r.2 ∧ r.2 ≤ bound ∧
          in_sequence fhw hw r.2 = true) ∧
        ∀ i a b, ranges.get? i = some a → ranges.get? (i + 1) = some b →
          b.1 = next_state fhw a.2 ∧ a.2 < b.1 := by
  intro ranges
  induction ranges with
  | nil => intro current h; simp [tasks_tile] at h
  | cons r rest ih =>
    intro current htile
    obtain ⟨a, b⟩ := r
    rw [tasks_tile] at htile
    obtain ⟨ha, hab, hpbb, hrest⟩ := htile
    subst ha
    rcases hrest with ⟨hnil, hbb⟩ | ⟨hlt, htile'⟩
    · subst hnil; subst hbb
      refine ⟨rfl, rfl, ?_, ?_⟩
      · intro r hr
        rw [List.mem_singleton] at hr
        subst hr
        exact ⟨Nat.le_refl _, hab, Nat.le_refl _, hpbb⟩
      · intro i x y _ hy
        simp at hy
    · obtain ⟨h1, h2, h3, _⟩ := next_state_spec hlt hb hpbb hpb
      obtain ⟨ih1, ih2, ih3, ih4⟩ := ih (next_state fhw b) htile'
      have hne : rest ≠ [] := by
        intro hc; rw [hc] at ih1; simp at ih1
      refine ⟨rfl, ?_, ?_, ?_⟩
      · cases rest with
        | nil => exact absurd rfl hne
        | cons y0 rest0 => rw [List.getLast?_cons_cons]; exact ih2
      · intro r hr
        rcases List.mem_cons.mp hr with hr | hr
        · subst hr
          exact ⟨Nat.le_refl _, hab, by omega, hpbb⟩
        · obtain ⟨g1, g2, g3, g4⟩ := ih3 r hr
          exact ⟨by omega, g2, g3, g4⟩
      · intro i x y hx hy
        cases i with
        | zero =>
          simp only [List.get?_cons_zero, Option.some.injEq] at hx
          simp only [Nat.zero_add, List.get?_cons_succ] at hy
          subst hx
          cases rest with
          | nil => exact absurd rfl hne
          | cons y0 rest0 =>
            simp only [List.get?_cons_zero, Option.some.injEq] at hy
            subst hy
            simp only [List.head?_cons, Option.map_some', Option.some.injEq] at ih1
            exact ⟨ih1, by omega⟩
        | succ i =>
          simp only [List.get?_cons_succ] at hx hy
          exact ih4 i x y hx hy

/-- C29: for every N in [1,64], optional Hamming weight h <= N and chunk
size, `split_into_tasks` returns a task list whose first task starts at
x_lo and whose last task ends at x_hi (the bounds of `get_bounds`); the end
of every task is an N-bit word within [x_lo, x_hi], of popcount h when h is
set; every task after the first begins at `next_state` of the end of the
task before it, the Gosper successor when h is set and the end plus one
when it is not. -/
theorem C29_tasks_aligned (n : Nat) (h : Option Nat) (chunk_size : Nat) (hn0 : 0 < n)
    (hn : n ≤ 64) (hh : ∀ k, h = some k → k ≤ n) :
    ∃ ranges, split_into_tasks n h chunk_size = some ranges ∧
      ranges.head?.map Prod.fst = some (get_bounds n h).1 ∧
      ranges.getLast?.map Prod.snd = some (get_bounds n h).2 ∧
      (∀ r ∈ ranges, (get_bounds n h).1 ≤ r.2 ∧ r.2 ≤ (get_bounds n h).2 ∧ r.2 < 2 ^ n ∧
        ∀ k, h = some k → popcount r.2 = k) ∧
      (∀ i a b, ranges.get? i = some a → ranges.get? (i + 1) = some b →
        b.1 = next_state h.isSome a.2 ∧ (h = none → b.1 = a.2 + 1)) := by
  obtain ⟨ranges, _, hr, htile, _, _, _⟩ :=
    enumeration_spec (fun x => (x, true)) h chunk_size hn0 hn hh
  obtain ⟨g1, g2, _, g4, g5, _⟩ := get_bounds_spec h hn hh
  have hU := pow_le_U64 hn
  obtain ⟨t1, t2, t3, t4⟩ :=
    tasks_tile_spec h.isSome (popcount (get_bounds n h).1) (get_bounds n h).2 (by omega) g4
      ranges (get_bounds n h).1 htile
  refine ⟨ranges, hr, t1, t2, ?_, ?_⟩
  · intro r hr
    obtain ⟨r1, r2, r3, r4⟩ := t3 r hr
    refine ⟨by omega, r3, by omega, ?_⟩
    intro k hk
    subst hk
    have := g5 k rfl
    simp [in_sequence] at r4
    omega
  · intro i a b ha hb
    obtain ⟨s1, s2⟩ := t4 i a b ha hb
    refine ⟨s1, ?_⟩
    intro hnone
    subst hnone
    have hbmem : b ∈ ranges := List.get?_mem hb
    obtain ⟨_, r2, r3, _⟩ := t3 b hbmem
    rw [s1]
    show next_state false a.2 = a.2 + 1
    unfold next_state
    simp only [Bool.false_eq_true, if_false]
    exact Nat.mod_eq_of_lt (by omega)

/-- C29 for 4 spins, Hamming weight 2 and chunk size 2. -/
theorem C29_tasks_aligned_witness :
    0 < 4 ∧ 4 ≤ 64 ∧ (∀ k, some 2 = some k → k ≤ 4) ∧
      ∃ ranges, split_into_tasks 4 (some 2) 2 = some ranges ∧
        ranges.head?.map Prod.fst = some (get_bounds 4 (some 2)).1 ∧
        ranges.getLast?.map Prod.snd = some (get_bounds 4 (some 2)).2 ∧
        (∀ r ∈ ranges, (get_bounds 4 (some 2)).1 ≤ r.2 ∧ r.2 ≤ (get_bounds 4 (some 2)).2 ∧
          r.2 < 2 ^ 4 ∧ ∀ k, some 2 = some k → popcount r.2 = k) ∧
        (∀ i a b, ranges.get? i = some a → ranges.get? (i + 1) = some b →
          b.1 = next_state (some 2).isSome a.2 ∧ ((some 2 : Option Nat) = none → b.1 = a.2 + 1)) :=
  ⟨by decide, by decide, by intro k hk; cases hk; decide,
    C29_tasks_aligned 4 (some 2) 2 (by decide) (by decide) (by intro k hk; cases hk; decide)⟩

/-! ## The task list: states per range -/

/-! The number of states in a range. -/

theorem states_between_length_le (fhw : Bool) (hw a b : Nat) :
    (states_between fhw hw a b).length ≤ b - a := by
  unfold states_between
  have h := List.length_filter_le (in_sequence fhw hw) (List.range' a (b - a))
  rw [List.length_range'] at h
  exact h

/-- A range that ends on the first state of the sequence from `target` on
has at most `target - current + 1` states. -/
theorem states_between_count (fhw : Bool) (hw : Nat) {current target next : Nat}
    (hct : current ≤ target) (htn : target ≤ next)
    (hgap : ∀ z, target ≤ z → z < next → in_sequence fhw hw z = false) :
    (states_between fhw hw current (next + 1)).length ≤ target - current + 1 := by
  rw [states_between_append fhw hw hct (show target ≤ next + 1 by omega),
    states_between_append fhw hw htn (show next ≤ next + 1 by omega),
    states_between_eq_nil fhw hw target next hgap, List.length_append, List.length_append,
    List.length_nil]
  have h1 := states_between_length_le fhw hw current target
  have h2 := states_between_length_le fhw hw next (next + 1)
  omega

/-- Every range the loop of `split_into_tasks` makes has at most
`chunk_size + 1` states of the sequence, both ends counted. -/
theorem split_into_tasks_loop_count (fhw : Bool) (hw bound chunk_size : Nat) (hb : bound < U64)
    (hpb : in_sequence fhw hw bound = true) :
    ∀ (fuel current : Nat) (ranges : List (Nat × Nat)), current ≤ bound →
      in_sequence fhw hw current = true →
      split_into_tasks_loop fhw hw bound chunk_size fuel current = some ranges →
      ∀ r ∈ ranges, (states_between fhw hw r.1 (r.2 + 1)).length ≤ chunk_size + 1 := by
  intro fuel
  induction fuel with
  | zero => intro current ranges _ _ h; simp [split_into_tasks_loop] at h
  | succ fuel ih =>
    intro current ranges hle hin hloop
    rw [split_into_tasks_loop] at hloop
    have hsub : (bound + U64 - current) % U64 = bound - current := by
      have : bound + U64 - current = (bound - current) + U64 := by omega
      rw [this, Nat.add_mod_right, Nat.mod_eq_of_lt (by omega)]
    rw [hsub] at hloop
    by_cases hcs : bound - current ≤ chunk_size
    · rw [if_pos hcs] at hloop
      simp only [Option.some.injEq] at hloop
      subst hloop
      intro r hr
      rw [List.mem_singleton] at hr
      subst hr
      have := states_between_length_le fhw hw current (bound + 1)
      show (states_between fhw hw current (bound + 1)).length ≤ chunk_size + 1
      omega
    · rw [if_neg hcs] at hloop
      have htarget : (current + chunk_size) % U64 = current + chunk_size :=
        Nat.mod_eq_of_lt (by omega)
      have hnext : ∃ next, (if fhw = true then closest_hamming ((current + chunk_size) % U64) hw
            else some ((current + chunk_size) % U64)) = some next ∧
          current + chunk_size ≤ next ∧ next ≤ bound ∧ in_sequence fhw hw next = true ∧
          ∀ z, current + chunk_size ≤ z → z < next → in_sequence fhw hw z = false := by
        rw [htarget]
        cases fhw with
        | false =>
          refine ⟨current + chunk_size, by simp, by omega, by omega, by simp [in_sequence], ?_⟩
          intro z h1 h2; omega
        | true =>
          rw [in_sequence_iff hb] at hpb
          obtain ⟨y, hy1, hy2, hy3, hy4, hy5⟩ :=
            closest_hamming_spec (show current + chunk_size < U64 by omega)
              (show current + chunk_size ≤ bound by omega) hb (hpb rfl)
          refine ⟨y, by simpa using hy1, hy2, hy3, ?_, ?_⟩
          · rw [in_sequence_iff (by omega)]
            intro _; exact hy4
          · intro z hz1 hz2
            cases hz : in_sequence true hw z with
            | false => rfl
            | true =>
              rw [in_sequence_iff (show z < U64 by omega)] at hz
              exact absurd (hz rfl) (hy5 z hz1 hz2)
      obtain ⟨next, hn1, hn2, hn3, hn4, hn5⟩ := hnext
      have hcount : (states_between fhw hw current (next + 1)).length ≤ chunk_size + 1 := by
        have := states_between_count fhw hw (show current ≤ current + chunk_size by omega)
          hn2 hn5
        omega
      simp only [hn1] at hloop
      rw [if_neg (by omega)] at hloop
      by_cases hnb : next ≥ bound
      · rw [if_pos hnb] at hloop
        simp only [Option.some.injEq] at hloop
        subst hloop
        intro r hr
        rw [List.mem_singleton] at hr
        subst hr
        have hnb' : next = bound := by omega
        rw [hnb'] at hcount
        exact hcount
      · rw [if_neg hnb] at hloop
        obtain ⟨h1, h2, h3, _⟩ := next_state_spec (show next < bound by omega) hb hn4 hpb
        cases hrec : split_into_tasks_loop fhw hw bound chunk_size fuel (next_state fhw next) with
        | none => rw [hrec] at hloop; simp at hloop
        | some rest =>
          rw [hrec] at hloop
          simp only [Option.map_some', Option.some.injEq] at hloop
          subst hloop
          intro r hr
          rcases List.mem_cons.mp hr with hr | hr
          · subst hr; exact hcount
          · exact ih (next_state fhw next) rest h2 h3 hrec r hr

/-- C30: for every N in [1,64], optional Hamming weight h <= N and chunk
size C with 1 <= C < 2^32, `split_into_tasks` returns a task list, the task
of every range visits the states of the enumeration sequence from its start
to its end, both included, and these are at most C. -/
theorem C30_tasks_at_most_chunk (n : Nat) (h : Option Nat) (chunk_size : Nat) (hn0 : 0 < n)
    (hn : n ≤ 64) (hh : ∀ k, h = some k → k ≤ n) (hc1 : 1 ≤ chunk_size)
    (hc2 : chunk_size < U32) :
    ∃ ranges, split_into_tasks n h chunk_size = some ranges ∧
      generate_states_chunks h.isSome (fun x => (x, true)) ranges
        = some (ranges.map fun r =>
            states_between h.isSome (popcount (get_bounds n h).1) r.1 (r.2 + 1)) ∧
      ∀ r ∈ ranges,
        (states_between h.isSome (popcount (get_bounds n h).1) r.1 (r.2 + 1)).length
          ≤ chunk_size := by
  obtain ⟨ranges, chunks, hr, _, hchunks, hmap, _⟩ :=
    enumeration_spec (fun x => (x, true)) h chunk_size hn0 hn hh
  obtain ⟨g1, g2, g3, g4, _, _⟩ := get_bounds_spec h hn hh
  have hU := pow_le_U64 hn
  refine ⟨ranges, hr, ?_, ?_⟩
  · rw [hchunks, hmap]
    congr 1
    apply List.map_congr_left
    intro r _
    apply List.filter_eq_self.mpr
    intro a _
    simp [is_pushed]
  · have hloop : split_into_tasks_loop h.isSome (popcount (get_bounds n h).1) (get_bounds n h).2
        (chunk_size - 1) ((get_bounds n h).2 - (get_bounds n h).1 + 1) (get_bounds n h).1
        = some ranges := by
      have hr' := hr
      unfold split_into_tasks at hr'
      rw [if_neg (by omega), if_neg] at hr'
      · unfold split_into_tasks_fhw at hr'
        have hcs : (chunk_size + U32 - 1) % U32 = chunk_size - 1 := by
          have : chunk_size + U32 - 1 = (chunk_size - 1) + U32 := by omega
          rw [this, Nat.add_mod_right, Nat.mod_eq_of_lt (by omega)]
        rw [hcs] at hr'
        exact hr'
      · cases h with
        | none => simp
        | some k => simpa using hh k rfl
    intro r hr
    have := split_into_tasks_loop_count h.isSome (popcount (get_bounds n h).1)
      (get_bounds n h).2 (chunk_size - 1) (by omega) g4 _ _ ranges g1 g3 hloop r hr
    omega

/-- C30 for 4 spins, Hamming weight 2 and chunk size 2. -/
theorem C30_tasks_at_most_chunk_witness :
    0 < 4 ∧ 4 ≤ 64 ∧ (∀ k, some 2 = some k → k ≤ 4) ∧ 1 ≤ 2 ∧ 2 < U32 ∧
      ∃ ranges, split_into_tasks 4 (some 2) 2 = some ranges ∧
        generate_states_chunks (some 2).isSome (fun x => (x, true)) ranges
          = some (ranges.map fun r =>
              states_between (some 2).isSome (popcount (get_bounds 4 (some 2)).1) r.1
                (r.2 + 1)) ∧
        ∀ r ∈ ranges,
          (states_between (some 2).isSome (popcount (get_bounds 4 (some 2)).1) r.1
            (r.2 + 1)).length ≤ 2 :=
  ⟨by decide, by decide, by intro k hk; cases hk; decide, by decide, by decide,
    C30_tasks_at_most_chunk 4 (some 2) 2 (by decide) (by decide)
      (by intro k hk; cases hk; decide) (by decide) (by decide)⟩

/-! ## The bounds of the sector: properties -/

/-! The bounds of the sector. -/

/-- C31: for every N <= 64, `get_bounds` returns (0, 2^N - 1) without a
Hamming weight; with a Hamming weight h <= N it returns x_lo = 2^h - 1,
which is all-ones >> (64 - h), and x_hi = x_lo << (N - h), a shift that stays
within 64 bits; both have popcount h, x_hi is an N-bit word, and every N-bit
word of popcount h lies between them; both are 0 for h = 0 and both are the
all-ones N-bit mask for h = N. -/
theorem C31_get_bounds (n h : Nat) (hn : n ≤ 64) (hh : h ≤ n) :
    get_bounds n none = (0, 2 ^ n - 1) ∧
      get_bounds n (some h) = (2 ^ h - 1, (2 ^ h - 1) <<< (n - h)) ∧
      (U64 - 1) >>> (64 - h) = 2 ^ h - 1 ∧
      (2 ^ h - 1) <<< (n - h) < 2 ^ n ∧ 2 ^ n ≤ U64 ∧
      popcount (2 ^ h - 1) = h ∧ popcount ((2 ^ h - 1) <<< (n - h)) = h ∧
      (∀ x, x < 2 ^ n → popcount x = h → 2 ^ h - 1 ≤ x ∧ x ≤ (2 ^ h - 1) <<< (n - h)) ∧
      (h = 0 → get_bounds n (some h) = (0, 0)) ∧
      (h = n → get_bounds n (some h) = (2 ^ n - 1, 2 ^ n - 1)) := by
  have hU := pow_le_U64 hn
  have hpn : 0 < 2 ^ (n - h) := Nat.two_pow_pos _
  have hph : 0 < 2 ^ h := Nat.two_pow_pos _
  have hsplit : 2 ^ n = 2 ^ (n - h) * 2 ^ h := by
    rw [← pow_add]; congr 1; omega
  have hshift : (2 ^ h - 1) <<< (n - h) = 2 ^ n - 2 ^ (n - h) := by
    rw [Nat.shiftLeft_eq, Nat.sub_mul, Nat.one_mul, hsplit, Nat.mul_comm]
  have hhi : (2 ^ h - 1) <<< (n - h) = 2 ^ (n - h) * (2 ^ h - 1) := by
    rw [Nat.shiftLeft_eq, Nat.mul_comm]
  have hle : 2 ^ (n - h) ≤ 2 ^ n := Nat.pow_le_pow_right (by decide) (by omega)
  have hlo_lt : 2 ^ h - 1 < 2 ^ n := by
    have : 2 ^ h ≤ 2 ^ n := Nat.pow_le_pow_right (by decide) hh
    omega
  have hpclo : pc (2 ^ h - 1) = h := pc_pow_sub_one h
  have hpchi : pc ((2 ^ h - 1) <<< (n - h)) = h := by
    rw [hhi, pc_pow_mul]; exact hpclo
  have hsome := get_bounds_some hn hh
  refine ⟨get_bounds_none hn, ?_, all_ones_shift (by omega), by rw [hshift]; omega, hU, ?_, ?_,
    ?_, ?_, ?_⟩
  · rw [hsome, hshift]
  · rw [popcount_eq_pc (by omega)]; exact hpclo
  · rw [popcount_eq_pc (by rw [hshift]; omega)]; exact hpchi
  · intro x hx hp
    rw [popcount_eq_pc (by omega)] at hp
    rw [hshift]
    exact ⟨pc_lower_bound h x hp, pc_upper_bound hx hp⟩
  · intro h0
    subst h0
    rw [hsome]
    simp
  · intro hn'
    subst hn'
    rw [hsome]
    simp

/-- C31 for 4 spins and Hamming weight 2: the bounds are 3 and 12. -/
theorem C31_get_bounds_witness :
    4 ≤ 64 ∧ 2 ≤ 4 ∧
      (get_bounds 4 none = (0, 2 ^ 4 - 1) ∧
        get_bounds 4 (some 2) = (2 ^ 2 - 1, (2 ^ 2 - 1) <<< (4 - 2)) ∧
        (U64 - 1) >>> (64 - 2) = 2 ^ 2 - 1 ∧
        (2 ^ 2 - 1) <<< (4 - 2) < 2 ^ 4 ∧ 2 ^ 4 ≤ U64 ∧
        popcount (2 ^ 2 - 1) = 2 ∧ popcount ((2 ^ 2 - 1) <<< (4 - 2)) = 2 ∧
        (∀ x, x < 2 ^ 4 → popcount x = 2 → 2 ^ 2 - 1 ≤ x ∧ x ≤ (2 ^ 2 - 1) <<< (4 - 2)) ∧
        (2 = 0 → get_bounds 4 (some 2) = (0, 0)) ∧
        (2 = 4 → get_bounds 4 (some 2) = (2 ^ 4 - 1, 2 ^ 4 - 1))) :=
  ⟨by decide, by decide, C31_get_bounds 4 2 (by decide) (by decide)⟩

/-! ## The full batches: properties -/

/-! The full batches. -/

/-- Lane `j` of full batch `i` is symmetry `8 i + j` of the input. -/
theorem split_into_batches_lane {Sym : Type} (symmetries : List Sym) (i j : Nat)
    (hi : i < symmetries.length / 8) (hj : j < 8) :
    ((split_into_batches symmetries).1.get? i).bind (fun b => b.get? j)
      = symmetries.get? (8 * i + j) := by
  obtain ⟨hoff, hlen⟩ := split_into_batches_full_offset symmetries
  obtain ⟨_, _, _, hfull⟩ := split_into_batches_full_spec symmetries symmetries.length 0 []
    (by intro s hs; simp at hs) (by unfold batch_size; omega)
  have hflat := split_into_batches_full_flatten symmetries symmetries.length 0 [] rfl
  have hbatches : (split_into_batches symmetries).1
      = (split_into_batches_full symmetries symmetries.length 0 []).1 := by
    unfold split_into_batches
    simp only
    cases (symmetries.drop
      (split_into_batches_full symmetries symmetries.length 0 []).2).getLast? <;> rfl
  rw [hbatches]
  have hget := flatMap_uniform_get? (fun b : List Sym => b) batch_size
    (split_into_batches_full symmetries symmetries.length 0 []).1 i j hfull
    (by unfold batch_size; exact hj)
  have e : ((split_into_batches_full symmetries symmetries.length 0 []).1.flatMap fun b => b)
      = (split_into_batches_full symmetries symmetries.length 0 []).1.flatten := by
    rw [List.flatMap_def, List.map_id']
  rw [e, hflat, hoff] at hget
  rw [← hget, List.get?_eq_getElem?, List.get?_eq_getElem?, List.getElem?_take]
  unfold batch_size
  rw [if_pos (by omega)]
  congr 1
  omega

/-- C32: for every list of n symmetries `split_into_batches` returns
floor(n / 8) full batches of 8 lanes each, lane j of full batch i is
symmetry 8 i + j of the input, and the lanes of the full batches followed by
the real lanes of the partial batch are the n symmetries of the input, once
each and in their order; so are the real lanes of the table of a small
basis made from a group. -/
theorem C32_full_batches {Sym : Type} (symmetries : List Sym) (spins : Int) (i j : Nat)
    (hi : i < symmetries.length / 8) (hj : j < 8) :
    (split_into_batches symmetries).1.length = symmetries.length / 8 ∧
      (∀ b ∈ (split_into_batches symmetries).1, b.length = 8) ∧
      ((split_into_batches symmetries).1.get? i).bind (fun b => b.get? j)
        = symmetries.get? (8 * i + j) ∧
      8 * i + j < symmetries.length ∧
      (split_into_batches symmetries).1.flatten
          ++ ((split_into_batches symmetries).2.1.getD []).take
              (split_into_batches symmetries).2.2
        = symmetries ∧
      (small_basis_t.create { number_spins := spins, symmetries := symmetries }).lanes
        = symmetries := by
  obtain ⟨_, hlen⟩ := split_into_batches_full_offset symmetries
  have hbatches : (split_into_batches symmetries).1
      = (split_into_batches_full symmetries symmetries.length 0 []).1 := by
    unfold split_into_batches
    simp only
    cases (symmetries.drop
      (split_into_batches_full symmetries symmetries.length 0 []).2).getLast? <;> rfl
  refine ⟨by rw [hbatches]; exact hlen, (split_into_batches_spec symmetries).1,
    split_into_batches_lane symmetries i j hi hj, by omega,
    split_into_batches_lanes symmetries, small_create_lanes _⟩

/-- C32 for a list of nineteen symmetries: lane 3 of full batch 1 is
symmetry 11. -/
theorem C32_full_batches_witness :
    1 < (List.range 19).length / 8 ∧ 3 < 8 ∧
      ((split_into_batches (List.range 19)).1.length = (List.range 19).length / 8 ∧
        (∀ b ∈ (split_into_batches (List.range 19)).1, b.length = 8) ∧
        ((split_into_batches (List.range 19)).1.get? 1).bind (fun b => b.get? 3)
          = (List.range 19).get? (8 * 1 + 3) ∧
        8 * 1 + 3 < (List.range 19).length ∧
        (split_into_batches (List.range 19)).1.flatten
            ++ ((split_into_batches (List.range 19)).2.1.getD []).take
                (split_into_batches (List.range 19)).2.2
          = List.range 19 ∧
        (small_basis_t.create { number_spins := 19, symmetries := List.range 19 }).lanes
          = List.range 19) :=
  ⟨by decide, by decide, C32_full_batches (List.range 19) 19 1 3 (by decide) (by decide)⟩

/-! ## The kernel state and the conversion: properties -/

/-! The kernel state and the conversion: boundary cases. -/

/-- C33: for every flat basis on n spins, 1 <= n <= 64, the flip mask the
kernel state stores is defined and equals (n < 64 ? (1 << n) - 1 :
all-ones), the flip mask of the spec, which is 2^n - 1: exactly the low n
bits are set. -/
theorem C33_flip_mask {R : Type} (basis : ls_flat_spin_basis R)
    (hn0 : 1 ≤ basis.number_spins) (hn : basis.number_spins ≤ 64) :
    halide_flip_mask basis
        = some (if basis.number_spins < 64 then (1 <<< basis.number_spins) - 1 else U64 - 1) ∧
      halide_flip_mask basis = some (flip_mask basis.number_spins) ∧
      halide_flip_mask basis = some (2 ^ basis.number_spins - 1) ∧
      ∀ i, (2 ^ basis.number_spins - 1).testBit i = decide (i < basis.number_spins) := by
  have hval : halide_flip_mask basis = some (2 ^ basis.number_spins - 1) := by
    unfold halide_flip_mask get_flip_mask_64
    have h32 : basis.number_spins % U32 = basis.number_spins :=
      Nat.mod_eq_of_lt (by unfold U32; omega)
    have hshift : (64 + U32 - basis.number_spins) % U32 = 64 - basis.number_spins := by
      have : 64 + U32 - basis.number_spins = (64 - basis.number_spins) + U32 := by omega
      rw [this, Nat.add_mod_right, Nat.mod_eq_of_lt (by unfold U32; omega)]
    rw [h32, if_neg (by omega)]
    simp only [hshift]
    rw [if_pos (by omega), all_ones_shift hn]
  have hformula : (if basis.number_spins < 64 then (1 <<< basis.number_spins) - 1 else U64 - 1)
      = 2 ^ basis.number_spins - 1 := by
    by_cases h64 : basis.number_spins < 64
    · rw [if_pos h64, Nat.one_shiftLeft]
    · rw [if_neg h64]
      have : basis.number_spins = 64 := by omega
      rw [this]
      rfl
  refine ⟨by rw [hval, hformula], ?_, hval, fun i => Nat.testBit_two_pow_sub_one _ _⟩
  rw [hval]
  unfold flip_mask
  rw [hformula]

/-- C33 for a flat basis on 64 spins. -/
theorem C33_flip_mask_witness :
    1 ≤ (ls_flat_spin_basis.mk 0 64 (-1) 0
          { shape := (0, 0, 1), masks := ⟨none, []⟩, shifts := ⟨none, []⟩,
            eigenvalues_real := ⟨none, []⟩, eigenvalues_imag := ⟨none, []⟩,
            sectors := ⟨none, []⟩, periodicities := ⟨none, []⟩ } :
          ls_flat_spin_basis Int).number_spins ∧
      (ls_flat_spin_basis.mk 0 64 (-1) 0
          { shape := (0, 0, 1), masks := ⟨none, []⟩, shifts := ⟨none, []⟩,
            eigenvalues_real := ⟨none, []⟩, eigenvalues_imag := ⟨none, []⟩,
            sectors := ⟨none, []⟩, periodicities := ⟨none, []⟩ } :
          ls_flat_spin_basis Int).number_spins ≤ 64 ∧
      halide_flip_mask
          (ls_flat_spin_basis.mk 0 64 (-1) 0
            { shape := (0, 0, 1), masks := ⟨none, []⟩, shifts := ⟨none, []⟩,
              eigenvalues_real := ⟨none, []⟩, eigenvalues_imag := ⟨none, []⟩,
              sectors := ⟨none, []⟩, periodicities := ⟨none, []⟩ } :
            ls_flat_spin_basis Int)
        = some (U64 - 1) :=
  ⟨by decide, by decide,
    (C33_flip_mask
      (ls_flat_spin_basis.mk 0 64 (-1) 0
        { shape := (0, 0, 1), masks := ⟨none, []⟩, shifts := ⟨none, []⟩,
          eigenvalues_real := ⟨none, []⟩, eigenvalues_imag := ⟨none, []⟩,
          sectors := ⟨none, []⟩, periodicities := ⟨none, []⟩ } : ls_flat_spin_basis Int)
      (by decide) (by decide)).1⟩

/-- C34 (the claim fails): the big visitor stores 8 values per symmetry in
each of the four arrays, at offsets 0, 1, ..., 8 M - 1, while each array is
allocated with M = shape[1] elements.  For the big basis on 65 spins with
two symmetries the conversion succeeds, each array has 2 elements and 16
values are stored in it: the stores at offsets 2 to 15 lie past its end. -/
theorem C34_big_arrays_written_past_the_end :
    (∀ (g : ls_flat_group Int) (b : big_basis_t (symmetry_t Int)),
        (init_flat_group_contents_big g b).eigenvalues_real.stored.length
            = 8 * b.symmetries.length ∧
          (init_flat_group_contents_big g b).eigenvalues_imag.stored.length
            = 8 * b.symmetries.length ∧
          (init_flat_group_contents_big g b).sectors.stored.length = 8 * b.symmetries.length ∧
          (init_flat_group_contents_big g b).periodicities.stored.length
            = 8 * b.symmetries.length) ∧
      (ls_convert_to_flat_spin_basis (fun _ => true) sample_big_basis).1 = LS_SUCCESS ∧
      ((ls_convert_to_flat_spin_basis (fun _ => true) sample_big_basis).2.map fun fb =>
          (fb.group.shape.2.1,
            [fb.group.eigenvalues_real.allocated, fb.group.eigenvalues_imag.allocated,
              fb.group.sectors.allocated, fb.group.periodicities.allocated],
            [fb.group.eigenvalues_real.stored.length, fb.group.eigenvalues_imag.stored.length,
              fb.group.sectors.stored.length, fb.group.periodicities.stored.length]))
        = some (2, [some 2, some 2, some 2, some 2], [16, 16, 16, 16]) ∧
      ¬ (15 < 2) := by
  refine ⟨?_, by decide, by decide, by decide⟩
  intro g b
  have hlen : (b.symmetries.flatMap fun s => (List.range batch_size).map fun _ => s).length
      = 8 * b.symmetries.length := by
    rw [flatMap_uniform_length _ batch_size _
      (fun a _ => by rw [List.length_map, List.length_range]), Nat.mul_comm]
    rfl
  refine ⟨?_, ?_, ?_, ?_⟩ <;>
  · show ((b.symmetries.flatMap fun s => (List.range batch_size).map fun _ => s).map _).length
      = _
    rw [List.length_map, hlen]

/-- A basis with at least one symmetry and networks without layers is
refused: the null mask buffer of zero elements is taken for a failed
allocation. -/
theorem convert_depth_zero {R : Type} [Inhabited R] (alloc_succeeds : Nat → Bool)
    (basis : ls_spin_basis (symmetry_t R)) (hD : (masks_shape basis).1 = 0)
    (hM : (masks_shape basis).2.1 ≠ 0) :
    ls_convert_to_flat_spin_basis alloc_succeeds basis = (LS_OUT_OF_MEMORY, none) := by
  unfold ls_convert_to_flat_spin_basis alloc_aligned_unitialized
  by_cases h0 : alloc_succeeds 0 = false
  · rw [if_pos h0]
  · rw [if_neg h0]
    simp only [hD, Nat.zero_mul, Nat.zero_mod, gt_iff_lt, Nat.lt_irrefl, false_and, if_false,
      true_or, and_true, ne_eq, hM, not_false_eq_true, if_true]

/-- C39 (the claim fails at depth 0): for the small basis on two spins made
from the identity alone, its network without layers, the shape is
(0, 1, 1) and, with every allocation of a positive element count
succeeding, `ls_convert_to_flat_spin_basis` returns `LS_OUT_OF_MEMORY` and
stores no flat basis; the same happens for every basis of depth 0 with at
least one symmetry. -/
theorem C39_depth_zero_out_of_memory :
    masks_shape sample_depth0_basis = (0, 1, 1) ∧
      (ls_convert_to_flat_spin_basis (fun _ => true) sample_depth0_basis).1
        = LS_OUT_OF_MEMORY ∧
      (ls_convert_to_flat_spin_basis (fun _ => true) sample_depth0_basis).2.isNone = true ∧
      ∀ (basis : ls_spin_basis (symmetry_t Int)), (masks_shape basis).1 = 0 →
        (masks_shape basis).2.1 ≠ 0 →
        (ls_convert_to_flat_spin_basis (fun _ => true) basis).1 = LS_OUT_OF_MEMORY := by
  refine ⟨by decide, by decide, by decide, ?_⟩
  intro basis hD hM
  rw [convert_depth_zero _ basis hD hM]

/-! ## The function `closest_hamming`: popcount -/

/-! The popcount of `closest_hamming`. -/

/-- The greatest 64-bit word of popcount `h` has popcount `h`. -/
theorem pc_max_value {h : Nat} (hh : h ≤ 64) : pc (U64 - 2 ^ (64 - h)) = h := by
  have hsplit : U64 = 2 ^ (64 - h) * 2 ^ h := by
    rw [U64_eq, ← pow_add]; congr 1; omega
  have e : U64 - 2 ^ (64 - h) = 2 ^ (64 - h) * (2 ^ h - 1) := by
    rw [Nat.mul_sub, Nat.mul_one, ← hsplit]
  rw [e, pc_pow_mul, pc_pow_sub_one]

/-- The function `closest_hamming` returns, for every 64-bit word and every
weight up to 64, a 64-bit word of that popcount, and the word itself when it
has that popcount. -/
theorem closest_hamming_popcount {x h : Nat} (hx : x < U64) (hh : h ≤ 64) :
    ∃ y, closest_hamming x h = some y ∧ y < U64 ∧ pc y = h ∧ (pc x = h → y = x) := by
  unfold closest_hamming
  rw [if_neg (by omega), popcount_eq_pc hx]
  simp only
  by_cases hgt : pc x > h
  · rw [if_pos hgt]
    obtain ⟨k, _, _, hk3, _, hk5⟩ := closest_hamming_clear_spec h x hx 64 0 (by omega)
    simp only [pow_zero, Nat.div_one, Nat.one_mul] at hk3 hk5
    have hpy0 : pc (2 ^ k * (x / 2 ^ k)) = h := by rw [pc_pow_mul]; exact hk5 (by omega)
    have hy0x : 2 ^ k * (x / 2 ^ k) ≤ x := Nat.mul_div_le x (2 ^ k)
    rw [hk3, Option.map_some']
    by_cases h0 : h = 0
    · subst h0
      rw [if_pos rfl, if_neg (by omega)]
      exact ⟨_, rfl, by omega, hpy0, by intro hc; omega⟩
    · rw [if_neg h0, max_value_eq (by omega)]
      by_cases hlt : 2 ^ k * (x / 2 ^ k) < U64 - 2 ^ (64 - h)
      · rw [if_pos hlt]
        have hy0pos : 0 < 2 ^ k * (x / 2 ^ k) := by
          rcases Nat.eq_zero_or_pos (2 ^ k * (x / 2 ^ k)) with hz | hz
          · rw [hz, pc_zero] at hpy0; omega
          · exact hz
        have hpos : 0 < 2 ^ (64 - h) := Nat.two_pow_pos _
        obtain ⟨_, hn2, hn3, _⟩ :=
          next_state_true_spec hy0pos hlt (show U64 - 2 ^ (64 - h) < U64 by
            have : 0 < U64 := by unfold U64; exact Nat.two_pow_pos _
            omega) (by rw [pc_max_value hh, hpy0])
        exact ⟨_, rfl, by omega, by rw [hn3, hpy0], by intro hc; omega⟩
      · rw [if_neg hlt]
        exact ⟨_, rfl, by omega, hpy0, by intro hc; omega⟩
  · rw [if_neg hgt]
    by_cases hlt : pc x < h
    · rw [if_pos hlt]
      obtain ⟨k, _, hk64, hk3, hk5⟩ := closest_hamming_set_spec h x hh 64 0 (by omega)
      simp only [pow_zero, Nat.div_one, Nat.one_mul, Nat.sub_self, Nat.add_zero] at hk3 hk5
      have hpos : 0 < 2 ^ k := Nat.two_pow_pos k
      have hpk := hk5 (by omega)
      refine ⟨_, hk3, ?_, ?_, by intro hc; omega⟩
      · by_cases hk : k = 64
        · subst hk
          have h0 : x / 2 ^ 64 = 0 := Nat.div_eq_of_lt hx
          rw [h0, Nat.mul_zero, Nat.zero_add]
          unfold U64
          omega
        · have hklt : k < 64 := by omega
          have hsplit : U64 = 2 ^ k * 2 ^ (64 - k) := by
            rw [U64_eq, ← pow_add]; congr 1; omega
          have hdiv : x / 2 ^ k < 2 ^ (64 - k) := by
            rw [Nat.div_lt_iff_lt_mul hpos, Nat.mul_comm, ← hsplit]; exact hx
          have h1 : 2 ^ k * (x / 2 ^ k + 1) ≤ 2 ^ k * 2 ^ (64 - k) :=
            Nat.mul_le_mul_left _ (by omega)
          rw [← hsplit, Nat.mul_add, Nat.mul_one] at h1
          omega
      · rw [pc_split _ _ _ (by omega), pc_pow_sub_one]; exact hpk
    · rw [if_neg hlt]
      exact ⟨x, rfl, hx, by omega, fun _ => rfl⟩

/-- C40: for every 64-bit x and every h in [0,64], `closest_hamming(x, h)`
returns a 64-bit word of popcount h (no assertion fails), it returns x
itself whenever the popcount of x is h, and applying it to its own result
gives that result again. -/
theorem C40_closest_hamming_popcount (x h : Nat) (hx : x < U64) (hh : h ≤ 64) :
    ∃ y, closest_hamming x h = some y ∧ y < U64 ∧ popcount y = h ∧
      (popcount x = h → y = x) ∧ closest_hamming y h = some y := by
  obtain ⟨y, hy1, hy2, hy3, hy4⟩ := closest_hamming_popcount hx hh
  obtain ⟨z, hz1, _, _, hz4⟩ := closest_hamming_popcount hy2 hh
  refine ⟨y, hy1, hy2, by rw [popcount_eq_pc hy2]; exact hy3, ?_, ?_⟩
  · intro hp
    rw [popcount_eq_pc hx] at hp
    exact hy4 hp
  · rw [hz1, hz4 hy3]

/-- C40 for the all-ones word and h = 1, where no word from x on has
popcount 1: the result is 2^63. -/
theorem C40_closest_hamming_popcount_witness :
    U64 - 1 < U64 ∧ 1 ≤ 64 ∧
      ∃ y, closest_hamming (U64 - 1) 1 = some y ∧ y < U64 ∧ popcount y = 1 ∧
        (popcount (U64 - 1) = 1 → y = U64 - 1) ∧ closest_hamming y 1 = some y :=
  ⟨by decide, by decide, C40_closest_hamming_popcount (U64 - 1) 1 (by decide) (by decide)⟩

/-! ## The task loop -/

/-! The task list: starts, ends and 64-bit arithmetic. -/

/-- On a word of the form `p 0 1^(j+1) 0^c` below 2^64, `t = v | (v - 1)`
fills the trailing zeros and `t + 1` is `p 1 0^(c+j+1)`, computed without
reduction modulo 2^64. -/
theorem lor_pred_run_form {c j p : Nat}
    (h : 2 ^ (c + j + 2) * p + 2 ^ c * (2 ^ (j + 1) - 1) < U64) :
    ((2 ^ (c + j + 2) * p + 2 ^ c * (2 ^ (j + 1) - 1)) |||
        ((2 ^ (c + j + 2) * p + 2 ^ c * (2 ^ (j + 1) - 1) + U64 - 1) % U64)) + 1
      = 2 ^ (c + j + 2) * p + 2 ^ (c + j + 1) := by
  have hc : 0 < 2 ^ c := Nat.two_pow_pos _
  have hj : 0 < 2 ^ j := Nat.two_pow_pos _
  obtain ⟨A, hA⟩ : ∃ A, A = 2 ^ (j + 1) * p + (2 ^ j - 1) := ⟨_, rfl⟩
  obtain ⟨y, hy⟩ : ∃ y, y = 2 ^ (c + j + 2) * p + 2 ^ (c + j + 1) := ⟨_, rfl⟩
  have hvA : 2 ^ (c + j + 2) * p + 2 ^ c * (2 ^ (j + 1) - 1) = 2 ^ (c + 1) * A + 2 ^ c := by
    have e1 : 2 ^ c * (2 ^ (j + 1) - 1) + 2 ^ c = 2 ^ (c + j + 1) := by
      rw [Nat.mul_sub, Nat.mul_one, Nat.sub_add_cancel (by
        calc 2 ^ c = 2 ^ c * 1 := by ring
          _ ≤ 2 ^ c * 2 ^ (j + 1) := Nat.mul_le_mul_left _ (Nat.two_pow_pos _))]
      ring
    have e2 : 2 ^ (c + 1) * A + 2 ^ (c + 1) = y := by
      rw [hA, hy, Nat.mul_add, Nat.mul_sub, Nat.mul_one, Nat.add_assoc, Nat.sub_add_cancel (by
        calc 2 ^ (c + 1) = 2 ^ (c + 1) * 1 := by ring
          _ ≤ 2 ^ (c + 1) * 2 ^ j := Nat.mul_le_mul_left _ hj)]
      ring
    have e3 : 2 ^ (c + j + 2) * p + 2 ^ (c + j + 1) = y := hy.symm
    have e4 : 2 ^ (c + 1) = 2 ^ c + 2 ^ c := by ring
    generalize 2 ^ c * (2 ^ (j + 1) - 1) = X at *
    generalize 2 ^ (c + 1) * A = Z at *
    generalize 2 ^ (c + j + 2) * p = W at *
    generalize 2 ^ (c + j + 1) = V at *
    generalize 2 ^ (c + 1) = V2 at *
    omega
  have hty : 2 ^ (c + 1) * A + (2 ^ (c + 1) - 1) + 1 = y := by
    have : 0 < 2 ^ (c + 1) := Nat.two_pow_pos _
    rw [hA, hy, Nat.add_assoc, Nat.sub_add_cancel this, Nat.mul_add, Nat.mul_sub, Nat.mul_one,
      Nat.add_assoc, Nat.sub_add_cancel (by
        calc 2 ^ (c + 1) = 2 ^ (c + 1) * 1 := by ring
          _ ≤ 2 ^ (c + 1) * 2 ^ j := Nat.mul_le_mul_left _ hj)]
    ring
  rw [← hy, hvA]
  rw [hvA] at h
  have hv1 : (2 ^ (c + 1) * A + 2 ^ c + U64 - 1) % U64 = 2 ^ (c + 1) * A + (2 ^ c - 1) := by
    have : 2 ^ (c + 1) * A + 2 ^ c + U64 - 1 = (2 ^ (c + 1) * A + 2 ^ c - 1) + U64 := by omega
    rw [this, Nat.add_mod_right, Nat.mod_eq_of_lt (by omega)]
    omega
  rw [hv1, lor_pred c A, hty]

/-- Gosper's step below a later word of the same popcount does not leave 64
bits: `t + 1` for `t = v | (v - 1)` is at most the successor. -/
theorem next_state_no_overflow {v u : Nat} (hv : 0 < v) (hvu : v < u) (hu : u < U64)
    (hp : pc u = pc v) :
    (v ||| ((v + U64 - 1) % U64)) + 1 ≤ next_state true v ∧ next_state true v ≤ u := by
  obtain ⟨c, j, p, hform⟩ := exists_run_form hv
  have hpv : pc v = pc p + (j + 1) := by rw [hform]; exact pc_run_form c j p
  have hle : 2 ^ (c + j + 2) * p + 2 ^ (c + j + 1) + (2 ^ j - 1) ≤ u := by
    by_contra hcon
    exact pc_between_run_forms c j p u (by rw [← hform]; exact hvu) (by omega) (by rw [hp, hpv])
  have hnext : next_state true v = 2 ^ (c + j + 2) * p + 2 ^ (c + j + 1) + (2 ^ j - 1) := by
    rw [hform]
    exact next_state_run_form (by omega)
  have ht := @lor_pred_run_form c j p (by rw [← hform]; omega)
  rw [← hform] at ht
  rw [ht, hnext]
  exact ⟨by omega, hle⟩

/-- The starts of ranges that tile the sequence are states of the sequence
and increase strictly. -/
theorem tasks_tile_starts (fhw : Bool) (hw bound : Nat) (hb : bound < U64)
    (hpb : in_sequence fhw hw bound = true) :
    ∀ (ranges : List (Nat × Nat)) (current : Nat), in_sequence fhw hw current = true →
      tasks_tile fhw hw bound current ranges →
      (∀ r ∈ ranges, in_sequence fhw hw r.1 = true) ∧
        (ranges.map Prod.fst).Pairwise (· < ·) := by
  intro ranges
  induction ranges with
  | nil => intro current _ h; simp [tasks_tile] at h
  | cons r rest ih =>
    intro current hin htile
    obtain ⟨a, b⟩ := r
    have htile0 := htile
    rw [tasks_tile] at htile
    obtain ⟨ha, hab, hpbb, hrest⟩ := htile
    subst ha
    rcases hrest with ⟨hnil, hbb⟩ | ⟨hlt, htile'⟩
    · subst hnil
      refine ⟨?_, by simp⟩
      intro r hr
      rw [List.mem_singleton] at hr
      subst hr
      exact hin
    · obtain ⟨h1, h2, h3, _⟩ := next_state_spec hlt hb hpbb hpb
      obtain ⟨ih1, ih2⟩ := ih (next_state fhw b) h3 htile'
      obtain ⟨_, _, t3, _⟩ := tasks_tile_spec fhw hw bound hb hpb rest (next_state fhw b) htile'
      refine ⟨?_, ?_⟩
      · intro r hr
        rcases List.mem_cons.mp hr with hr | hr
        · subst hr; exact hin
        · exact ih1 r hr
      · rw [List.map_cons, List.pairwise_cons]
        refine ⟨?_, ih2⟩
        intro x hx
        obtain ⟨r, hr, hrx⟩ := List.mem_map.mp hx
        have := (t3 r hr).1
        show a < x
        rw [← hrx]
        omega

/-- C37: for every N in [1,64], optional Hamming weight h <= N, chunk size
and state-info engine, `split_into_tasks` returns a task list and, for every
range (start, end) of it, start <= end, start and end have the same popcount
when h is set, the loop of `generate_states_task` started at start ends with
`current` equal to end, and the task returns (neither assertion fails). -/
theorem C37_task_loop_reaches_end (get_state_info : Nat → Nat × Bool) (n : Nat)
    (h : Option Nat) (chunk_size : Nat) (hn0 : 0 < n) (hn : n ≤ 64)
    (hh : ∀ k, h = some k → k ≤ n) :
    ∃ ranges, split_into_tasks n h chunk_size = some ranges ∧
      ∀ r ∈ ranges, r.1 ≤ r.2 ∧ (h.isSome = true → popcount r.1 = popcount r.2) ∧
        (∃ pushed, generate_states_task_loop h.isSome r.2 get_state_info (r.2 - r.1 + 1) r.1 []
          = some (r.2, pushed)) ∧
        ∃ chunk, generate_states_task h.isSome r.1 r.2 get_state_info [] = some chunk := by
  obtain ⟨ranges, _, hr, htile, _, _, _⟩ :=
    enumeration_spec get_state_info h chunk_size hn0 hn hh
  obtain ⟨g1, g2, g3, g4, _, _⟩ := get_bounds_spec h hn hh
  have hU := pow_le_U64 hn
  have hb : (get_bounds n h).2 < U64 := by omega
  obtain ⟨_, _, t3, _⟩ :=
    tasks_tile_spec h.isSome (popcount (get_bounds n h).1) (get_bounds n h).2 hb g4
      ranges (get_bounds n h).1 htile
  obtain ⟨s1, _⟩ :=
    tasks_tile_starts h.isSome (popcount (get_bounds n h).1) (get_bounds n h).2 hb g4
      ranges (get_bounds n h).1 g3 htile
  refine ⟨ranges, hr, ?_⟩
  intro r hrmem
  obtain ⟨_, r2, r3, r4⟩ := t3 r hrmem
  have hstart := s1 r hrmem
  refine ⟨r2, ?_, ?_, ?_⟩
  · intro hsome
    rw [hsome] at hstart r4
    simp [in_sequence] at hstart r4
    omega
  · exact ⟨_, generate_states_task_loop_spec h.isSome (popcount (get_bounds n h).1) r.2
      get_state_info (by omega) r4 _ r.1 [] r2 hstart (by omega)⟩
  · exact ⟨_, generate_states_task_spec h.isSome (popcount (get_bounds n h).1) r.1 r.2
      get_state_info [] (by omega) r2 hstart r4⟩

/-- C37 for 4 spins, Hamming weight 2 and chunk size 2. -/
theorem C37_task_loop_reaches_end_witness :
    0 < 4 ∧ 4 ≤ 64 ∧ (∀ k, some 2 = some k → k ≤ 4) ∧
      ∃ ranges, split_into_tasks 4 (some 2) 2 = some ranges ∧
        ∀ r ∈ ranges, r.1 ≤ r.2 ∧ ((some 2).isSome = true → popcount r.1 = popcount r.2) ∧
          (∃ pushed, generate_states_task_loop (some 2).isSome r.2 (fun x => (x, true))
              (r.2 - r.1 + 1) r.1 [] = some (r.2, pushed)) ∧
          ∃ chunk, generate_states_task (some 2).isSome r.1 r.2 (fun x => (x, true)) []
            = some chunk :=
  ⟨by decide, by decide, by intro k hk; cases hk; decide,
    C37_task_loop_reaches_end (fun x => (x, true)) 4 (some 2) 2 (by decide) (by decide)
      (by intro k hk; cases hk; decide)⟩

/-! ## The task list: termination -/

/-- C38: for every N in [1,64], optional Hamming weight h <= N and chunk
size C, `split_into_tasks` returns (the loop ends and no assertion fails);
the starts of its ranges increase strictly and none exceeds x_hi; wherever
the loop computes `current + c`, with c the decremented chunk size (C - 1
for 1 <= C < 2^32), the sum is below 2^64 and `next`, the word
`closest_hamming` returns for it or the sum itself, is at least `current`;
and wherever it computes `next_state(next)` for the start of the following
range the result is above `next` and neither `next + 1` nor the `t + 1` of
Gosper's step reaches 2^64. -/
theorem C38_split_into_tasks_terminates (n : Nat) (h : Option Nat) (chunk_size : Nat)
    (hn0 : 0 < n) (hn : n ≤ 64) (hh : ∀ k, h = some k → k ≤ n) :
    ∃ ranges, split_into_tasks n h chunk_size = some ranges ∧
      (1 ≤ chunk_size → chunk_size < U32 → (chunk_size + U32 - 1) % U32 = chunk_size - 1) ∧
      (ranges.map Prod.fst).Pairwise (· < ·) ∧
      (∀ r ∈ ranges, r.1 ≤ (get_bounds n h).2) ∧
      (∀ r ∈ ranges, (get_bounds n h).2 - r.1 > (chunk_size + U32 - 1) % U32 →
        r.1 + (chunk_size + U32 - 1) % U32 < U64 ∧
          ∃ next,
            (if h.isSome = true then
                closest_hamming (r.1 + (chunk_size + U32 - 1) % U32)
                  (popcount (get_bounds n h).1)
              else some (r.1 + (chunk_size + U32 - 1) % U32)) = some next ∧
            r.1 ≤ next) ∧
      ∀ i a b, ranges.get? i = some a → ranges.get? (i + 1) = some b →
        b.1 = next_state h.isSome a.2 ∧ a.2 < b.1 ∧ b.1 ≤ (get_bounds n h).2 ∧
          (h.isSome = true → (a.2 ||| ((a.2 + U64 - 1) % U64)) + 1 < U64) ∧
          (h = none → a.2 + 1 < U64) := by
  obtain ⟨ranges, _, hr, htile, _, _, _⟩ :=
    enumeration_spec (fun x => (x, true)) h chunk_size hn0 hn hh
  obtain ⟨g1, g2, g3, g4, _, _⟩ := get_bounds_spec h hn hh
  have hU := pow_le_U64 hn
  have hb : (get_bounds n h).2 < U64 := by omega
  obtain ⟨_, _, t3, t4⟩ :=
    tasks_tile_spec h.isSome (popcount (get_bounds n h).1) (get_bounds n h).2 hb g4
      ranges (get_bounds n h).1 htile
  obtain ⟨_, s2⟩ :=
    tasks_tile_starts h.isSome (popcount (get_bounds n h).1) (get_bounds n h).2 hb g4
      ranges (get_bounds n h).1 g3 htile
  refine ⟨ranges, hr, ?_, s2, ?_, ?_, ?_⟩
  · intro hc1 hc2
    have : chunk_size + U32 - 1 = (chunk_size - 1) + U32 := by omega
    rw [this, Nat.add_mod_right, Nat.mod_eq_of_lt (by omega)]
  · intro r hrmem
    obtain ⟨_, r2, r3, _⟩ := t3 r hrmem
    omega
  · intro r hrmem hgt
    obtain ⟨c, hc⟩ : ∃ c, c = (chunk_size + U32 - 1) % U32 := ⟨_, rfl⟩
    rw [← hc] at hgt ⊢
    have hsum : r.1 + c < (get_bounds n h).2 := by omega
    refine ⟨by omega, ?_⟩
    cases hsome : h.isSome with
    | false => exact ⟨r.1 + c, by simp, by omega⟩
    | true =>
      rw [hsome] at g4
      rw [in_sequence_iff hb] at g4
      obtain ⟨y, hy1, hy2, _, _, _⟩ :=
        closest_hamming_spec (show r.1 + c < U64 by omega)
          (show r.1 + c ≤ (get_bounds n h).2 by omega) hb (g4 rfl)
      exact ⟨y, by simpa using hy1, by omega⟩
  · intro i a b ha hbget
    obtain ⟨a1, a2⟩ := t4 i a b ha hbget
    obtain ⟨_, b2, b3, _⟩ := t3 b (List.get?_mem hbget)
    obtain ⟨_, _, _, a4⟩ := t3 a (List.get?_mem ha)
    have halt : a.2 < (get_bounds n h).2 := by omega
    refine ⟨a1, a2, by omega, ?_, ?_⟩
    · intro hsome
      rw [hsome] at a4 g4
      rw [in_sequence_iff (show a.2 < U64 by omega)] at a4
      rw [in_sequence_iff hb] at g4
      have hpa := a4 rfl
      have hpb := g4 rfl
      have hapos : 0 < a.2 := by
        rcases Nat.eq_zero_or_pos a.2 with hz | hz
        · rw [hz, pc_zero] at hpa
          rw [← hpa] at hpb
          have := pc_eq_zero hpb
          omega
        · exact hz
      obtain ⟨n1, n2⟩ := next_state_no_overflow hapos halt hb (by rw [hpa, hpb])
      omega
    · intro _
      omega

/-- C38 for 4 spins, Hamming weight 2 and chunk size 2. -/
theorem C38_split_into_tasks_terminates_witness :
    0 < 4 ∧ 4 ≤ 64 ∧ (∀ k, some 2 = some k → k ≤ 4) ∧
      ∃ ranges, split_into_tasks 4 (some 2) 2 = some ranges ∧
        (1 ≤ 2 → 2 < U32 → (2 + U32 - 1) % U32 = 2 - 1) ∧
        (ranges.map Prod.fst).Pairwise (· < ·) ∧
        (∀ r ∈ ranges, r.1 ≤ (get_bounds 4 (some 2)).2) ∧
        (∀ r ∈ ranges, (get_bounds 4 (some 2)).2 - r.1 > (2 + U32 - 1) % U32 →
          r.1 + (2 + U32 - 1) % U32 < U64 ∧
            ∃ next,
              (if (some 2).isSome = true then
                  closest_hamming (r.1 + (2 + U32 - 1) % U32)
                    (popcount (get_bounds 4 (some 2)).1)
                else some (r.1 + (2 + U32 - 1) % U32)) = some next ∧
              r.1 ≤ next) ∧
        ∀ i a b, ranges.get? i = some a → ranges.get? (i + 1) = some b →
          b.1 = next_state (some 2).isSome a.2 ∧ a.2 < b.1 ∧ b.1 ≤ (get_bounds 4 (some 2)).2 ∧
            ((some 2).isSome = true → (a.2 ||| ((a.2 + U64 - 1) % U64)) + 1 < U64) ∧
            ((some 2 : Option Nat) = none → a.2 + 1 < U64) :=
  ⟨by decide, by decide, by intro k hk; cases hk; decide,
    C38_split_into_tasks_terminates 4 (some 2) 2 (by decide) (by decide)
      (by intro k hk; cases hk; decide)⟩

/-! ## The buckets of `generate_ranges`: properties -/

/-! The buckets of `generate_ranges`. -/

/-- The inner loop takes a run of entries of key `i` off the front. -/
theorem generate_ranges_scan_spec (mask i : Nat) :
    ∀ (rest : List Nat) (count : Nat),
      ∃ m, m ≤ rest.length ∧
        generate_ranges_scan mask i rest count = (rest.drop m, count + m) ∧
        ∀ j, j < m → ∃ v, rest.get? j = some v ∧ v &&& mask = i := by
  intro rest
  induction rest with
  | nil => intro count; exact ⟨0, Nat.le_refl _, rfl, fun j hj => absurd hj (Nat.not_lt_zero j)⟩
  | cons x t ih =>
    intro count
    rw [generate_ranges_scan]
    by_cases hx : x &&& mask = i
    · rw [if_pos hx]
      obtain ⟨m, hm1, hm2, hm3⟩ := ih (count + 1)
      refine ⟨m + 1, by rw [List.length_cons]; omega, ?_, ?_⟩
      · rw [hm2, List.drop_succ_cons]
        congr 1
        omega
      · intro j hj
        cases j with
        | zero => exact ⟨x, rfl, hx⟩
        | succ j => exact hm3 j (by omega)
    · rw [if_neg hx]
      exact ⟨0, Nat.zero_le _, rfl, fun j hj => absurd hj (Nat.not_lt_zero j)⟩

/-- The outer loop: one bucket per key from `i` on; a bucket is the empty
marker or a non-empty range inside the part of the list still to walk, of
entries of its key; non-empty buckets follow each other without overlap. -/
theorem generate_ranges_loop_spec (mask : Nat) :
    ∀ (todo i pos : Nat) (rest : List Nat),
      (generate_ranges_loop mask todo i pos rest).length = todo ∧
        (∀ k r, (generate_ranges_loop mask todo i pos rest).get? k = some r →
          r = empty_range ∨
            (0 < r.2 ∧ pos ≤ r.1 ∧ r.1 + r.2 ≤ pos + rest.length ∧
              ∀ j, r.1 ≤ j → j < r.1 + r.2 →
                ∃ v, rest.get? (j - pos) = some v ∧ v &&& mask = i + k)) ∧
        ∀ k1 k2 r1 r2, k1 < k2 →
          (generate_ranges_loop mask todo i pos rest).get? k1 = some r1 →
          (generate_ranges_loop mask todo i pos rest).get? k2 = some r2 →
          0 < r1.2 → 0 < r2.2 → r1.1 + r1.2 ≤ r2.1 := by
  intro todo
  induction todo with
  | zero =>
    intro i pos rest
    cases rest <;> simp [generate_ranges_loop]
  | succ todo ih =>
    intro i pos rest
    have hempty : ∀ (rest1 : List Nat),
        (∀ k r, (generate_ranges_loop mask todo (i + 1) pos rest1).get? k = some r →
          r = empty_range ∨
            (0 < r.2 ∧ pos ≤ r.1 ∧ r.1 + r.2 ≤ pos + rest1.length ∧
              ∀ j, r.1 ≤ j → j < r.1 + r.2 →
                ∃ v, rest1.get? (j - pos) = some v ∧ v &&& mask = i + 1 + k)) →
        (∀ k1 k2 r1 r2, k1 < k2 →
          (generate_ranges_loop mask todo (i + 1) pos rest1).get? k1 = some r1 →
          (generate_ranges_loop mask todo (i + 1) pos rest1).get? k2 = some r2 →
          0 < r1.2 → 0 < r2.2 → r1.1 + r1.2 ≤ r2.1) →
        (∀ k r, (empty_range :: generate_ranges_loop mask todo (i + 1) pos rest1).get? k
            = some r →
          r = empty_range ∨
            (0 < r.2 ∧ pos ≤ r.1 ∧ r.1 + r.2 ≤ pos + rest1.length ∧
              ∀ j, r.1 ≤ j → j < r.1 + r.2 →
                ∃ v, rest1.get? (j - pos) = some v ∧ v &&& mask = i + k)) ∧
        ∀ k1 k2 r1 r2, k1 < k2 →
          (empty_range :: generate_ranges_loop mask todo (i + 1) pos rest1).get? k1 = some r1 →
          (empty_range :: generate_ranges_loop mask todo (i + 1) pos rest1).get? k2 = some r2 →
          0 < r1.2 → 0 < r2.2 → r1.1 + r1.2 ≤ r2.1 := by
      intro rest1 h2 h3
      refine ⟨?_, ?_⟩
      · intro k r hk
        cases k with
        | zero =>
          simp only [List.get?_cons_zero, Option.some.injEq] at hk
          exact Or.inl hk.symm
        | succ k =>
          simp only [List.get?_cons_succ] at hk
          rcases h2 k r hk with he | ⟨q1, q2, q3, q4⟩
          · exact Or.inl he
          · refine Or.inr ⟨q1, q2, q3, ?_⟩
            intro j hj1 hj2
            obtain ⟨v, hv1, hv2⟩ := q4 j hj1 hj2
            exact ⟨v, hv1, by omega⟩
      · intro k1 k2 r1 r2 hlt hk1 hk2 hp1 hp2
        cases k2 with
        | zero => omega
        | succ k2 =>
          cases k1 with
          | zero =>
            simp only [List.get?_cons_zero, Option.some.injEq] at hk1
            rw [← hk1] at hp1
            simp [empty_range] at hp1
          | succ k1 =>
            simp only [List.get?_cons_succ] at hk1 hk2
            exact h3 k1 k2 r1 r2 (by omega) hk1 hk2 hp1 hp2
    cases rest with
    | nil =>
      rw [generate_ranges_loop]
      obtain ⟨h1, h2, h3⟩ := ih (i + 1) pos []
      obtain ⟨e1, e2⟩ := hempty [] h2 h3
      exact ⟨by rw [List.length_cons, h1], e1, e2⟩
    | cons x t =>
      rw [generate_ranges_loop]
      by_cases hx : x &&& mask = i
      · rw [if_pos hx]
        obtain ⟨m, hm1, hm2, hm3⟩ := generate_ranges_scan_spec mask i t 1
        simp only [hm2]
        obtain ⟨h1, h2, h3⟩ := ih (i + 1) (pos + (1 + m)) (t.drop m)
        have hdrop : (t.drop m).length = t.length - m := List.length_drop m t
        have hrest : ∀ k r,
            (generate_ranges_loop mask todo (i + 1) (pos + (1 + m)) (t.drop m)).get? k = some r →
            0 < r.2 →
            pos + (1 + m) ≤ r.1 ∧ r.1 + r.2 ≤ pos + (x :: t).length ∧
              ∀ j, r.1 ≤ j → j < r.1 + r.2 →
                ∃ v, (x :: t).get? (j - pos) = some v ∧ v &&& mask = i + (k + 1) := by
          intro k r hk hpos
          rcases h2 k r hk with he | ⟨_, q2, q3, q4⟩
          · rw [he] at hpos; simp [empty_range] at hpos
          · refine ⟨q2, by rw [List.length_cons]; omega, ?_⟩
            intro j hj1 hj2
            obtain ⟨v, hv1, hv2⟩ := q4 j hj1 hj2
            refine ⟨v, ?_, by omega⟩
            rw [List.get?_eq_getElem?, List.getElem?_drop, ← List.get?_eq_getElem?] at hv1
            have e : j - pos = (m + (j - (pos + (1 + m)))) + 1 := by omega
            rw [e, List.get?_cons_succ]
            exact hv1
        refine ⟨by rw [List.length_cons, h1], ?_, ?_⟩
        · intro k r hk
          cases k with
          | zero =>
            simp only [List.get?_cons_zero, Option.some.injEq] at hk
            subst hk
            refine Or.inr ⟨by simp, Nat.le_refl _, by simp only [List.length_cons]; omega, ?_⟩
            intro j hj1 hj2
            simp only at hj1 hj2
            rcases Nat.eq_or_lt_of_le hj1 with hj | hj
            · rw [← hj, Nat.sub_self]
              exact ⟨x, rfl, by omega⟩
            · obtain ⟨v, hv1, hv2⟩ := hm3 (j - pos - 1) (by omega)
              have e : j - pos = (j - pos - 1) + 1 := by omega
              rw [e, List.get?_cons_succ]
              exact ⟨v, hv1, by omega⟩
          | succ k =>
            simp only [List.get?_cons_succ] at hk
            rcases h2 k r hk with he | ⟨q1, _, _, _⟩
            · exact Or.inl he
            · obtain ⟨p1, p2, p3⟩ := hrest k r hk q1
              exact Or.inr ⟨q1, by omega, p2, p3⟩
        · intro k1 k2 r1 r2 hlt hk1 hk2 hp1 hp2
          cases k2 with
          | zero => omega
          | succ k2 =>
            simp only [List.get?_cons_succ] at hk2
            cases k1 with
            | zero =>
              simp only [List.get?_cons_zero, Option.some.injEq] at hk1
              subst hk1
              exact (hrest k2 r2 hk2 hp2).1
            | succ k1 =>
              simp only [List.get?_cons_succ] at hk1
              exact h3 k1 k2 r1 r2 (by omega) hk1 hk2 hp1 hp2
      · rw [if_neg hx]
        obtain ⟨h1, h2, h3⟩ := ih (i + 1) pos (x :: t)
        obtain ⟨e1, e2⟩ := hempty (x :: t) h2 h3
        exact ⟨by rw [List.length_cons, h1], e1, e2⟩

/-- C36: for every list R, sorted or not, and every bits in [1,32],
`generate_ranges` returns 2^bits buckets; bucket k is the empty marker
(2^64 - 1, 0) or a non-empty range with start + length <= |R| whose entries
all have their low `bits` bits equal to k; and of two non-empty buckets the
one of the smaller key ends at or before the start of the other, so that
non-empty buckets are disjoint and their starts increase with the key. -/
theorem C36_generate_ranges_buckets (R : List Nat) (bits : Nat) (h0 : 0 < bits)
    (h32 : bits ≤ 32) :
    ∃ ranges, generate_ranges R bits = some ranges ∧ ranges.length = 2 ^ bits ∧
      (∀ k r, ranges.get? k = some r →
        r = (U64 - 1, 0) ∨
          (0 < r.2 ∧ r.1 + r.2 ≤ R.length ∧
            ∀ j, r.1 ≤ j → j < r.1 + r.2 → ∃ v, R.get? j = some v ∧ v % 2 ^ bits = k)) ∧
      ∀ k1 k2 r1 r2, k1 < k2 → ranges.get? k1 = some r1 → ranges.get? k2 = some r2 →
        0 < r1.2 → 0 < r2.2 → r1.1 + r1.2 ≤ r2.1 ∧ r1.1 < r2.1 := by
  obtain ⟨h1, h2, h3⟩ := generate_ranges_loop_spec (2 ^ bits - 1) (2 ^ bits) 0 0 R
  refine ⟨generate_ranges_loop (2 ^ bits - 1) (2 ^ bits) 0 0 R, ?_, h1, ?_, ?_⟩
  · unfold generate_ranges
    rw [if_pos ⟨h0, h32⟩]
    simp only [Nat.one_shiftLeft]
  · intro k r hk
    rcases h2 k r hk with he | ⟨q1, _, q3, q4⟩
    · exact Or.inl he
    · refine Or.inr ⟨q1, by omega, ?_⟩
      intro j hj1 hj2
      obtain ⟨v, hv1, hv2⟩ := q4 j hj1 hj2
      rw [Nat.sub_zero] at hv1
      rw [Nat.and_pow_two_sub_one_eq_mod, Nat.zero_add] at hv2
      exact ⟨v, hv1, hv2⟩
  · intro k1 k2 r1 r2 hlt hk1 hk2 hp1 hp2
    have := h3 k1 k2 r1 r2 hlt hk1 hk2 hp1 hp2
    exact ⟨this, by omega⟩

/-- C36 for the unsorted list [5, 5, 4, 5] and 2 bits. -/
theorem C36_generate_ranges_buckets_witness :
    0 < 2 ∧ 2 ≤ 32 ∧
      ∃ ranges, generate_ranges [5, 5, 4, 5] 2 = some ranges ∧ ranges.length = 2 ^ 2 ∧
        (∀ k r, ranges.get? k = some r →
          r = (U64 - 1, 0) ∨
            (0 < r.2 ∧ r.1 + r.2 ≤ ([5, 5, 4, 5] : List Nat).length ∧
              ∀ j, r.1 ≤ j → j < r.1 + r.2 →
                ∃ v, ([5, 5, 4, 5] : List Nat).get? j = some v ∧ v % 2 ^ 2 = k)) ∧
        ∀ k1 k2 r1 r2, k1 < k2 → ranges.get? k1 = some r1 → ranges.get? k2 = some r2 →
          0 < r1.2 → 0 < r2.2 → r1.1 + r1.2 ≤ r2.1 ∧ r1.1 < r2.1 :=
  ⟨by decide, by decide, C36_generate_ranges_buckets [5, 5, 4, 5] 2 (by decide) (by decide)⟩

/-! ## The index on words below 2^16 -/

/-! The index on a list below 2^16. -/

theorem land_mask16 {x : Nat} (hx : x < 2 ^ 16) : x &&& (2 ^ 16 - 1) = x := by
  rw [Nat.and_pow_two_sub_one_eq_mod]
  exact Nat.mod_eq_of_lt hx

/-- On a strictly increasing list of words below 2^16 whose entries are all
at least `i`, bucket `i + k` is the position of the word `i + k` with length
1 when the list holds it, and the empty marker otherwise. -/
theorem generate_ranges_loop_sorted :
    ∀ (todo i pos : Nat) (rest : List Nat), rest.Pairwise (· < ·) →
      (∀ r ∈ rest, i ≤ r ∧ r < 2 ^ 16) →
      ∀ k, k < todo →
        (∀ p, rest.get? p = some (i + k) →
          (generate_ranges_loop (2 ^ 16 - 1) todo i pos rest).getD k empty_range
            = (pos + p, 1)) ∧
        (i + k ∉ rest →
          (generate_ranges_loop (2 ^ 16 - 1) todo i pos rest).getD k empty_range
            = empty_range) := by
  intro todo
  induction todo with
  | zero => intro i pos rest _ _ k hk; omega
  | succ todo ih =>
    intro i pos rest hsorted hall k hk
    cases rest with
    | nil =>
      rw [generate_ranges_loop]
      cases k with
      | zero => exact ⟨fun p hp => by simp at hp, fun _ => rfl⟩
      | succ k =>
        obtain ⟨h1, h2⟩ := ih (i + 1) pos [] hsorted (by simp) k (by omega)
        rw [List.getD_cons_succ]
        refine ⟨fun p hp => by simp at hp, fun _ => ?_⟩
        exact h2 (by simp)
    | cons x t =>
      have hx := hall x (List.mem_cons_self x t)
      rw [List.pairwise_cons] at hsorted
      obtain ⟨hxt, ht⟩ := hsorted
      rw [generate_ranges_loop, land_mask16 hx.2]
      by_cases hxi : x = i
      · rw [if_pos hxi]
        have hscan : generate_ranges_scan (2 ^ 16 - 1) i t 1 = (t, 1) := by
          cases t with
          | nil => rfl
          | cons y t2 =>
            have hy := hall y (List.mem_cons_of_mem x (List.mem_cons_self y t2))
            have hxy := hxt y (List.mem_cons_self y t2)
            rw [generate_ranges_scan, land_mask16 hy.2, if_neg (by omega)]
        simp only [hscan]
        have hall' : ∀ r ∈ t, i + 1 ≤ r ∧ r < 2 ^ 16 := by
          intro r hr
          have h1 := hxt r hr
          have h2 := hall r (List.mem_cons_of_mem x hr)
          exact ⟨by omega, h2.2⟩
        cases k with
        | zero =>
          refine ⟨?_, ?_⟩
          · intro p hp
            cases p with
            | zero => rfl
            | succ p =>
              rw [List.get?_cons_succ] at hp
              have := (hall' _ (List.get?_mem hp)).1
              omega
          · intro hnot
            exact absurd (by rw [Nat.add_zero, ← hxi]; exact List.mem_cons_self x t) hnot
        | succ k =>
          obtain ⟨h1, h2⟩ := ih (i + 1) (pos + 1) t ht hall' k (by omega)
          rw [List.getD_cons_succ]
          refine ⟨?_, ?_⟩
          · intro p hp
            cases p with
            | zero =>
              simp only [List.get?_cons_zero, Option.some.injEq] at hp
              omega
            | succ p =>
              rw [List.get?_cons_succ] at hp
              have e : i + (k + 1) = i + 1 + k := by omega
              rw [e] at hp
              rw [h1 p hp]
              congr 1
              omega
          · intro hnot
            apply h2
            intro hc
            apply hnot
            have e : i + (k + 1) = i + 1 + k := by omega
            rw [e]
            exact List.mem_cons_of_mem x hc
      · rw [if_neg hxi]
        have hall' : ∀ r ∈ x :: t, i + 1 ≤ r ∧ r < 2 ^ 16 := by
          intro r hr
          have h2 := hall r hr
          rcases List.mem_cons.mp hr with hr1 | hr1
          · rw [hr1]; exact ⟨by omega, hx.2⟩
          · have := hxt r hr1
            exact ⟨by omega, h2.2⟩
        cases k with
        | zero =>
          refine ⟨?_, fun _ => rfl⟩
          intro p hp
          have := (hall' _ (List.get?_mem hp)).1
          omega
        | succ k =>
          obtain ⟨h1, h2⟩ := ih (i + 1) pos (x :: t) (List.pairwise_cons.mpr ⟨hxt, ht⟩) hall' k
            (by omega)
          rw [List.getD_cons_succ]
          have e : i + (k + 1) = i + 1 + k := by omega
          rw [e]
          exact ⟨h1, h2⟩

theorem lower_bound_one (states : List Nat) (first x : Nat) :
    lower_bound states first 1 x = if states.getD first 0 < x then first + 1 else first := by
  unfold lower_bound
  rw [lower_bound_loop]
  simp only [Nat.one_ne_zero, if_false, Nat.reduceDiv, Nat.add_zero, Nat.sub_zero,
    Nat.sub_self]
  by_cases h : states.getD first 0 < x
  · rw [if_pos h, if_pos h]; rfl
  · rw [if_neg h, if_neg h]; rfl

theorem lower_bound_zero (states : List Nat) (first x : Nat) :
    lower_bound states first 0 x = first := rfl

/-- On a strictly increasing list of words below 2^16 `index` is exact. -/
theorem index_exact_below_16 (R : List Nat) (x : Nat) (hsorted : R.Pairwise (· < ·))
    (hsmall : ∀ r ∈ R, r < 2 ^ 16) :
    (∀ p, R.get? p = some x →
        ({ _states := R, _ranges := generate_ranges_loop (2 ^ 16 - 1) (2 ^ 16) 0 0 R } :
          basis_cache_t).index x = index_result.value p) ∧
      (x ∉ R →
        ({ _states := R, _ranges := generate_ranges_loop (2 ^ 16 - 1) (2 ^ 16) 0 0 R } :
          basis_cache_t).index x = index_result.failure LS_NOT_A_REPRESENTATIVE) := by
  have hkey : x &&& ((1 <<< basis_cache_t.bits) - 1) = x % 2 ^ 16 := by
    unfold basis_cache_t.bits
    rw [Nat.one_shiftLeft, Nat.and_pow_two_sub_one_eq_mod]
  have hklt : x % 2 ^ 16 < 2 ^ 16 := Nat.mod_lt _ (Nat.two_pow_pos 16)
  obtain ⟨g1, g2⟩ := generate_ranges_loop_sorted (2 ^ 16) 0 0 R hsorted
    (fun r hr => ⟨Nat.zero_le _, hsmall r hr⟩) (x % 2 ^ 16) hklt
  rw [Nat.zero_add] at g1 g2
  refine ⟨?_, ?_⟩
  · intro p hp
    have hxlt := hsmall x (List.get?_mem hp)
    have hmod : x % 2 ^ 16 = x := Nat.mod_eq_of_lt hxlt
    rw [hmod] at g1
    have hbucket := g1 p hp
    rw [Nat.zero_add] at hbucket
    have hgetD : R.getD p 0 = x := by
      rw [List.getD_eq_getD_get?, hp]; rfl
    unfold basis_cache_t.index
    simp only [hkey, hmod, hbucket, lower_bound_one, hgetD, Nat.lt_irrefl, if_false]
    rw [if_neg (by omega)]
    exact if_pos trivial
  · intro hnot
    unfold basis_cache_t.index
    simp only [hkey]
    by_cases hk : x % 2 ^ 16 ∈ R
    · obtain ⟨p, hp⟩ := List.mem_iff_get?.mp hk
      have hbucket := g1 p hp
      rw [Nat.zero_add] at hbucket
      have hgetD : R.getD p 0 = x % 2 ^ 16 := by
        rw [List.getD_eq_getD_get?, hp]; rfl
      have hne : x % 2 ^ 16 ≠ x := by
        intro hc; rw [hc] at hk; exact hnot hk
      have hlt : x % 2 ^ 16 < x := by
        have := Nat.mod_le x (2 ^ 16)
        omega
      simp only [hbucket, lower_bound_one, hgetD, hlt, if_true]
    · have hbucket := g2 hk
      simp only [hbucket]
      simp only [empty_range, lower_bound_zero, Nat.add_zero, if_true]

/-- The cache a basis of at most 16 spins builds by enumeration has an exact
index. -/
theorem enumerated_index_exact (get_state_info : Nat → Nat × Bool) {n : Nat} (h : Option Nat)
    (max_threads : Nat) (x : Nat) (hn0 : 0 < n) (hn : n ≤ 16) (hh : ∀ k, h = some k → k ≤ n) :
    ∃ c, basis_cache_t.create get_state_info n h max_threads [] = some c ∧
      (∀ p, c.states.get? p = some x → c.index x = index_result.value p) ∧
      (x ∉ c.states → c.index x = index_result.failure LS_NOT_A_REPRESENTATIVE) := by
  have hsmall : ∀ r ∈ representatives get_state_info n h, r < 2 ^ 16 := by
    intro r hr
    have h1 := (mem_representatives.mp hr).1
    have h2 : 2 ^ n ≤ 2 ^ 16 := Nat.pow_le_pow_right (by decide) hn
    omega
  obtain ⟨h1, h2⟩ := index_exact_below_16 (representatives get_state_info n h) x
    (representatives_pairwise get_state_info n h) hsmall
  exact ⟨_, basis_cache_create_eq get_state_info h max_threads hn0 (by omega) hh, h1, h2⟩

/-- C35: if R is strictly increasing and every element of R is below 2^16,
the cache made from R holds R and `index` is exact on it: for every x,
`index(x)` returns the position of x in R when x is in R, and
`LS_NOT_A_REPRESENTATIVE` otherwise; the assertion never fails. -/
theorem C35_index_exact (R : List Nat) (x : Nat) (hsorted : R.Pairwise (· < ·))
    (hsmall : ∀ r ∈ R, r < 2 ^ 16) :
    ∃ c, basis_cache_t.of_states R = some c ∧ c.states = R ∧
      (∀ p, R.get? p = some x → c.index x = index_result.value p) ∧
      (x ∈ R → ∃ p, R.get? p = some x ∧ c.index x = index_result.value p) ∧
      (x ∉ R → c.index x = index_result.failure LS_NOT_A_REPRESENTATIVE) := by
  obtain ⟨h1, h2⟩ := index_exact_below_16 R x hsorted hsmall
  refine ⟨{ _states := R, _ranges := generate_ranges_loop (2 ^ 16 - 1) (2 ^ 16) 0 0 R }, ?_, rfl,
    h1, ?_, h2⟩
  · unfold basis_cache_t.of_states
    rw [generate_ranges_bits]
    rfl
  · intro hx
    obtain ⟨p, hp⟩ := List.mem_iff_get?.mp hx
    exact ⟨p, hp, h1 p hp⟩

/-- C35 for the list [0, 3, 65535] and x = 3. -/
theorem C35_index_exact_witness :
    ([0, 3, 65535] : List Nat).Pairwise (· < ·) ∧ (∀ r ∈ ([0, 3, 65535] : List Nat), r < 2 ^ 16) ∧
      ∃ c, basis_cache_t.of_states [0, 3, 65535] = some c ∧ c.states = [0, 3, 65535] ∧
        (∀ p, ([0, 3, 65535] : List Nat).get? p = some 3 → c.index 3 = index_result.value p) ∧
        (3 ∈ ([0, 3, 65535] : List Nat) →
          ∃ p, ([0, 3, 65535] : List Nat).get? p = some 3 ∧ c.index 3 = index_result.value p) ∧
        (3 ∉ ([0, 3, 65535] : List Nat) →
          c.index 3 = index_result.failure LS_NOT_A_REPRESENTATIVE) :=
  ⟨by decide, by decide, C35_index_exact [0, 3, 65535] 3 (by decide) (by decide)⟩

end lattice_symmetries
